import Mathlib

/-! # Query execution and cache of the `indexes` engine

A shallow embedding of `query.go`, `result.go`, `database.go`, `cache.go` and
the batching loop and the id decoder of `sqlite.go`. A Go panic (index out of
range, nil interface call) is the `none` of an `Option`; `int` and `uint32`
counters are natural numbers (they are only ever decremented while positive), the signed
computations of the code (`len(ranks) - q.offset - 1`, the cache `size`, the
pairs remaining in `SqliteStorage.Fill`) are carried out in `Int`. The order in
which Go ranges over a map is a parameter of `Bucket.gc`.
-/

namespace Indexes

/-- The 32-bit internal identifier (`uint32` in `query.go`, `Id` in `cache.go`). -/
abbrev Id := Nat

/-! ## Sets and lists -/

/-- Modelled from the spec: the `Set` type is not among the sources. Section 4.3
describes it as an id-to-unit map (for `exists`) together with an
insertion-order array (for `each`); the array is `ids`, and the map holds exactly
the ids of the array. -/
structure Set where
  ids : List Id
deriving DecidableEq

/-- Modelled from the spec: `len() -> S`. -/
def Set.Len (s : Set) : Nat := s.ids.length

/-- Modelled from the spec: `exists(id) -> bool`, the membership test. -/
def Set.Exists (s : Set) (id : Id) : Bool := decide (id ∈ s.ids)

/-- Modelled from the spec: `each(visit)` iterates in insertion order and the
visitor returns nothing. The visitor threads a state and may panic. -/
def Set.Each {σ : Type} (s : Set) (visit : σ → Id → Option σ) (st : σ) : Option σ :=
  s.ids.foldlM visit st

/-- Modelled from the spec: the empty singleton bound to names that miss
(`EmptySet` in `database.go`). -/
def EmptySet : Set := ⟨[]⟩

/-- Modelled from the spec: one pass over the id array that fills the
id-to-position map of a list (section 4.2), starting at position `i`. The map is
a list of bindings, the latest binding first. -/
def buildRank : List Id → Nat → List (Id × Nat) → List (Id × Nat)
  | [], _, m => m
  | id :: rest, i, m => buildRank rest (i + 1) ((id, i) :: m)

/-- Modelled from the spec: the `List` interface is not among the sources.
Section 4.2 describes it as an id array indexed by position with an auxiliary
id-to-position map built from the array in one pass. It is named `IdList`
here. -/
structure IdList where
  ids : List Id
deriving DecidableEq

/-- Modelled from the spec: `len() -> L`. -/
def IdList.Len (l : IdList) : Nat := l.ids.length

/-- Modelled from the spec: `rank(id) -> (position, present)`, a lookup in the
id-to-position map. -/
def IdList.Rank (l : IdList) (id : Id) : Option Nat :=
  (buildRank l.ids 0 []).lookup id

/-- The loop of `each`: visit the ids in turn, stop the first time the visitor
answers `false`; `none` is a panic inside the visitor. -/
def eachLoop {σ : Type} (visit : σ → Id → Option (σ × Bool)) : List Id → σ → Option σ
  | [], st => some st
  | id :: rest, st =>
    match visit st id with
    | none => none
    | some (st', true) => eachLoop visit rest st'
    | some (st', false) => some st'

/-- The ids of a list in the order of a traversal: back to front when
descending. -/
def IdList.order (l : IdList) (desc : Bool) : List Id :=
  if desc then l.ids.reverse else l.ids

/-- Modelled from the spec: `each(descending, visit)` traverses the ids in the
given direction and stops the first time `visit` returns false. -/
def IdList.Each {σ : Type} (l : IdList) (desc : Bool)
    (visit : σ → Id → Option (σ × Bool)) (st : σ) : Option σ :=
  eachLoop visit (l.order desc) st

/-! ## Result buffer -/

/-- An entry of the ranked scratch: `ranks[i].id` and the rank it was added
with (`addranked(id, rank)`). -/
structure Rank where
  id : Id
  rank : Nat
deriving DecidableEq

/-- The result buffer of `NewQueryPool`: the fixed-length `ids` array, the
fixed-length `ranked` scratch, the shared `length` counter and the `more` flag
set by `execute`. -/
structure NormalResult where
  ids : List Id
  ranked : List Rank
  length : Nat
  more : Bool
deriving DecidableEq

/-- Source `NormalResult.Add` of `result.go` (`add` in `query.go`):
`r.ids[r.length] = id; r.length += 1`. The write panics when `length` is not an
index of `ids`. -/
def NormalResult.add (r : NormalResult) (id : Id) : Option NormalResult :=
  if r.length < r.ids.length then
    some { r with ids := r.ids.set r.length id, length := r.length + 1 }
  else none

/-- Modelled from the spec: `addranked(id, rank)` appends to the ranked scratch,
which shares the `length` counter with `ids` (section 4.5). -/
def NormalResult.addranked (r : NormalResult) (id : Id) (rank : Nat) : Option NormalResult :=
  if r.length < r.ranked.length then
    some { r with ranked := r.ranked.set r.length ⟨id, rank⟩, length := r.length + 1 }
  else none

/-- Source `NormalResult.Len`. -/
def NormalResult.Len (r : NormalResult) : Nat := r.length

/-- Source `NormalResult.Ids`: `r.ids[:r.length]`. -/
def NormalResult.Ids (r : NormalResult) : List Id := r.ids.take r.length

/-- What `Execute` hands back: the shared `EmptyResult` or the query's own
buffer. -/
inductive Result where
  | empty : Result
  | normal : NormalResult → Result
deriving DecidableEq

/-- Modelled from the spec: `EmptyResult` is not among the sources; it is the
empty result, no ids and `more = false`. -/
def EmptyResult : Result := Result.empty

/-- The ids of a result. -/
def Result.Ids : Result → List Id
  | Result.empty => []
  | Result.normal r => r.Ids

/-- The number of ids of a result. -/
def Result.Len : Result → Nat
  | Result.empty => 0
  | Result.normal r => r.Len

/-- The `more` flag of a result. -/
def Result.more : Result → Bool
  | Result.empty => false
  | Result.normal r => r.more

/-! ## Attached sets -/

/-- The `Sets` of a query: the array `s` of capacity `maxSets` and the count
`l` of attached sets (`q.sets.s`, `q.sets.l`). -/
structure Sets where
  s : List Set
  l : Nat
deriving DecidableEq

/-- Modelled from the spec: `Sets.Add` is not among the sources; it stores the
set in the next free slot and counts it. Writing past the capacity panics. -/
def Sets.Add (sets : Sets) (set : Set) : Option Sets :=
  if sets.l < sets.s.length then
    some { s := sets.s.set sets.l set, l := sets.l + 1 }
  else none

/-- Modelled from the spec: `Sets.Sort` is not among the sources; it sorts the
attached sets (the first `l` slots) ascending by length. Sets of equal length
keep their order here; the theorems only use that the outcome is a permutation
of the attached sets in ascending length. -/
def Sets.Sort (sets : Sets) : Sets :=
  { sets with
    s := (sets.s.take sets.l).insertionSort (fun a b => a.Len ≤ b.Len) ++ sets.s.drop sets.l }

/-! ## Queries -/

/-- Source `QueryPoolSize`. -/
def QueryPoolSize : Nat := 64

/-- Source `SmallSetTreshold`. -/
def SmallSetTreshold : Nat := 100

/-- The `Query` of `query.go`; the database pointer `db` is passed to the
operations that use it. -/
structure Query where
  limit : Nat
  offset : Nat
  sort : Option IdList
  desc : Bool
  sets : Sets
  result : NormalResult
deriving DecidableEq

/-- Source `QueryPool`: the channel of pooled queries, oldest first. -/
abbrev QueryPool := List Query

/-- The query built by one round of the loop of `NewQueryPool`. A slot of the
`sets` array that was never written holds `EmptySet` in place of Go's nil
interface; the code reads no slot at or beyond `l`. -/
def newQuery (maxSets maxResults : Nat) : Query :=
  { limit := 50
    offset := 0
    sort := none
    desc := false
    sets := { s := List.replicate maxSets EmptySet, l := 0 }
    result :=
      { ids := List.replicate maxResults 0
        ranked := List.replicate SmallSetTreshold ⟨0, 0⟩
        length := 0
        more := false } }

/-- Source `NewQueryPool`: `QueryPoolSize` queries. -/
def NewQueryPool (maxSets maxResults : Nat) : QueryPool :=
  List.replicate QueryPoolSize (newQuery maxSets maxResults)

/-- Source `QueryPool.Checkout`: receive a query from the channel and bind the sort
list. An empty pool blocks, which is `none`. -/
def QueryPool.Checkout (p : QueryPool) (sort : Option IdList) : Option (Query × QueryPool) :=
  match p with
  | [] => none
  | q :: rest => some ({ q with sort := sort }, rest)

/-- The part of `Database` the query path reads: the named sets, the named
lists and the query pool. -/
structure Database where
  sets : List (String × Set)
  lists : List (String × IdList)
  queries : QueryPool

/-- Source `Database.GetList`: `db.lists[name]`, nil for a name that is not a list. -/
def Database.GetList (db : Database) (name : String) : Option IdList :=
  db.lists.lookup name

/-- Source `Database.GetSet`: the named set, `EmptySet` when the name is not a set. -/
def Database.GetSet (db : Database) (name : String) : Set :=
  match db.sets.lookup name with
  | some s => s
  | none => EmptySet

/-- Source `Database.Query`: check a query out of the pool for the named list. -/
def Database.Query (db : Database) (sort : String) : Option (Query × Database) :=
  match db.queries.Checkout (db.GetList sort) with
  | none => none
  | some (q, rest) => some (q, { db with queries := rest })

/-- Source `Query.Offset`. -/
def Query.Offset (q : Query) (offset : Nat) : Query := { q with offset := offset }

/-- Source `Query.Limit`. -/
def Query.Limit (q : Query) (limit : Nat) : Query := { q with limit := limit }

/-- Source `Query.Desc`. -/
def Query.Desc (q : Query) : Query := { q with desc := true }

/-- Source `Query.And`: `q.sets.Add(q.db.GetSet(set))`. -/
def Query.And (db : Database) (q : Query) (set : String) : Option Query :=
  match q.sets.Add (db.GetSet set) with
  | none => none
  | some sets => some { q with sets := sets }

/-- Source `Query.release`: reset the query and send it to the pool. -/
def Query.release (q : Query) (pool : QueryPool) : Query × QueryPool :=
  let q' := { q with offset := 0, limit := 50, sets := { q.sets with l := 0 }, desc := false }
  (q', pool ++ [q'])

/-- Modelled from the spec: the `Release` of the result of `query.go` is not
among the sources (`result.go` holds an earlier one, which zeroes `length` and
returns the buffer to its pool). It zeroes the length and releases the owning
query (section 4.5; `release` is "called when the result is released"). -/
def NormalResult.Release (q : Query) (pool : QueryPool) : Query × QueryPool :=
  Query.release { q with result := { q.result with length := 0 } } pool

/-! ## Filters -/

/-- A `Filter`; `none` is an index out of range in `q.sets.s`. -/
abbrev Filter := Id → Option Bool

/-- Source `noFilter`. -/
def noFilter : Filter := fun _ => some true

/-- Source `oneSetFilter`. -/
def oneSetFilter (sets : Sets) (start : Nat) : Filter := fun id =>
  match sets.s[start]? with
  | none => none
  | some a => some (a.Exists id)

/-- Source `twoSetsFilter`; `&&` does not evaluate its right side after a false. -/
def twoSetsFilter (sets : Sets) (start : Nat) : Filter := fun id =>
  match oneSetFilter sets start id with
  | some true => oneSetFilter sets (start + 1) id
  | r => r

/-- Source `threeSetsFilter`. -/
def threeSetsFilter (sets : Sets) (start : Nat) : Filter := fun id =>
  match twoSetsFilter sets start id with
  | some true => oneSetFilter sets (start + 2) id
  | r => r

/-- Source `fourSetsFilter`. -/
def fourSetsFilter (sets : Sets) (start : Nat) : Filter := fun id =>
  match threeSetsFilter sets start id with
  | some true => oneSetFilter sets (start + 3) id
  | r => r

/-- The loop of `multiSetsFilter`, `n` rounds from index `i`. -/
def multiSetsLoop (sets : Sets) (id : Id) : Nat → Nat → Option Bool
  | 0, _ => some true
  | n + 1, i =>
    match sets.s[i]? with
    | none => none
    | some a => if a.Exists id = false then some false else multiSetsLoop sets id n (i + 1)

/-- Source `multiSetsFilter`: `for i := start; i < q.sets.l; i++`, which is
`q.sets.l - start` rounds. -/
def multiSetsFilter (sets : Sets) (start : Nat) : Filter := fun id =>
  multiSetsLoop sets id (sets.l - start) start

/-- Source `Query.getFilter`: the switch on `count - start`. -/
def getFilter (sets : Sets) (count start : Nat) : Filter :=
  let d : Int := (count : Int) - (start : Int)
  if d = 0 then noFilter
  else if d = 1 then oneSetFilter sets start
  else if d = 2 then twoSetsFilter sets start
  else if d = 3 then threeSetsFilter sets start
  else if d = 4 then fourSetsFilter sets start
  else multiSetsFilter sets start

/-! ## Execution -/

/-- The visitor that `Query.execute` hands to `Each`: the answer is whether the
traversal continues. -/
def executeVisit (filter : Filter) (q : Query) (id : Id) : Option (Query × Bool) :=
  match filter id with
  | none => none
  | some false => some (q, true)
  | some true =>
    if q.offset > 0 then
      some ({ q with offset := q.offset - 1 }, true)
    else if q.limit = 0 then
      some ({ q with result := { q.result with more := true } }, false)
    else
      match q.result.add id with
      | none => none
      | some r => some ({ q with result := r, limit := q.limit - 1 }, true)

/-- Source `Query.execute` (sort-scan) on the sort list `sort` of the query. -/
def Query.execute (q : Query) (sort : IdList) (filter : Filter) : Option Query :=
  sort.Each q.desc (executeVisit filter) q

/-- The visitor that `Query.setExecute` hands to `set.Each`. -/
def setExecuteVisit (filter : Filter) (sort : IdList) (r : NormalResult) (id : Id) :
    Option NormalResult :=
  match filter id with
  | none => none
  | some false => some r
  | some true =>
    match sort.Rank id with
    | some rank => r.addranked id rank
    | none => some r

/-- Modelled from the spec: the `sort.Sort` of the ranked scratch (the `Ranks`
type is not among the sources) sorts ascending by rank. -/
def sortRanks (ranks : List Rank) : List Rank :=
  ranks.insertionSort (fun a b => a.rank ≤ b.rank)

/-- Source `Query.setExecuteAdd`: the answer is whether the walk continues. -/
def setExecuteAdd (q : Query) (id : Id) : Option (Query × Bool) :=
  if q.limit = 0 then
    some ({ q with result := { q.result with more := true } }, false)
  else
    match q.result.add id with
    | none => none
    | some r => some ({ q with result := r, limit := q.limit - 1 }, true)

/-- The descending walk of `setExecute` from index `i` down to 0
(`for i := ...; i > -1; i--`). -/
def descLoop (ranks : List Rank) : Nat → Query → Option Query
  | i, q =>
    match ranks[i]? with
    | none => none
    | some rk =>
      match setExecuteAdd q rk.id with
      | none => none
      | some (q', false) => some q'
      | some (q', true) =>
        match i with
        | 0 => some q'
        | j + 1 => descLoop ranks j q'

/-- The ascending walk of `setExecute`, `n` rounds from index `i`
(`for i, l := q.offset, len(ranks); i < l; i++` is `l - q.offset` rounds). -/
def ascLoop (ranks : List Rank) : Nat → Nat → Query → Option Query
  | 0, _, q => some q
  | n + 1, i, q =>
    match ranks[i]? with
    | none => none
    | some rk =>
      match setExecuteAdd q rk.id with
      | none => none
      | some (q', false) => some q'
      | some (q', true) => ascLoop ranks n (i + 1) q'

/-- Source `Query.setExecute` (set-driven) on the sort list `sort` of the query. -/
def Query.setExecute (q : Query) (sort : IdList) (filter : Filter) : Option Query :=
  match q.sets.s[0]? with
  | none => none
  | some set =>
    match set.Each (setExecuteVisit filter sort) q.result with
    | none => none
    | some r =>
      let ranks := sortRanks (r.ranked.take r.length)
      let q1 : Query :=
        { q with result := { r with ranked := ranks ++ r.ranked.drop r.length, length := 0 } }
      if q.desc then
        let i : Int := (ranks.length : Int) - (q.offset : Int) - 1
        if i > -1 then descLoop ranks i.toNat q1 else some q1
      else
        ascLoop ranks (ranks.length - q.offset) q.offset q1

/-- The state after `Execute`: the result handed back, the query, and the
pool. -/
structure Outcome where
  result : Result
  query : Query
  pool : QueryPool
deriving DecidableEq

/-- The two early exits of `Execute`: `q.result.Release(); return EmptyResult`. -/
def releaseEmpty (q : Query) (pool : QueryPool) : Outcome :=
  let qp := NormalResult.Release q pool
  { result := EmptyResult, query := qp.1, pool := qp.2 }

/-- The exits of `Execute` that return `q.result`. -/
def returnResult (pool : QueryPool) : Option Query → Option Outcome
  | none => none
  | some q => some { result := Result.normal q.result, query := q, pool := pool }

/-- Source `Query.Execute`. -/
def Query.Execute (q : Query) (pool : QueryPool) : Option Outcome :=
  match q.sort with
  | none => some (releaseEmpty q pool)
  | some sort =>
    if q.limit = 0 then some (releaseEmpty q pool)
    else
      let l := q.sets.l
      if l = 0 then returnResult pool (q.execute sort noFilter)
      else
        let q := { q with sets := q.sets.Sort }
        match q.sets.s[0]? with
        | none => none
        | some s0 =>
          let sl := s0.Len
          if sl = 0 then some (releaseEmpty q pool)
          else if sl < SmallSetTreshold ∧ sort.Len > 1000 then
            returnResult pool (q.setExecute sort (getFilter q.sets l 1))
          else
            returnResult pool (q.execute sort (getFilter q.sets l 0))

/-! ## Reading a filter -/

/-- The conjunction a filter stands for: every set of `ss` holds `id`. -/
def existsAll (ss : List Set) (id : Id) : Bool := ss.all (fun a => a.Exists id)


/-! ## Reading a query -/

/-- The sets attached to a query: the first `l` slots of `q.sets.s`. -/
def Query.attached (q : Query) : List Set := q.sets.s.take q.sets.l

/-- Whether an id is a member of every attached set. -/
def Query.passes (q : Query) (id : Id) : Bool := existsAll q.attached id

/-- The ids of the sort list that pass every attached set, in the direction of
the query. -/
def Query.filtered (q : Query) (sort : IdList) : List Id :=
  (sort.order q.desc).filter q.passes

/-- The page the query asks for: the filtered traversal with the first
`offset` ids skipped and at most `limit` kept. -/
def Query.page (q : Query) (sort : IdList) : List Id :=
  ((q.filtered sort).drop q.offset).take q.limit


/-- The canonical state of a pooled query: offset 0, limit 50, no attached
set, ascending. -/
def Query.canonical (q : Query) : Prop :=
  q.offset = 0 ∧ q.limit = 50 ∧ q.sets.l = 0 ∧ q.desc = false

instance (q : Query) : Decidable q.canonical := by
  unfold Query.canonical
  exact inferInstance

/-- A run of `And` calls, one per name, in order. -/
def Query.AndAll (db : Database) (q : Query) (names : List String) : Option Query :=
  names.foldlM (Query.And db) q

/-! ## Reading the ranked scratch -/

/-- The ids of a set that the first phase of `setExecute` keeps: they pass the
filter and have a rank in the sort list. -/
def candidates (sort : IdList) (pass : Id → Bool) (xs : List Id) : List Id :=
  xs.filter (fun id => pass id && (sort.Rank id).isSome)

/-- The entry `addranked` stores for an id. -/
def rankOf (sort : IdList) (id : Id) : Rank := ⟨id, (sort.Rank id).getD 0⟩


/-! ## Cache -/

/-- Source `BUCKET_COUNT`. -/
def BUCKET_COUNT : Nat := 16

/-- Source `BUCKET_MASK`. -/
def BUCKET_MASK : Nat := BUCKET_COUNT - 1

/-- A payload, `[]byte`: the bytes as numbers below 256. The nil slice is the
`none` of `Option Bytes`. -/
abbrev Bytes := List Nat

/-- The `len(value)` of a payload that may be nil, as the `int64` added to `size`
(sizes stay far below 2^63, so `int64` is `Int`). -/
def payloadLen : Option Bytes → Int
  | none => 0
  | some p => (p.length : Int)

/-- An `Item`: the instant `expires` (an integer count of clock ticks) and the
payload `value`. -/
structure Item where
  expires : Int
  value : Option Bytes
deriving DecidableEq

/-- A `Bucket`: the map `lookup` from id to item, as a list of bindings with at
most one binding per id. The lock of the bucket has no sequential content. -/
structure Bucket where
  lookup : List (Id × Item)
deriving DecidableEq

/-- Source `Bucket.get`: `b.lookup[id]`, nil when the id has no binding. -/
def Bucket.get (b : Bucket) (id : Id) : Option Item :=
  b.lookup.lookup id

/-- Source `Bucket.remove`: delete the binding, and report whether there was one. -/
def Bucket.remove (b : Bucket) (id : Id) : Bool × Bucket :=
  ((b.lookup.lookup id).isSome, { lookup := b.lookup.filter (fun p => p.1 ≠ id) })

/-- Source `Bucket.set`: bind the id to the item, and report whether the id was
new. -/
def Bucket.set (b : Bucket) (id : Id) (item : Item) : Bool × Bucket :=
  (!(b.lookup.lookup id).isSome,
    { lookup := (id, item) :: b.lookup.filter (fun p => p.1 ≠ id) })

/-- The `Fetcher` interface: the batch `Fill`, which gets the stream of misses
and the payload slots and answers its error (nil is `none`) with the slots as
it leaves them, and the single-id `Get`. -/
structure Fetcher where
  Fill : List Nat → List (Option Bytes) → Option String × List (Option Bytes)
  Get : Id → Option Bytes

/-- The `Cache`: the flag `gcing`, the byte count `size`, the soft maximum
`max`, the fetcher (nil is `none`), the time to live `ttl` in clock ticks and
the `BUCKET_COUNT` buckets. -/
structure Cache where
  gcing : Nat
  size : Int
  max : Int
  fetcher : Option Fetcher
  ttl : Int
  buckets : Fin BUCKET_COUNT → Bucket

/-- Source `newCache`: empty buckets, `ttl` and `max` from the configuration. -/
def newCache (fetcher : Option Fetcher) (cacheTTL cacheSize : Int) : Cache :=
  { gcing := 0
    size := 0
    max := cacheSize
    fetcher := fetcher
    ttl := cacheTTL
    buckets := fun _ => { lookup := [] } }

/-- The index `id & BUCKET_MASK` of the bucket of an id. -/
def bucketIndex (id : Id) : Fin BUCKET_COUNT :=
  ⟨id &&& BUCKET_MASK, Nat.lt_succ_of_le Nat.and_le_right⟩

/-- Source `Cache.bucket`: `c.buckets[id&BUCKET_MASK]`. -/
def Cache.bucket (c : Cache) (id : Id) : Bucket :=
  c.buckets (bucketIndex id)

/-- The cache after the bucket of `id` was changed in place to `b`. -/
def Cache.withBucket (c : Cache) (id : Id) (b : Bucket) : Cache :=
  { c with buckets := Function.update c.buckets (bucketIndex id) b }

/-- Source `Cache.get` when the clock reads `now`: the live payload of the id, or nil
after removing an expired entry. -/
def Cache.get (c : Cache) (now : Int) (id : Id) : Option Bytes × Cache :=
  let bucket := c.bucket id
  match bucket.get id with
  | none => (none, c)
  | some item =>
    if item.expires > now then (item.value, c)
    else
      let removed := bucket.remove id
      let c' := c.withBucket id removed.2
      if removed.1 = true then
        (none, { c' with size := c'.size + payloadLen item.value })
      else (none, c')

/-- Source `Cache.set` when the clock reads `now`. A GC that the call starts
(`go c.gc()`) is left pending with `gcing = 1`; it runs as a later step. -/
def Cache.set (c : Cache) (now : Int) (id : Id) (value : Option Bytes) : Cache :=
  let item : Item := { value := value, expires := now + c.ttl }
  let stored := (c.bucket id).set id item
  let c' := c.withBucket id stored.2
  if stored.1 = true then
    let c'' := { c' with size := c'.size + payloadLen value }
    if c''.size ≥ c.max ∧ c''.gcing = 0 then { c'' with gcing := 1 } else c''
  else c'

/-- Source `Cache.Fetch`: the clock reads `now` in `get` and `later` in `set`. Calling
`Get` on a nil fetcher panics, which is `none`. -/
def Cache.Fetch (c : Cache) (now later : Int) (id : Id) : Option (Option Bytes × Cache) :=
  match c.get now id with
  | (some payload, c1) => some (some payload, c1)
  | (none, c1) =>
    match c1.fetcher with
    | none => none
    | some fetcher =>
      match fetcher.Get id with
      | some payload => some (some payload, c1.set later id (some payload))
      | none => some (none, c1)

/-! ## Cache garbage collection -/

/-- Source `nullItem`: the sentinel with which `Bucket.gc` starts its search, a
nil payload that expires at `sentinel`, the instant 1000 hours after the
package was initialised. -/
def nullItem (sentinel : Int) : Item := { expires := sentinel, value := none }

/-- The loop of `Bucket.gc` over the entries the `range` statement yields: the
state is `(oldestId, oldest)`, replaced by an entry that expires before
`oldest`. -/
def gcScan : List (Id × Item) → Id × Item → Id × Item
  | [], acc => acc
  | entry :: rest, acc =>
    gcScan rest (if entry.2.expires < acc.2.expires then entry else acc)

/-- Source `Bucket.gc`: `order` is the sequence in which `range b.lookup` yields
the bindings of the map (Go leaves it unspecified); the loop breaks after 10
entries. The search starts from id 0 (the zero value of `oldestId`) and
`nullItem`; the id found is deleted and the length of the payload found is
returned. -/
def Bucket.gc (b : Bucket) (sentinel : Int) (order : List (Id × Item)) : Int × Bucket :=
  let found := gcScan (order.take 10) (0, nullItem sentinel)
  (payloadLen found.2.value, { lookup := b.lookup.filter (fun p => p.1 ≠ found.1) })

/-- One round of the loop of `Cache.gc`: `freed += c.buckets[i].gc()`. -/
def gcStep (sentinel : Int) (orders : Fin BUCKET_COUNT → List (Id × Item))
    (acc : Int × Cache) (i : Fin BUCKET_COUNT) : Int × Cache :=
  let g := (acc.2.buckets i).gc sentinel (orders i)
  (acc.1 + g.1, { acc.2 with buckets := Function.update acc.2.buckets i g.2 })

/-- Source `Cache.gc`, run to completion: the buckets in order, then
`size -= freed` and `gcing = 0`. -/
def Cache.gc (c : Cache) (sentinel : Int) (orders : Fin BUCKET_COUNT → List (Id × Item)) :
    Cache :=
  let r := (List.finRange BUCKET_COUNT).foldl (gcStep sentinel orders) (0, c)
  { r.2 with size := r.2.size - r.1, gcing := 0 }

/-! ## Reading a cache -/

/-- The sum of `len(item.value)` over the bindings of a bucket. -/
def Bucket.stored (b : Bucket) : Int :=
  (b.lookup.map (fun p => payloadLen p.2.value)).sum

/-- The sum of `len(item.value)` over all entries stored in the buckets. -/
def Cache.stored (c : Cache) : Int :=
  ((List.finRange BUCKET_COUNT).map (fun i => (c.buckets i).stored)).sum

/-- The payload `get` answers for an id when the clock reads `now`: the value
of the entry of the id when that entry has not expired, nil otherwise. -/
def Cache.live (c : Cache) (now : Int) (id : Id) : Option Bytes :=
  match (c.bucket id).get id with
  | some item => if item.expires > now then item.value else none
  | none => none

/-- Whether the id has an entry that has expired when the clock reads `now`. -/
def Cache.expired (c : Cache) (now : Int) (id : Id) : Bool :=
  match (c.bucket id).get id with
  | some item => decide (item.expires ≤ now)
  | none => false

/-! ## Filling a result -/

/-- Modelled from the spec: the `misses` and `payloads` arrays of the result
buffer (section 4.5) are not in `result.go`. `misses` is the scratch of
interface values (positions and ids, both numbers here), `payloads` the slots
parallel to `ids`. -/
structure Scratch where
  misses : List Nat
  payloads : List (Option Bytes)
deriving DecidableEq

/-- The variables of the first loop of `Cache.Fill`. -/
structure FillState where
  cache : Cache
  missCount : Nat
  misses : List Nat
  payloads : List (Option Bytes)

/-- The body of the first loop of `Cache.Fill` at position `i`; a write outside
`misses` or `payloads` panics. -/
def fillVisit (now : Int) (st : FillState) (i : Nat) (id : Id) : Option FillState :=
  let got := st.cache.get now id
  match got.1 with
  | none =>
    if st.missCount + 1 < st.misses.length then
      some { cache := got.2
             missCount := st.missCount + 2
             misses := (st.misses.set st.missCount i).set (st.missCount + 1) id
             payloads := st.payloads }
    else none
  | some resource =>
    if i < st.payloads.length then
      some { cache := got.2
             missCount := st.missCount
             misses := st.misses
             payloads := st.payloads.set i (some resource) }
    else none

/-- The first loop of `Cache.Fill`: `for i, id := range result.Ids()`, from
position `i` on. -/
def fillScan (now : Int) : List Id → Nat → FillState → Option FillState
  | [], _, st => some st
  | id :: rest, i, st =>
    match fillVisit now st i id with
    | none => none
    | some st' => fillScan now rest (i + 1) st'

/-- The second loop of `Cache.Fill`, `n` rounds from index `i`
(`for i := 0; i < missCount; i += 2`): `c.set(misses[i+1], payloads[misses[i]])`. -/
def fillStore (later : Int) (misses : List Nat) (payloads : List (Option Bytes)) :
    Nat → Nat → Cache → Option Cache
  | 0, _, c => some c
  | n + 1, i, c =>
    match misses[i + 1]?, misses[i]? with
    | some id, some pos =>
      match payloads[pos]? with
      | some value => fillStore later misses payloads n (i + 2) (c.set later id value)
      | none => none
    | _, _ => none

/-- Source `Cache.Fill`: the clock reads `now` in the calls of `get` and `later` in
the calls of `set`. The answer is the error (nil is `none`), the scratch as the
call leaves it and the cache; a panic is `none`. -/
def Cache.Fill (c : Cache) (now later : Int) (result : NormalResult) (buf : Scratch) :
    Option (Option String × Scratch × Cache) :=
  match fillScan now result.Ids 0 ⟨c, 0, buf.misses, buf.payloads⟩ with
  | none => none
  | some st =>
    if st.missCount > 0 then
      match st.cache.fetcher with
      | none => none
      | some fetcher =>
        let filled := fetcher.Fill (st.misses.take st.missCount) st.payloads
        match filled.1 with
        | some err => some (some err, ⟨st.misses, filled.2⟩, st.cache)
        | none =>
          match fillStore later st.misses filled.2 ((st.missCount + 1) / 2) 0 st.cache with
          | none => none
          | some c' => some (none, ⟨st.misses, filled.2⟩, c')
    else some (none, ⟨st.misses, st.payloads⟩, st.cache)

/-- The stream of misses the first loop of `Fill` builds for the ids from
position `i` on: position and id of every id for which `get` answers nil. -/
def missStream (c : Cache) (now : Int) : List Id → Nat → List Nat
  | [], _ => []
  | id :: rest, i =>
    match c.live now id with
    | none => i :: id :: missStream c now rest (i + 1)
    | some _ => missStream c now rest (i + 1)

/-- The payload slots after the first loop of `Fill`: the slot of every id for
which `get` answers a payload holds that payload. -/
def hitPayloads (c : Cache) (now : Int) : List Id → Nat → List (Option Bytes) →
    List (Option Bytes)
  | [], _, payloads => payloads
  | id :: rest, i, payloads =>
    match c.live now id with
    | none => hitPayloads c now rest (i + 1) payloads
    | some p => hitPayloads c now rest (i + 1) (payloads.set i (some p))

/-- The fetcher of the tests (`buildResources`): the payload of an id is its
decimal representation in ASCII; it writes the slot of every miss and never
fails. -/
def testFill : List Nat → List (Option Bytes) → List (Option Bytes)
  | pos :: id :: rest, payloads =>
    testFill rest (payloads.set pos (some ((Nat.toDigits 10 id).map Char.toNat)))
  | _, payloads => payloads

/-- The fetcher of the tests as a `Fetcher`. -/
def testFetcher : Fetcher :=
  { Fill := fun misses payloads => (none, testFill misses payloads)
    Get := fun id => some ((Nat.toDigits 10 id).map Char.toNat) }

/-! ## Predicates and runs of the cache claims -/

/-- The keys of a bucket are its ids; a map binds every id at most once. -/
def Bucket.keysNodup (b : Bucket) : Prop := (b.lookup.map Prod.fst).Nodup

/-- The cache keeps track of its bytes: `size` is the sum of the payload
lengths stored, and no bucket binds an id twice. -/
def Cache.consistent (c : Cache) : Prop :=
  c.size = c.stored ∧ ∀ i, (c.buckets i).keysNodup

/-- The lookups that `Fill` and a run of `get` calls make, in order. -/
def getAll (now : Int) (ids : List Id) (c : Cache) : Cache :=
  ids.foldl (fun c id => (c.get now id).2) c

/-- The `(position, id)` pairs of a stream of misses. -/
def streamPairs : List Nat → List (Nat × Id)
  | pos :: id :: rest => (pos, id) :: streamPairs rest
  | _ => []

/-- The stores of the second loop of `Fill` for a stream of misses:
`set(id, payloads[position])` for every pair, in order. -/
def storePairs (later : Int) (payloads : List (Option Bytes)) (stream : List Nat)
    (c : Cache) : Cache :=
  (streamPairs stream).foldl (fun c p => c.set later p.2 (payloads.getD p.1 none)) c

/-- The stream of misses of a `Fill` of the result: position and id of every id
of the result for which `get` answers nil. -/
def Cache.missed (c : Cache) (now : Int) (result : NormalResult) : List Nat :=
  missStream c now result.Ids 0

/-- The payload slots of a `Fill` of the result when the fetcher is called: the
hits written to their slots. -/
def Cache.hitSlots (c : Cache) (now : Int) (result : NormalResult) (buf : Scratch) :
    List (Option Bytes) :=
  hitPayloads c now result.Ids 0 buf.payloads

/-- A result buffer that holds the given ids. -/
def resultOf (ids : List Id) : NormalResult :=
  { ids := ids, ranked := [], length := ids.length, more := false }

/-- A fetcher whose batch `Fill` fails. -/
def failingFetcher : Fetcher :=
  { Fill := fun _ payloads => (some "unavailable", payloads)
    Get := fun _ => none }

/-- An operation on the cache in a sequential run: `set`, `get`, `Fetch`,
`Fill` and a completed `gc`, each with the clock readings and arguments of the
call. -/
inductive CacheOp where
  | set (now : Int) (id : Id) (value : Option Bytes)
  | get (now : Int) (id : Id)
  | fetch (now later : Int) (id : Id)
  | fill (now later : Int) (result : NormalResult) (buf : Scratch)
  | gc (sentinel : Int) (orders : Fin BUCKET_COUNT → List (Id × Item))

/-- The cache an operation leaves; `none` is a panic. -/
def CacheOp.run (c : Cache) : CacheOp → Option Cache
  | CacheOp.set now id value => some (c.set now id value)
  | CacheOp.get now id => some (c.get now id).2
  | CacheOp.fetch now later id => (c.Fetch now later id).map (fun r => r.2)
  | CacheOp.fill now later result buf => (c.Fill now later result buf).map (fun r => r.2.2)
  | CacheOp.gc sentinel orders => some (c.gc sentinel orders)

/-- The operations on which `size` keeps track of the stored bytes: a `set`
of a new id or of a payload as long as the one it replaces; a `get` of an id
without an expired entry; a `Fetch` of an id that is not stored or has a live
payload; a `Fill` of distinct ids, each not stored or with a live payload, with
room in the scratch arrays and a fetcher that keeps the number of slots; a `gc`
that visits bindings of the buckets and in every bucket either finds a sampled
entry that expires before the sentinel or no entry for id 0. -/
def CacheOp.tracked (c : Cache) : CacheOp → Prop
  | CacheOp.set _ id value =>
    ∀ old, (c.bucket id).get id = some old → payloadLen old.value = payloadLen value
  | CacheOp.get now id => c.expired now id = false
  | CacheOp.fetch now _ id => c.live now id ≠ none ∨ (c.bucket id).get id = none
  | CacheOp.fill now _ result buf =>
    2 * result.Ids.length ≤ buf.misses.length ∧ result.Ids.length ≤ buf.payloads.length ∧
      result.Ids.Nodup ∧
      (∀ id ∈ result.Ids, c.live now id ≠ none ∨ (c.bucket id).get id = none) ∧
      ∀ f, c.fetcher = some f →
        (f.Fill (c.missed now result) (c.hitSlots now result buf)).2.length =
          buf.payloads.length
  | CacheOp.gc sentinel orders =>
    (∀ i, ∀ e ∈ orders i, e ∈ (c.buckets i).lookup) ∧
      ∀ i, (∃ e ∈ (orders i).take 10, e.2.expires < sentinel) ∨ (c.buckets i).get 0 = none

/-- A sequential run of operations. -/
def runOps (c : Cache) : List CacheOp → Option Cache
  | [] => some c
  | op :: rest =>
    match op.run c with
    | none => none
    | some c' => runOps c' rest

/-- Every operation of the run is one on which `size` keeps track, in the
state in which it is made. -/
def trackedRun (c : Cache) : List CacheOp → Prop
  | [] => True
  | op :: rest => op.tracked c ∧ ∀ c', op.run c = some c' → trackedRun c' rest

/-- The bindings of every bucket in the order the model keeps them, one of
the orders in which `range` may yield them. -/
def Cache.bindings (c : Cache) : Fin BUCKET_COUNT → List (Id × Item) :=
  fun i => (c.buckets i).lookup

/-- An insert-then-GC round: `set(id, p)` at time `now`, and the GC it starts,
if it starts one, run to completion before anything else; `orders` is the
order in which that GC visits the bindings of each bucket. -/
def insertRound (sentinel : Int) (c : Cache) (now : Int) (id : Id) (p : Bytes)
    (orders : Fin BUCKET_COUNT → List (Id × Item)) : Cache :=
  let c1 := c.set now id (some p)
  if c1.gcing = 1 then c1.gc sentinel orders else c1

/-- The arguments of a round. -/
structure Insert where
  now : Int
  id : Id
  payload : Bytes
  orders : Fin BUCKET_COUNT → List (Id × Item)

/-- A run of insert-then-GC rounds. -/
def insertRounds (sentinel : Int) (c : Cache) : List Insert → Cache
  | [] => c
  | r :: rest => insertRounds sentinel (insertRound sentinel c r.now r.id r.payload r.orders) rest

/-- The orders of the rounds are orders of the bindings: in every round the
order for a bucket is a permutation of the bindings that bucket holds after
the `set`. -/
def validRounds (sentinel : Int) (c : Cache) : List Insert → Prop
  | [] => True
  | r :: rest =>
    (∀ i, List.Perm (r.orders i) ((c.set r.now r.id (some r.payload)).bindings i)) ∧
      validRounds sentinel (insertRound sentinel c r.now r.id r.payload r.orders) rest

/-- A round whose GC visits the bindings in the order the model keeps them. -/
def insertOwn (sentinel : Int) (c : Cache) (r : Int × Id × Bytes) : Cache :=
  insertRound sentinel c r.1 r.2.1 r.2.2 (c.set r.1 r.2.1 (some r.2.2)).bindings

/-- Every entry stored has a payload of `L` bytes and expires before the
sentinel. -/
def Cache.uniform (c : Cache) (L : Nat) (sentinel : Int) : Prop :=
  ∀ i, ∀ e ∈ (c.buckets i).lookup, payloadLen e.2.value = (L : Int) ∧ e.2.expires < sentinel

/-- The rounds of a run of inserts in which every GC visits the bindings in
the order the model keeps them. -/
def ownRounds (sentinel : Int) (c : Cache) : List (Int × Id × Bytes) → List Insert
  | [] => []
  | r :: rest =>
    ⟨r.1, r.2.1, r.2.2, (c.set r.1 r.2.1 (some r.2.2)).bindings⟩ ::
      ownRounds sentinel (insertOwn sentinel c r) rest

/-- Twenty inserts of 100 bytes on the ids 1 to 20, one per clock tick. -/
def twentyInserts : List (Int × Id × Bytes) :=
  (List.range 20).map (fun (i : Nat) => (Int.ofNat i, i + 1, List.replicate 100 0))

/-! ## The batches of the SQLite fetcher -/

/-- The ladder of batch sizes of `newSqliteStorage`. -/
def sizes : List Nat := [25, 20, 15, 10, 5, 4, 3, 2, 1]

/-- The inner loop of `SqliteStorage.Fill`:
`for _, batcher = range s.batchers { if batcher.count <= l { break } }`. The
answer is the count of `batcher` after the loop, `cur` before it. -/
def pickBatcher : List Nat → Nat → Int → Nat
  | [], cur, _ => cur
  | count :: rest, _, l => if (count : Int) ≤ l then count else pickBatcher rest count l

/-- The rows a batch query answers: its error (nil is `none`) and the
`(index, summary)` pairs scanned from the rows. -/
abbrev BatchQuery := List Nat → Option String × List (Nat × Option Bytes)

/-- The loop `for rows.Next()` of `SqliteStorage.Fill`:
`payloads[index] = summary`, a panic when the index is out of range. -/
def scanRows : List (Nat × Option Bytes) → List (Option Bytes) → Option (List (Option Bytes))
  | [], payloads => some payloads
  | (index, summary) :: rest, payloads =>
    if index < payloads.length then scanRows rest (payloads.set index summary) else none

/-- What a run of `SqliteStorage.Fill` leaves: the error it returns, the
payload slots, and the slices it passed to the batch queries, in order (a
record of the calls, which the code does not keep). -/
structure Filled where
  err : Option String
  payloads : List (Option Bytes)
  batches : List (List Nat)
deriving DecidableEq

/-- The loop `for true` of `SqliteStorage.Fill` with at most `fuel` rounds: `l`
pairs remain in `ids`, `batches` are the slices passed so far. The outer `none`
is a round that did not fit in the fuel, the inner `none` a panic (a slice or
an index out of range; the capacity of `ids` is taken to be its length). -/
def fillLoop (batchers : List Nat) (query : BatchQuery) :
    Nat → Int → List Nat → List (Option Bytes) → List (List Nat) → Option (Option Filled)
  | 0, _, _, _, _ => none
  | fuel + 1, l, ids, payloads, batches =>
    let batcher := pickBatcher batchers 0 l
    let count := batcher * 2
    if count ≤ ids.length then
      let rows := query (ids.take count)
      match rows.1 with
      | some err => some (some ⟨some err, payloads, batches ++ [ids.take count]⟩)
      | none =>
        match scanRows rows.2 payloads with
        | none => some none
        | some payloads' =>
          if l - batcher = 0 then some (some ⟨none, payloads', batches ++ [ids.take count]⟩)
          else
            fillLoop batchers query fuel (l - batcher) (ids.drop count) payloads'
              (batches ++ [ids.take count])
    else some none

/-- Source `SqliteStorage.Fill` with the batchers of `newSqliteStorage`, run for at
most `fuel` rounds. -/
def SqliteStorage.Fill (query : BatchQuery) (fuel : Nat) (ids : List Nat)
    (payloads : List (Option Bytes)) : Option (Option Filled) :=
  fillLoop sizes query fuel ((ids.length / 2 : Nat) : Int) ids payloads []

/-- The batches follow the ladder: with `l` pairs remaining, the next batch
holds `s` pairs, where `s` is the largest ladder size that is at most `l`, and
the batches after it follow the ladder for the `l - s` pairs left; no batch is
left when no pair remains. -/
def followLadder : Nat → List (List Nat) → Prop
  | l, [] => l = 0
  | l, b :: rest =>
    ∃ s ∈ sizes, s ≤ l ∧ (∀ t ∈ sizes, t ≤ l → t ≤ s) ∧ b.length = 2 * s ∧
      followLadder (l - s) rest

/-- A batch query that answers, for every `(position, id)` pair of the batch
whose position is below `n`, the row `(position, [id])`, and never fails. -/
def pairRows (n : Nat) : List Nat → List (Nat × Option Bytes)
  | position :: id :: rest =>
    if position < n then (position, some [id]) :: pairRows n rest else pairRows n rest
  | _ => []

/-- The misses stream of `n` pairs `(i, 100 + i)`. -/
def pairStream (n : Nat) : List Nat := (List.range n).flatMap (fun i => [i, 100 + i])

/-! ## Runs of `add` -/

/-- A run of `add` calls on a result buffer, one per id, in order; a write out
of bounds panics. -/
def NormalResult.addAll (r : NormalResult) (ids : List Id) : Option NormalResult :=
  ids.foldlM NormalResult.add r

/-! ## Ids in blobs -/

/-- Modelled from the spec: the constant `IdSize` is not among the sources; the
internal id is a 32-bit integer (section 6, "Endianness"), so four bytes. -/
def IdSize : Nat := 4

/-- The `Uint32` of `encoder`, Go's `binary.LittleEndian`:
`uint32(b[0]) | uint32(b[1])<<8 | uint32(b[2])<<16 | uint32(b[3])<<24`, a panic
on a slice of fewer than four bytes. -/
def encoder.Uint32 : Bytes → Option Nat
  | b0 :: b1 :: b2 :: b3 :: _ =>
    some ((b0 ||| (b1 <<< 8) ||| (b2 <<< 16) ||| (b3 <<< 24)) % 2 ^ 32)
  | _ => none

/-- The loop of `extractIdsFromIndex`, `n` rounds from index `i`:
`ids[i/IdSize] = Id(encoder.Uint32(blob[i:]))`, then `i += IdSize`. -/
def extractLoop (blob : Bytes) : Nat → Nat → List Id → Option (List Id)
  | 0, _, ids => some ids
  | n + 1, i, ids =>
    match encoder.Uint32 (blob.drop i) with
    | none => none
    | some v =>
      if i / IdSize < ids.length then
        extractLoop blob n (i + IdSize) (ids.set (i / IdSize) v)
      else none

/-- Source `extractIdsFromIndex`: `ids := make([]Id, len(blob)/IdSize)`, then the loop
`for i := 0; i < len(blob); i += IdSize`, which is `len(blob)` over `IdSize`
rounds, rounded up. -/
def extractIdsFromIndex (blob : Bytes) : Option (List Id) :=
  extractLoop blob ((blob.length + (IdSize - 1)) / IdSize) 0
    (List.replicate (blob.length / IdSize) 0)

/-- Modelled from the spec: the writer of the blobs is not among the sources.
The 4-byte little-endian encoding of a 32-bit id (Go's
`binary.LittleEndian.PutUint32`): the low byte first. -/
def encodeId (id : Id) : Bytes :=
  [id % 256, id / 256 % 256, id / 65536 % 256, id / 16777216 % 256]

/-- The concatenation of the encodings of the ids. -/
def encodeIds (ids : List Id) : Bytes := ids.flatMap encodeId

/-- The little-endian value of the bytes `4i .. 4i+3` of a blob. -/
def leValue (blob : Bytes) (i : Nat) : Nat :=
  blob.getD (4 * i) 0 + 256 * blob.getD (4 * i + 1) 0 + 65536 * blob.getD (4 * i + 2) 0 +
    16777216 * blob.getD (4 * i + 3) 0

/-! ## A pooled query on its second use -/

/-- A pooled query used twice: a pool holds one free query, built as
`NewQueryPool` builds them with `maxSets` set slots and `maxResults` result
slots; it is checked out for `sort`, configured by `first` and executed; its
result is released, which sends the query back to the pool; the query is
checked out again for `sort`, configured by `second` and executed. The answer
is the outcome of the second `Execute`. -/
def secondUse (maxSets maxResults : Nat) (sort : IdList) (first second : Query → Query) :
    Option Outcome :=
  match QueryPool.Checkout [newQuery maxSets maxResults] (some sort) with
  | none => none
  | some (q1, pool1) =>
    match (first q1).Execute pool1 with
    | none => none
    | some o1 =>
      match QueryPool.Checkout (NormalResult.Release o1.query o1.pool).2 (some sort) with
      | none => none
      | some (q2, pool2) => (second q2).Execute pool2

/-- The query that the second checkout of `secondUse` hands out, before it is
configured. -/
def secondCheckout (maxSets maxResults : Nat) (sort : IdList) (first : Query → Query) :
    Option Query :=
  match QueryPool.Checkout [newQuery maxSets maxResults] (some sort) with
  | none => none
  | some (q1, pool1) =>
    match (first q1).Execute pool1 with
    | none => none
    | some o1 =>
      match QueryPool.Checkout (NormalResult.Release o1.query o1.pool).2 (some sort) with
      | none => none
      | some (q2, _) => some q2

/-! # Theorems -/


/-! ## The result buffer -/

theorem take_set_succ {α : Type} (l : List α) (n : Nat) (x : α) (h : n < l.length) :
    (l.set n x).take (n + 1) = l.take n ++ [x] := by
  induction l generalizing n with
  | nil => simp at h
  | cons a t ih =>
    cases n with
    | zero => simp
    | succ m =>
      simp only [List.length_cons, Nat.add_lt_add_iff_right] at h
      simp [List.set_cons_succ, List.take_succ_cons, ih m h]

theorem add_spec (r : NormalResult) (id : Id) (h : r.length < r.ids.length) :
    ∃ r', r.add id = some r' ∧ r'.Ids = r.Ids ++ [id] ∧ r'.length = r.length + 1 ∧
      r'.ids.length = r.ids.length ∧ r'.more = r.more ∧ r'.ranked = r.ranked := by
  refine ⟨{ r with ids := r.ids.set r.length id, length := r.length + 1 },
    by simp [NormalResult.add, h], ?_, rfl, by simp, rfl, rfl⟩
  simp [NormalResult.Ids, take_set_succ _ _ _ h]

/-! ## Sort-scan -/

/-- What the sort-scan loop does on the ids `xs` still to be visited, when the
filter is the total predicate `pass` and the buffer has room for `limit` more
ids. -/
theorem eachLoop_executeVisit (filter : Filter) (pass : Id → Bool)
    (hf : ∀ id, filter id = some (pass id)) (xs : List Id) (q : Query)
    (hcap : min q.limit ((xs.filter pass).length - q.offset) + q.result.length ≤
      q.result.ids.length) :
    ∃ q', eachLoop (executeVisit filter) xs q = some q' ∧
      q'.result.Ids = q.result.Ids ++ ((xs.filter pass).drop q.offset).take q.limit ∧
      q'.result.more = (q.result.more || decide (q.offset + q.limit < (xs.filter pass).length)) ∧
      q'.result.ids.length = q.result.ids.length ∧
      q'.sets = q.sets ∧ q'.sort = q.sort ∧ q'.desc = q.desc := by
  induction xs generalizing q with
  | nil => exact ⟨q, rfl, by simp, by simp, rfl, rfl, rfl, rfl⟩
  | cons x xs ih =>
    cases hp : pass x with
    | false =>
      obtain ⟨q', h1, h2, h3, h4, h5⟩ := ih q (by simpa [List.filter_cons, hp] using hcap)
      refine ⟨q', ?_, ?_, ?_, h4, h5⟩
      · simp [eachLoop, executeVisit, hf, hp, h1]
      · simp [List.filter_cons, hp, h2]
      · simp [List.filter_cons, hp, h3]
    | true =>
      simp only [List.filter_cons, hp, if_true, List.length_cons] at hcap
      by_cases hoff : q.offset > 0
      · obtain ⟨q', h1, h2, h3, h4, h5⟩ :=
          ih { q with offset := q.offset - 1 } (by simp only []; omega)
        obtain ⟨k, hk⟩ : ∃ k, q.offset = k + 1 := ⟨q.offset - 1, by omega⟩
        refine ⟨q', ?_, ?_, ?_, h4, h5⟩
        · simp [eachLoop, executeVisit, hf, hp, hoff, h1]
        · simpa [List.filter_cons, hp, hk] using h2
        · simp only [hk, Nat.add_sub_cancel] at h3
          simp only [List.filter_cons, hp, if_true, List.length_cons, hk, h3]
          congr 2
          simp only [eq_iff_iff]
          omega
      · have hoff0 : q.offset = 0 := by omega
        by_cases hlim : q.limit = 0
        · refine ⟨{ q with result := { q.result with more := true } }, ?_, ?_, ?_, rfl, rfl, rfl, rfl⟩
          · simp [eachLoop, executeVisit, hf, hp, hoff, hlim]
          · simp [hlim, NormalResult.Ids]
          · simp [List.filter_cons, hp, hoff0, hlim]
        · obtain ⟨r, hr1, hr2, hr3, hr4, hr5, _⟩ := add_spec q.result x (by omega)
          obtain ⟨q', h1, h2, h3, h4, h5⟩ :=
            ih { q with result := r, limit := q.limit - 1 } (by simp only [hr3, hr4]; omega)
          obtain ⟨k, hk⟩ : ∃ k, q.limit = k + 1 := ⟨q.limit - 1, by omega⟩
          refine ⟨q', ?_, ?_, ?_, by simpa [hr4] using h4, h5⟩
          · simp [eachLoop, executeVisit, hf, hp, hoff, hlim, hr1, h1]
          · simp only [hr2, hoff0, List.drop_zero, hk, Nat.add_sub_cancel] at h2
            simp [List.filter_cons, hp, hoff0, hk, h2]
          · simp only [hr5, hoff0, hk, Nat.add_sub_cancel] at h3
            simp only [List.filter_cons, hp, if_true, List.length_cons, hk, hoff0, h3]
            congr 2
            simp only [eq_iff_iff]
            omega


/-! ## Filters -/


theorem multiSetsLoop_one (sets : Sets) (id : Id) (i : Nat) :
    multiSetsLoop sets id 1 i = oneSetFilter sets i id := by
  unfold multiSetsLoop oneSetFilter
  cases sets.s[i]? with
  | none => rfl
  | some a => cases h : a.Exists id <;> simp [multiSetsLoop, h]

theorem multiSetsLoop_succ (sets : Sets) (id : Id) (n i : Nat) :
    multiSetsLoop sets id (n + 1) i =
      match multiSetsLoop sets id n i with
      | some true => oneSetFilter sets (i + n) id
      | r => r := by
  induction n generalizing i with
  | zero => rw [multiSetsLoop_one]; simp [multiSetsLoop]
  | succ m ih =>
    rw [multiSetsLoop]
    cases hs : sets.s[i]? with
    | none => simp [multiSetsLoop, hs]
    | some a =>
      cases ha : a.Exists id with
      | false => simp [multiSetsLoop, hs, ha]
      | true =>
        have e : i + (m + 1) = i + 1 + m := by omega
        simp only [Bool.true_eq_false, if_false, ih (i + 1), e]
        conv_rhs => rw [multiSetsLoop]
        simp [hs, ha]

theorem multiSetsLoop_eq (sets : Sets) (id : Id) (n i : Nat) (h : i + n ≤ sets.s.length) :
    multiSetsLoop sets id n i = some (existsAll ((sets.s.drop i).take n) id) := by
  induction n generalizing i with
  | zero => simp [multiSetsLoop, existsAll]
  | succ m ih =>
    have hi : i < sets.s.length := by omega
    rw [multiSetsLoop, List.getElem?_eq_getElem hi]
    rw [List.drop_eq_getElem_cons hi]
    cases ha : (sets.s[i]).Exists id with
    | false => simp only [existsAll, List.take_succ_cons, List.all_cons, ha, Bool.false_and, if_true]
    | true =>
      rw [ih (i + 1) (by omega)]
      simp only [existsAll, List.take_succ_cons, List.all_cons, ha, Bool.true_and,
        Bool.true_eq_false, if_false]

theorem getFilter_eq_loop (sets : Sets) (start n : Nat) (hl : sets.l = start + n) (id : Id) :
    getFilter sets (start + n) start id = multiSetsLoop sets id n start := by
  have hd : ((start + n : Nat) : Int) - (start : Int) = (n : Int) := by push_cast; omega
  unfold getFilter
  simp only [hd]
  match n, hl with
  | 0, _ => simp [noFilter, multiSetsLoop]
  | 1, _ => simp [multiSetsLoop_one]
  | 2, _ =>
    simp [twoSetsFilter, multiSetsLoop_succ sets id 1, multiSetsLoop_one]
  | 3, _ =>
    simp [threeSetsFilter, twoSetsFilter, multiSetsLoop_succ sets id 2,
      multiSetsLoop_succ sets id 1, multiSetsLoop_one]
  | 4, _ =>
    simp [fourSetsFilter, threeSetsFilter, twoSetsFilter, multiSetsLoop_succ sets id 3,
      multiSetsLoop_succ sets id 2, multiSetsLoop_succ sets id 1, multiSetsLoop_one]
  | k + 5, hl =>
    have h0 : ¬ (((k + 5 : Nat) : Int) = 0) := by omega
    have h1 : ¬ (((k + 5 : Nat) : Int) = 1) := by omega
    have h2 : ¬ (((k + 5 : Nat) : Int) = 2) := by omega
    have h3 : ¬ (((k + 5 : Nat) : Int) = 3) := by omega
    have h4 : ¬ (((k + 5 : Nat) : Int) = 4) := by omega
    simp only [h0, h1, h2, h3, h4, if_false, multiSetsFilter, hl, Nat.add_sub_cancel_left]

/-- The filter of `getFilter` over the attached sets from `start` on is the
conjunction of their membership tests, and it does not panic. -/
theorem getFilter_eq (sets : Sets) (start : Nat) (hl : sets.l ≤ sets.s.length)
    (hs : start ≤ sets.l) (id : Id) :
    getFilter sets sets.l start id = some (existsAll ((sets.s.take sets.l).drop start) id) := by
  obtain ⟨n, hn⟩ : ∃ n, sets.l = start + n := ⟨sets.l - start, by omega⟩
  rw [hn, getFilter_eq_loop sets start n hn id, multiSetsLoop_eq sets id n start (by omega)]
  rw [List.drop_take]
  simp


/-! ## Rank -/

theorem buildRank_lookup (ids : List Id) (hn : ids.Nodup) (i : Nat) (m : List (Id × Nat))
    (id : Id) :
    (buildRank ids i m).lookup id =
      if id ∈ ids then some (i + ids.indexOf id) else m.lookup id := by
  induction ids generalizing i m with
  | nil => simp [buildRank]
  | cons x rest ih =>
    rw [List.nodup_cons] at hn
    rw [buildRank, ih hn.2]
    by_cases hr : id ∈ rest
    · have hne : x ≠ id := fun e => hn.1 (e ▸ hr)
      simp only [hr, if_true, List.mem_cons, or_true, List.indexOf_cons_ne _ hne]
      congr 1
      omega
    · by_cases hx : id = x
      · subst hx
        simp [hr, List.lookup_cons]
      · have hx' : (id == x) = false := by simpa using hx
        simp [hr, hx, List.lookup_cons, hx']

/-- On a list with unique ids `Rank` is the position of the id. -/
theorem Rank_eq (sort : IdList) (hn : sort.ids.Nodup) (id : Id) :
    sort.Rank id = if id ∈ sort.ids then some (sort.ids.indexOf id) else none := by
  simp [IdList.Rank, buildRank_lookup sort.ids hn 0 [] id]

/-! ## Set-driven execution -/

theorem foldlM_setExecuteVisit (filter : Filter) (pass : Id → Bool)
    (hf : ∀ id, filter id = some (pass id)) (sort : IdList) (xs : List Id) (r : NormalResult)
    (hcap : r.length + xs.length ≤ r.ranked.length) :
    ∃ r', xs.foldlM (setExecuteVisit filter sort) r = some r' ∧
      r'.ranked.take r'.length =
        r.ranked.take r.length ++ (candidates sort pass xs).map (rankOf sort) ∧
      r'.ids = r.ids ∧ r'.more = r.more ∧ r'.ranked.length = r.ranked.length := by
  induction xs generalizing r with
  | nil => exact ⟨r, rfl, by simp [candidates], rfl, rfl, rfl⟩
  | cons x xs ih =>
    simp only [List.length_cons] at hcap
    cases hp : pass x with
    | false =>
      obtain ⟨r', h1, h2, h3⟩ := ih r (by omega)
      refine ⟨r', ?_, ?_, h3⟩
      · simp [List.foldlM, setExecuteVisit, hf, hp, h1]
      · simp [candidates, List.filter_cons, hp] at h2 ⊢
        exact h2
    | true =>
      cases hr : sort.Rank x with
      | none =>
        obtain ⟨r', h1, h2, h3⟩ := ih r (by omega)
        refine ⟨r', ?_, ?_, h3⟩
        · simp [List.foldlM, setExecuteVisit, hf, hp, hr, h1]
        · simp [candidates, List.filter_cons, hp, hr] at h2 ⊢
          exact h2
      | some k =>
        have hlt : r.length < r.ranked.length := by omega
        obtain ⟨r', h1, h2, h3, h4, h5⟩ :=
          ih { r with ranked := r.ranked.set r.length ⟨x, k⟩, length := r.length + 1 }
            (by simp only [List.length_set]; omega)
        refine ⟨r', ?_, ?_, h3, h4, by simpa using h5⟩
        · simp [List.foldlM, setExecuteVisit, hf, hp, hr, NormalResult.addranked, hlt, h1]
        · rw [h2]
          simp [candidates, List.filter_cons, hp, hr, rankOf, take_set_succ _ _ _ hlt]

theorem setExecuteAdd_stop (q : Query) (id : Id) (h : q.limit = 0) :
    setExecuteAdd q id = some ({ q with result := { q.result with more := true } }, false) := by
  simp [setExecuteAdd, h]

theorem setExecuteAdd_go (q : Query) (id : Id) (h : q.limit ≠ 0)
    (hcap : q.result.length < q.result.ids.length) :
    ∃ r, setExecuteAdd q id = some ({ q with result := r, limit := q.limit - 1 }, true) ∧
      r.Ids = q.result.Ids ++ [id] ∧ r.length = q.result.length + 1 ∧
      r.ids.length = q.result.ids.length ∧ r.more = q.result.more := by
  obtain ⟨r, hr1, hr2, hr3, hr4, hr5, _⟩ := add_spec q.result id hcap
  exact ⟨r, by simp [setExecuteAdd, h, hr1], hr2, hr3, hr4, hr5⟩

theorem ascLoop_spec (ranks : List Rank) (n i : Nat) (q : Query) (hi : n ≤ ranks.length - i)
    (hcap : min q.limit n + q.result.length ≤ q.result.ids.length) :
    ∃ q', ascLoop ranks n i q = some q' ∧
      q'.result.Ids =
        q.result.Ids ++ (((ranks.drop i).take n).map (fun rk => rk.id)).take q.limit ∧
      q'.result.more = (q.result.more || decide (q.limit < n)) := by
  induction n generalizing i q with
  | zero => exact ⟨q, rfl, by simp, by simp⟩
  | succ m ih =>
    have hlt : i < ranks.length := by omega
    rw [ascLoop, List.getElem?_eq_getElem hlt, List.drop_eq_getElem_cons hlt]
    by_cases hlim : q.limit = 0
    · refine ⟨{ q with result := { q.result with more := true } },
        by simp only [setExecuteAdd_stop q _ hlim], ?_, ?_⟩
      · simp [hlim, NormalResult.Ids]
      · simp [hlim]
    · obtain ⟨r, hr1, hr2, hr3, hr4, hr5⟩ := setExecuteAdd_go q (ranks[i]).id hlim (by omega)
      obtain ⟨q', h1, h2, h3⟩ :=
        ih (i + 1) { q with result := r, limit := q.limit - 1 } (by omega)
          (by simp only [hr3, hr4]; omega)
      obtain ⟨k, hk⟩ : ∃ k, q.limit = k + 1 := ⟨q.limit - 1, by omega⟩
      refine ⟨q', by simp only [hr1, h1], ?_, ?_⟩
      · simp only [hr2, hk, Nat.add_sub_cancel] at h2
        simp only [hk, h2, List.take_succ_cons, List.map_cons, List.append_assoc,
          List.singleton_append]
      · simp only [hr5, hk, Nat.add_sub_cancel] at h3
        simp only [h3, hk]
        congr 2
        simp only [eq_iff_iff]
        omega

theorem descLoop_spec (ranks : List Rank) (i : Nat) (q : Query) (hi : i < ranks.length)
    (hcap : min q.limit (i + 1) + q.result.length ≤ q.result.ids.length) :
    ∃ q', descLoop ranks i q = some q' ∧
      q'.result.Ids =
        q.result.Ids ++ ((ranks.take (i + 1)).reverse.map (fun rk => rk.id)).take q.limit ∧
      q'.result.more = (q.result.more || decide (q.limit < i + 1)) := by
  induction i generalizing q with
  | zero =>
    rw [descLoop, List.getElem?_eq_getElem hi]
    by_cases hlim : q.limit = 0
    · refine ⟨{ q with result := { q.result with more := true } },
        by simp only [setExecuteAdd_stop q _ hlim], ?_, ?_⟩
      · simp [hlim, NormalResult.Ids]
      · simp [hlim]
    · obtain ⟨r, hr1, hr2, hr3, hr4, hr5⟩ := setExecuteAdd_go q (ranks[0]).id hlim (by omega)
      obtain ⟨k, hk⟩ : ∃ k, q.limit = k + 1 := ⟨q.limit - 1, by omega⟩
      refine ⟨{ q with result := r, limit := q.limit - 1 }, by simp only [hr1], ?_, ?_⟩
      · simp [hr2, hk, List.take_one, List.head?_eq_getElem?, List.getElem?_eq_getElem hi]
      · simp [hr5, hk]
  | succ j ih =>
    rw [descLoop, List.getElem?_eq_getElem hi]
    have htake : (ranks.take (j + 1 + 1)).reverse = ranks[j + 1] :: (ranks.take (j + 1)).reverse := by
      rw [List.take_succ, List.getElem?_eq_getElem hi]
      simp
    by_cases hlim : q.limit = 0
    · refine ⟨{ q with result := { q.result with more := true } },
        by simp only [setExecuteAdd_stop q _ hlim], ?_, ?_⟩
      · simp [hlim, NormalResult.Ids]
      · simp [hlim]
    · obtain ⟨r, hr1, hr2, hr3, hr4, hr5⟩ := setExecuteAdd_go q (ranks[j + 1]).id hlim (by omega)
      obtain ⟨q', h1, h2, h3⟩ :=
        ih { q with result := r, limit := q.limit - 1 } (by omega)
          (by simp only [hr3, hr4]; omega)
      obtain ⟨k, hk⟩ : ∃ k, q.limit = k + 1 := ⟨q.limit - 1, by omega⟩
      refine ⟨q', by simp only [hr1, h1], ?_, ?_⟩
      · simp only [hr2, hk, Nat.add_sub_cancel] at h2
        simp only [hk, h2, htake, List.take_succ_cons, List.map_cons, List.append_assoc,
          List.singleton_append]
      · simp only [hr5, hk, Nat.add_sub_cancel] at h3
        simp only [h3, hk]
        congr 2
        simp only [eq_iff_iff]
        omega


/-! ## The ranked scratch after sorting -/

theorem pairwise_indexOf_le (l : List Id) (hn : l.Nodup) :
    l.Pairwise (fun a b => l.indexOf a ≤ l.indexOf b) := by
  induction l with
  | nil => exact List.Pairwise.nil
  | cons x t ih =>
    rw [List.nodup_cons] at hn
    refine List.Pairwise.cons (fun b _ => by simp) ?_
    refine (ih hn.2).imp_of_mem ?_
    intro a b ha hb hab
    have hxa : x ≠ a := fun e => hn.1 (e ▸ ha)
    have hxb : x ≠ b := fun e => hn.1 (e ▸ hb)
    rw [List.indexOf_cons_ne _ hxa, List.indexOf_cons_ne _ hxb]
    omega

theorem rankOf_rank (sort : IdList) (hn : sort.ids.Nodup) (id : Id) (h : id ∈ sort.ids) :
    (rankOf sort id).rank = sort.ids.indexOf id := by
  simp [rankOf, Rank_eq sort hn, h]

theorem mem_candidates (sort : IdList) (hn : sort.ids.Nodup) (pass : Id → Bool) (xs : List Id)
    (id : Id) : id ∈ candidates sort pass xs ↔ id ∈ xs ∧ pass id = true ∧ id ∈ sort.ids := by
  by_cases h : id ∈ sort.ids <;> simp [candidates, Rank_eq sort hn, h]

/-- Sorting the ranked candidates of a set by rank lists them in the order of
the sort list. -/
theorem sortRanks_candidates (sort : IdList) (hn : sort.ids.Nodup) (pass : Id → Bool)
    (s0 : Set) (hs : s0.ids.Nodup) :
    (sortRanks ((candidates sort pass s0.ids).map (rankOf sort))).map (fun rk => rk.id) =
      sort.ids.filter (fun id => s0.Exists id && pass id) := by
  set P : Id → Bool := fun id => s0.Exists id && pass id with hP
  set A := sortRanks ((candidates sort pass s0.ids).map (rankOf sort)) with hA
  set B := (sort.ids.filter P).map (rankOf sort) with hB
  set g : Nat → Id := fun r => sort.ids.getD r 0 with hg
  have hperm0 : List.Perm (candidates sort pass s0.ids) (sort.ids.filter P) := by
    have hc : (candidates sort pass s0.ids).Nodup := hs.filter _
    rw [List.perm_ext_iff_of_nodup hc (hn.filter _)]
    intro id
    rw [mem_candidates sort hn]
    simp only [hP, List.mem_filter, Bool.and_eq_true, Set.Exists, decide_eq_true_eq]
    tauto
  have hAperm : List.Perm A ((candidates sort pass s0.ids).map (rankOf sort)) :=
    List.perm_insertionSort _ _
  have hAB : List.Perm A B := hAperm.trans (hperm0.map _)
  have hgB : ∀ rk ∈ B, rk.id = g rk.rank ∧ g rk.rank ∈ sort.ids := by
    intro rk hrk
    obtain ⟨id, hid, rfl⟩ := List.mem_map.1 hrk
    have hmem : id ∈ sort.ids := (List.mem_filter.1 hid).1
    have hlt : sort.ids.indexOf id < sort.ids.length := List.indexOf_lt_length.2 hmem
    rw [rankOf_rank sort hn id hmem]
    simp only [hg, List.getD_eq_getElem _ _ hlt, List.getElem_indexOf hlt]
    exact ⟨rfl, hmem⟩
  have hgA : ∀ rk ∈ A, rk.id = g rk.rank := fun rk hrk => (hgB rk (hAB.subset hrk)).1
  have hAsorted : (A.map (fun rk => rk.rank)).Sorted (· ≤ ·) := by
    have : A.Sorted (fun a b : Rank => a.rank ≤ b.rank) := by
      haveI : IsTotal Rank (fun a b : Rank => a.rank ≤ b.rank) := ⟨fun a b => Nat.le_total _ _⟩
      haveI : IsTrans Rank (fun a b : Rank => a.rank ≤ b.rank) := ⟨fun a b c => Nat.le_trans⟩
      exact List.sorted_insertionSort _ _
    exact List.pairwise_map.2 this
  have hBsorted : (B.map (fun rk => rk.rank)).Sorted (· ≤ ·) := by
    have h1 : (sort.ids.filter P).Pairwise
        (fun a b => sort.ids.indexOf a ≤ sort.ids.indexOf b) :=
      (pairwise_indexOf_le sort.ids hn).filter _
    refine List.pairwise_map.2 (List.pairwise_map.2 (h1.imp_of_mem ?_))
    intro a b ha hb hab
    rw [rankOf_rank sort hn a (List.mem_filter.1 ha).1,
      rankOf_rank sort hn b (List.mem_filter.1 hb).1]
    exact hab
  have hranks : A.map (fun rk => rk.rank) = B.map (fun rk => rk.rank) :=
    List.eq_of_perm_of_sorted (hAB.map _) hAsorted hBsorted
  calc A.map (fun rk => rk.id)
      = (A.map (fun rk => rk.rank)).map g := by
        rw [List.map_map]
        exact List.map_congr_left (fun rk hrk => hgA rk hrk)
    _ = (B.map (fun rk => rk.rank)).map g := by rw [hranks]
    _ = B.map (fun rk => rk.id) := by
        rw [List.map_map]
        exact (List.map_congr_left (fun rk hrk => (hgB rk hrk).1)).symm
    _ = sort.ids.filter P := by
        simp [hB, List.map_map, Function.comp_def, rankOf]


/-- What `setExecute` returns when its filter is the total predicate `pass`,
the driving set and the sort list hold no id twice, the buffer is empty and
the ranked scratch holds the driving set. -/
theorem setExecute_spec (q : Query) (sort : IdList) (filter : Filter) (pass : Id → Bool)
    (hf : ∀ id, filter id = some (pass id)) (s0 : Set) (h0 : q.sets.s[0]? = some s0)
    (hn : sort.ids.Nodup) (hs : s0.ids.Nodup) (hfresh : q.result.length = 0)
    (hranked : s0.Len ≤ q.result.ranked.length)
    (hcap : min q.limit ((sort.ids.filter (fun id => s0.Exists id && pass id)).length - q.offset)
      ≤ q.result.ids.length) :
    ∃ q', q.setExecute sort filter = some q' ∧
      q'.result.Ids =
        (((sort.order q.desc).filter (fun id => s0.Exists id && pass id)).drop q.offset).take
          q.limit ∧
      q'.result.more = (q.result.more ||
        decide (q.offset + q.limit <
          (sort.ids.filter (fun id => s0.Exists id && pass id)).length)) := by
  obtain ⟨r, hr1, hr2, hr3, hr4, hr5⟩ :=
    foldlM_setExecuteVisit filter pass hf sort s0.ids q.result
      (by rw [hfresh]; simpa [Set.Len] using hranked)
  simp only [hfresh, List.take_zero, List.nil_append] at hr2
  have hA := sortRanks_candidates sort hn pass s0 hs
  rw [← hr2] at hA
  set P : Id → Bool := fun id => s0.Exists id && pass id with hP
  set A := sortRanks (r.ranked.take r.length) with hAdef
  have hlen : A.length = (sort.ids.filter P).length := by rw [← hA, List.length_map]
  set q1 : Query :=
    { q with result := { r with ranked := A ++ r.ranked.drop r.length, length := 0 } } with hq1
  have hq1cap : min q1.limit (A.length - q.offset) + q1.result.length ≤
      q1.result.ids.length := by
    simp only [hq1, hr3, hlen]; omega
  have hq1ids : q1.result.Ids = [] := by simp [hq1, NormalResult.Ids]
  have hq1more : q1.result.more = q.result.more := by simp [hq1, hr4]
  have hq1lim : q1.limit = q.limit := rfl
  have hrun : q.setExecute sort filter =
      if q.desc then
        (if ((A.length : Int) - (q.offset : Int) - 1) > -1 then
          descLoop A ((A.length : Int) - (q.offset : Int) - 1).toNat q1 else some q1)
      else ascLoop A (A.length - q.offset) q.offset q1 := by
    simp only [Query.setExecute, h0, Set.Each, hr1, hq1, hAdef]
  rw [hrun]
  cases hd : q.desc with
  | true =>
    simp only [if_true, IdList.order, List.filter_reverse]
    by_cases hlt : q.offset < A.length
    · have hi : ((A.length : Int) - (q.offset : Int) - 1) > -1 := by omega
      have hnat : ((A.length : Int) - (q.offset : Int) - 1).toNat = A.length - q.offset - 1 := by
        omega
      obtain ⟨q', h1, h2, h3⟩ :=
        descLoop_spec A (A.length - q.offset - 1) q1 (by omega)
          (by have e : A.length - q.offset - 1 + 1 = A.length - q.offset := by omega
              rw [e]; exact hq1cap)
      refine ⟨q', by simp only [hi, if_true, hnat, h1], ?_, ?_⟩
      · have e : A.length - q.offset - 1 + 1 = A.length - q.offset := by omega
        have hrev : (A.take (A.length - q.offset)).reverse = A.reverse.drop q.offset := by
          rw [List.reverse_take]
          congr 1
          omega
        rw [h2, hq1ids, hq1lim, e, List.nil_append, hrev, List.map_drop, List.map_reverse, hA]
      · rw [h3, hq1more, hq1lim, ← hlen]
        congr 2
        simp only [eq_iff_iff]
        omega
    · have hi : ¬ ((A.length : Int) - (q.offset : Int) - 1) > -1 := by omega
      refine ⟨q1, by simp only [hi, if_false], ?_, ?_⟩
      · rw [hq1ids, List.drop_of_length_le (by rw [List.length_reverse, ← hlen]; omega)]
        simp
      · rw [hq1more, ← hlen]
        have : ¬ (q.offset + q.limit < A.length) := by omega
        simp [this]
  | false =>
    simp only [Bool.false_eq_true, if_false, IdList.order]
    obtain ⟨q', h1, h2, h3⟩ := ascLoop_spec A (A.length - q.offset) q.offset q1 (le_refl _) hq1cap
    refine ⟨q', h1, ?_, ?_⟩
    · have htk : (A.drop q.offset).take (A.length - q.offset) = A.drop q.offset :=
        List.take_of_length_le (by simp)
      rw [h2, hq1ids, hq1lim, List.nil_append, htk, List.map_drop, hA]
    · rw [h3, hq1more, hq1lim, ← hlen]
      congr 2
      simp only [eq_iff_iff]
      omega


/-! ## Sorting the attached sets -/

theorem existsAll_perm (id : Id) {a b : List Set} (h : List.Perm a b) :
    existsAll a id = existsAll b id := by
  rw [Bool.eq_iff_iff]
  simp only [existsAll, List.all_eq_true]
  exact ⟨fun H x hx => H x (h.symm.subset hx), fun H x hx => H x (h.subset hx)⟩

theorem Sort_take (sets : Sets) (hl : sets.l ≤ sets.s.length) :
    sets.Sort.s.take sets.l = (sets.s.take sets.l).insertionSort (fun a b => a.Len ≤ b.Len) := by
  simp only [Sets.Sort]
  exact List.take_left' (by rw [List.length_insertionSort, List.length_take]; omega)

theorem Sort_l (sets : Sets) : sets.Sort.l = sets.l := rfl

theorem Sort_length (sets : Sets) : sets.Sort.s.length = sets.s.length := by
  simp only [Sets.Sort, List.length_append, List.length_insertionSort, List.length_take,
    List.length_drop]
  omega

theorem Sort_perm (sets : Sets) (hl : sets.l ≤ sets.s.length) :
    List.Perm (sets.Sort.s.take sets.l) (sets.s.take sets.l) := by
  rw [Sort_take sets hl]
  exact List.perm_insertionSort _ _

/-- After `Sort` the first slot holds an attached set that is no longer than
any attached set. -/
theorem Sort_head (sets : Sets) (hl : sets.l ≤ sets.s.length) (hpos : sets.l ≠ 0) :
    ∃ s0, sets.Sort.s[0]? = some s0 ∧ s0 ∈ sets.s.take sets.l ∧
      sets.Sort.s.take sets.l = s0 :: (sets.Sort.s.take sets.l).drop 1 ∧
      ∀ a ∈ sets.s.take sets.l, s0.Len ≤ a.Len := by
  have hlen : (sets.Sort.s.take sets.l).length = sets.l := by
    rw [List.length_take, Sort_length]; omega
  cases hT : sets.Sort.s.take sets.l with
  | nil => rw [hT] at hlen; simp at hlen; omega
  | cons s0 rest =>
    have hperm := Sort_perm sets hl
    have hsorted : (sets.Sort.s.take sets.l).Sorted (fun a b : Set => a.Len ≤ b.Len) := by
      rw [Sort_take sets hl]
      haveI : IsTotal Set (fun a b : Set => a.Len ≤ b.Len) := ⟨fun a b => Nat.le_total _ _⟩
      haveI : IsTrans Set (fun a b : Set => a.Len ≤ b.Len) := ⟨fun a b c => Nat.le_trans⟩
      exact List.sorted_insertionSort _ _
    rw [hT] at hperm hsorted
    refine ⟨s0, ?_, hperm.subset (List.mem_cons_self _ _), by simp, ?_⟩
    · have h0 : (sets.Sort.s.take sets.l)[0]? = some s0 := by rw [hT]; simp
      rw [List.getElem?_take] at h0
      simpa [Nat.pos_of_ne_zero hpos] using h0
    · intro a ha
      have ha' : a ∈ s0 :: rest := hperm.symm.subset ha
      rcases List.mem_cons.1 ha' with rfl | hmem
      · exact le_refl _
      · exact List.rel_of_sorted_cons hsorted a hmem

theorem filter_reverse_length (p : Id → Bool) (l : List Id) :
    (l.reverse.filter p).length = (l.filter p).length := by
  rw [List.filter_reverse, List.length_reverse]

theorem order_filter_length (sort : IdList) (desc : Bool) (p : Id → Bool) :
    ((sort.order desc).filter p).length = (sort.ids.filter p).length := by
  cases desc
  · rfl
  · simp only [IdList.order, if_true]
    exact filter_reverse_length p sort.ids

/-! ## Execute -/

/-- The result of `Execute` on a query bound to the sort list `sort`, with an
empty buffer that has room for the page: the page of the filtered traversal,
and `more` exactly when a further id passes beyond the page. The set-driven
strategy can only be chosen when the sort list is longer than 1000, and then
the list and the attached sets hold no id twice and the ranked scratch has its
`SmallSetTreshold` slots. -/
theorem Execute_spec (q : Query) (pool : QueryPool) (sort : IdList)
    (hsort : q.sort = some sort) (hl : q.sets.l ≤ q.sets.s.length)
    (hfresh : q.result.length = 0)
    (hcap : min q.limit ((q.filtered sort).length - q.offset) ≤ q.result.ids.length)
    (hwf : 1000 < sort.Len → q.sets.l ≠ 0 → sort.ids.Nodup ∧ (∀ s ∈ q.attached, s.ids.Nodup) ∧
      SmallSetTreshold ≤ q.result.ranked.length) :
    ∃ o, q.Execute pool = some o ∧ o.result.Ids = q.page sort ∧
      (q.result.more = false →
        o.result.more = decide (q.limit ≠ 0 ∧ q.offset + q.limit < (q.filtered sort).length)) := by
  obtain ⟨limit, offset, srt, desc, sets, result⟩ := q
  simp only at hsort hl hfresh hcap
  subst hsort
  set q : Query := ⟨limit, offset, some sort, desc, sets, result⟩ with hq
  unfold Query.Execute
  simp only [hq]
  by_cases hlim : limit = 0
  · refine ⟨releaseEmpty q pool, by simp [hlim, hq], ?_, ?_⟩
    · simp [releaseEmpty, EmptyResult, Result.Ids, Query.page, hlim, hq]
    · simp [releaseEmpty, EmptyResult, Result.more, hlim, hq]
  simp only [hlim, if_false]
  by_cases hl0 : sets.l = 0
  · simp only [hl0, if_true]
    have hf : ∀ id, noFilter id = some (q.passes id) := by
      intro id; simp [noFilter, Query.passes, Query.attached, hl0, existsAll, hq]
    obtain ⟨q', h1, h2, h3, _⟩ :=
      eachLoop_executeVisit noFilter q.passes hf (sort.order desc) q
        (by simpa [hq, hfresh, Query.filtered] using hcap)
    refine ⟨⟨Result.normal q'.result, q', pool⟩, ?_, ?_, ?_⟩
    · simp only [Query.execute, IdList.Each]
      rw [← hq, h1]
      rfl
    · show q'.result.Ids = _
      rw [h2]
      simp [NormalResult.Ids, hfresh, Query.page, Query.filtered, hq]
    · intro hm
      show q'.result.more = _
      rw [h3]
      have hm' : result.more = false := hm
      simp [hm', Query.filtered, hlim, hq]
  simp only [hl0, if_false]
  obtain ⟨s0, hs0, hmem, hcons, hmin⟩ := Sort_head sets hl hl0
  simp only [hs0]
  have hpass : ∀ id, q.passes id = existsAll (sets.Sort.s.take sets.l) id := fun id =>
    (existsAll_perm id (Sort_perm sets hl)).symm
  by_cases hsl : s0.Len = 0
  · have hempty : ∀ id, q.passes id = false := by
      intro id
      have hnil : s0.ids = [] := List.length_eq_zero.1 hsl
      rw [hpass, hcons]
      simp [existsAll, Set.Exists, hnil]
    have hfil : q.filtered sort = [] := by
      simp [Query.filtered, List.filter_eq_nil_iff, hempty]
    refine ⟨releaseEmpty { q with sets := sets.Sort } pool, by simp [hsl, hq], ?_, ?_⟩
    · simp [releaseEmpty, EmptyResult, Result.Ids, Query.page, hfil]
    · simp [releaseEmpty, EmptyResult, Result.more, hfil]
  simp only [hsl, if_false]
  by_cases hplan : s0.Len < SmallSetTreshold ∧ sort.Len > 1000
  · simp only [hplan, and_self, if_true]
    obtain ⟨hn, hsets, hrk⟩ := hwf hplan.2 hl0
    have hf : ∀ id, getFilter sets.Sort sets.l 1 id =
        some (existsAll ((sets.Sort.s.take sets.l).drop 1) id) := fun id =>
      getFilter_eq sets.Sort 1 (by rw [Sort_length]; exact hl)
        (Nat.one_le_iff_ne_zero.2 hl0) id
    have hP : (fun id => s0.Exists id && existsAll ((sets.Sort.s.take sets.l).drop 1) id)
        = q.passes := by
      funext id
      rw [hpass id]
      conv_rhs => rw [hcons]
      simp [existsAll]
    obtain ⟨q', h1, h2, h3⟩ :=
      setExecute_spec ⟨limit, offset, some sort, desc, sets.Sort, result⟩ sort _ _ hf s0 hs0 hn
        (hsets s0 hmem) hfresh (by have := hplan.1; simp only [] at hrk ⊢; omega)
        (by rw [hP]; simpa [hq, Query.filtered, order_filter_length] using hcap)
    rw [hP] at h2 h3
    refine ⟨⟨Result.normal q'.result, q', pool⟩, ?_, ?_, ?_⟩
    · rw [h1]; rfl
    · show q'.result.Ids = _
      rw [h2]
      simp [Query.page, Query.filtered, hq]
    · intro hm
      show q'.result.more = _
      have hm' : result.more = false := hm
      rw [h3]
      simp [hm', Query.filtered, order_filter_length, hlim, hq]
  · simp only [hplan, if_false]
    have hf : ∀ id, getFilter sets.Sort sets.l 0 id = some (q.passes id) := by
      intro id
      have h := getFilter_eq sets.Sort 0 (by rw [Sort_length]; exact hl) (Nat.zero_le _) id
      rw [Sort_l, List.drop_zero, ← hpass id] at h
      exact h
    obtain ⟨q', h1, h2, h3, _⟩ :=
      eachLoop_executeVisit _ q.passes hf (sort.order desc)
        ⟨limit, offset, some sort, desc, sets.Sort, result⟩
        (by simpa [hq, hfresh, Query.filtered] using hcap)
    refine ⟨⟨Result.normal q'.result, q', pool⟩, ?_, ?_, ?_⟩
    · simp only [Query.execute, IdList.Each]
      rw [h1]
      rfl
    · show q'.result.Ids = _
      rw [h2]
      simp [NormalResult.Ids, hfresh, Query.page, Query.filtered, hq]
    · intro hm
      show q'.result.more = _
      have hm' : result.more = false := hm
      rw [h3]
      simp [hm', Query.filtered, hlim, hq]


/-! ## The claims on query execution -/

/-- C1: a query with no attached sets, bound to a sort list, with an empty
result buffer and a limit within the buffer's capacity, returns from `Execute`
exactly the ids of the sort list in the requested direction with the first
`offset` skipped and at most `limit` kept. -/
theorem Execute_no_sets (q : Query) (pool : QueryPool) (sort : IdList)
    (hsort : q.sort = some sort) (hsets : q.sets.l = 0) (hfresh : q.result.length = 0)
    (hcap : q.limit ≤ q.result.ids.length) :
    ∃ o, q.Execute pool = some o ∧
      o.result.Ids = ((sort.order q.desc).drop q.offset).take q.limit := by
  obtain ⟨o, h1, h2, _⟩ := Execute_spec q pool sort hsort (by omega) hfresh
    (le_trans (Nat.min_le_left _ _) hcap) (fun _ h => absurd hsets h)
  refine ⟨o, h1, ?_⟩
  have hp : q.passes = fun _ => true := by
    funext id
    simp [Query.passes, Query.attached, hsets, existsAll]
  rw [h2]
  simp [Query.page, Query.filtered, hp]

/-- The hypotheses of C1 hold for the descending query of the spec's scenario
on a five-id list. -/
theorem Execute_no_sets_witness :
    ∃ o, (((({ newQuery 4 10 with sort := some ⟨[1, 2, 3, 4, 5]⟩ } : Query).Desc).Offset 1).Limit 2).Execute
        [] = some o ∧
      o.result.Ids = [4, 3] :=
  Execute_no_sets _ [] ⟨[1, 2, 3, 4, 5]⟩ rfl rfl rfl (by decide)

/-- C2: a query with attached sets (one or more) over a sort list with unique
ids (the attached sets hold no id twice, the buffer is empty with room for
`limit` ids and the ranked scratch has its `SmallSetTreshold` slots) returns
from `Execute`, whichever strategy is chosen, the traversal restricted to the
ids that are in every attached set, with the first `offset` skipped and at most
`limit` kept; every returned id is in the sort list and in every attached
set. -/
theorem Execute_with_sets (q : Query) (pool : QueryPool) (sort : IdList)
    (hsort : q.sort = some sort) (hn : sort.ids.Nodup)
    (hl : q.sets.l ≤ q.sets.s.length) (hsets : ∀ s ∈ q.attached, s.ids.Nodup)
    (hranked : SmallSetTreshold ≤ q.result.ranked.length) (hfresh : q.result.length = 0)
    (hcap : q.limit ≤ q.result.ids.length) :
    ∃ o, q.Execute pool = some o ∧
      o.result.Ids =
        (((sort.order q.desc).filter
          (fun id => q.attached.all (fun s => s.Exists id))).drop q.offset).take q.limit ∧
      ∀ id ∈ o.result.Ids, id ∈ sort.ids ∧ ∀ s ∈ q.attached, s.Exists id = true := by
  obtain ⟨o, h1, h2, _⟩ := Execute_spec q pool sort hsort hl hfresh
    (le_trans (Nat.min_le_left _ _) hcap) (fun _ _ => ⟨hn, hsets, hranked⟩)
  have h2' : o.result.Ids = (((sort.order q.desc).filter
      (fun id => q.attached.all (fun s => s.Exists id))).drop q.offset).take q.limit := h2
  refine ⟨o, h1, h2', ?_⟩
  intro id hid
  rw [h2'] at hid
  have hmem := List.mem_filter.1 (List.mem_of_mem_drop (List.mem_of_mem_take hid))
  refine ⟨?_, fun s hs => (List.all_eq_true.1 hmem.2) s hs⟩
  have := hmem.1
  cases hd : q.desc <;> simpa [IdList.order, hd] using this

/-- The hypotheses of C2 hold for the two-set query of the spec's third
scenario. -/
theorem Execute_with_sets_witness :
    ∃ o, ({ newQuery 4 10 with
            sort := some ⟨[10, 20, 30, 40, 50]⟩
            limit := 10
            sets := { s := [⟨[20, 40, 50]⟩, ⟨[30, 40, 50]⟩, EmptySet, EmptySet], l := 2 } } :
          Query).Execute [] = some o ∧
      o.result.Ids = [40, 50] ∧
      ∀ id ∈ o.result.Ids, id ∈ [10, 20, 30, 40, 50] ∧
        ∀ s ∈ ([⟨[20, 40, 50]⟩, ⟨[30, 40, 50]⟩] : List Set), s.Exists id = true :=
  Execute_with_sets _ [] ⟨[10, 20, 30, 40, 50]⟩ rfl (by decide) (by decide)
    (by decide) (by decide) rfl (by decide)


/-- C3: on the same query (same sort list with unique ids, same attached sets
with a first set of fewer than `SmallSetTreshold` unique ids, same offset,
limit and direction, an empty buffer with room for `limit` ids), sort-scan
with the filter over `sets[0..]` and set-driven with the filter over
`sets[1..]` both return, with the same ids in the same order and the same
`more` flag. -/
theorem strategies_agree (q : Query) (sort : IdList) (s0 : Set)
    (hn : sort.ids.Nodup) (hpos : 1 ≤ q.sets.l) (hl : q.sets.l ≤ q.sets.s.length)
    (h0 : q.sets.s[0]? = some s0) (hs0 : s0.ids.Nodup) (hsmall : s0.Len < SmallSetTreshold)
    (hranked : q.result.ranked.length = SmallSetTreshold) (hfresh : q.result.length = 0)
    (hcap : q.limit ≤ q.result.ids.length) :
    ∃ qa qb, q.execute sort (getFilter q.sets q.sets.l 0) = some qa ∧
      q.setExecute sort (getFilter q.sets q.sets.l 1) = some qb ∧
      qa.result.Ids = qb.result.Ids ∧ qa.result.more = qb.result.more := by
  have hcons : q.sets.s.take q.sets.l = s0 :: (q.sets.s.take q.sets.l).drop 1 := by
    have hlt : 0 < q.sets.s.length := by omega
    have hs : q.sets.s[0] = s0 := by
      rw [List.getElem?_eq_getElem hlt] at h0
      exact Option.some.inj h0
    obtain ⟨k, hk⟩ : ∃ k, q.sets.l = k + 1 := ⟨q.sets.l - 1, by omega⟩
    cases hS : q.sets.s with
    | nil => rw [hS] at hlt; simp at hlt
    | cons a t =>
      simp only [hS, List.getElem_cons_zero] at hs
      simp [hk, hs]
  have hfa : ∀ id, getFilter q.sets q.sets.l 0 id = some (q.passes id) := fun id =>
    getFilter_eq q.sets 0 hl (Nat.zero_le _) id
  have hfb : ∀ id, getFilter q.sets q.sets.l 1 id =
      some (existsAll ((q.sets.s.take q.sets.l).drop 1) id) := fun id =>
    getFilter_eq q.sets 1 hl hpos id
  have hP : (fun id => s0.Exists id && existsAll ((q.sets.s.take q.sets.l).drop 1) id)
      = q.passes := by
    funext id
    simp only [Query.passes, Query.attached]
    conv_rhs => rw [hcons]
    simp [existsAll]
  obtain ⟨qa, a1, a2, a3, _⟩ :=
    eachLoop_executeVisit _ q.passes hfa (sort.order q.desc) q (by rw [hfresh]; omega)
  obtain ⟨qb, b1, b2, b3⟩ :=
    setExecute_spec q sort _ _ hfb s0 h0 hn hs0 hfresh (by omega) (by omega)
  rw [hP] at b2 b3
  refine ⟨qa, qb, a1, b1, ?_, ?_⟩
  · rw [a2, b2]
    simp [NormalResult.Ids, hfresh]
  · rw [a3, b3, order_filter_length]

/-- The hypotheses of C3 hold for a query with two attached sets. -/
theorem strategies_agree_witness :
    ∃ qa qb,
      ({ newQuery 4 10 with
          sort := some ⟨[10, 20, 30, 40, 50]⟩
          limit := 1
          sets := { s := [⟨[50, 20, 40]⟩, ⟨[30, 40, 50]⟩, EmptySet, EmptySet], l := 2 } } :
        Query).execute ⟨[10, 20, 30, 40, 50]⟩
          (getFilter { s := [⟨[50, 20, 40]⟩, ⟨[30, 40, 50]⟩, EmptySet, EmptySet], l := 2 } 2 0)
        = some qa ∧
      ({ newQuery 4 10 with
          sort := some ⟨[10, 20, 30, 40, 50]⟩
          limit := 1
          sets := { s := [⟨[50, 20, 40]⟩, ⟨[30, 40, 50]⟩, EmptySet, EmptySet], l := 2 } } :
        Query).setExecute ⟨[10, 20, 30, 40, 50]⟩
          (getFilter { s := [⟨[50, 20, 40]⟩, ⟨[30, 40, 50]⟩, EmptySet, EmptySet], l := 2 } 2 1)
        = some qb ∧
      qa.result.Ids = qb.result.Ids ∧ qa.result.more = qb.result.more :=
  strategies_agree _ ⟨[10, 20, 30, 40, 50]⟩ ⟨[50, 20, 40]⟩ (by decide) (by decide) (by decide)
    rfl (by decide) (by decide) rfl rfl (by decide)

/-- The `more` flag on a buffer whose flag is unset, as on the first use of a
pooled query: for a query bound to a sort list, with limit > 0 and an empty
buffer with room for `limit` ids, the `more` flag of the result of `Execute` is
true exactly when the number of sort-list ids that pass every attached set
exceeds offset + limit. Where the set-driven strategy can be
chosen (a sort list longer than 1000 and an attached set) the sort list and the
attached sets hold no id twice and the ranked scratch has its
`SmallSetTreshold` slots. -/
theorem Execute_more (q : Query) (pool : QueryPool) (sort : IdList)
    (hsort : q.sort = some sort) (hlim : 0 < q.limit) (hl : q.sets.l ≤ q.sets.s.length)
    (hfresh : q.result.length = 0) (hmore : q.result.more = false)
    (hcap : q.limit ≤ q.result.ids.length)
    (hwf : 1000 < sort.Len → q.sets.l ≠ 0 → sort.ids.Nodup ∧ (∀ s ∈ q.attached, s.ids.Nodup) ∧
      SmallSetTreshold ≤ q.result.ranked.length) :
    ∃ o, q.Execute pool = some o ∧
      (o.result.more = true ↔
        q.offset + q.limit <
          (sort.ids.filter (fun id => q.attached.all (fun s => s.Exists id))).length) := by
  obtain ⟨o, h1, _, h3⟩ := Execute_spec q pool sort hsort hl hfresh
    (le_trans (Nat.min_le_left _ _) hcap) hwf
  refine ⟨o, h1, ?_⟩
  rw [h3 hmore]
  have hne : q.limit ≠ 0 := by omega
  have hlen : (q.filtered sort).length =
      (sort.ids.filter (fun id => q.attached.all (fun s => s.Exists id))).length :=
    order_filter_length sort q.desc _
  simp [hne, hlen]

/-- The hypotheses hold for the spec's fifth scenario: the list 1..100,
descending, offset 10, limit 5 returns 90, 89, 88, 87, 86 with `more` set, and
the flag is set because 15 < 100. -/
theorem Execute_more_witness :
    ((((({ newQuery 4 10 with sort := some ⟨List.range' 1 100⟩ } : Query).Desc).Offset
        10).Limit 5).Execute []).map (fun o => (o.result.Ids, o.result.more)) =
      some ([90, 89, 88, 87, 86], true) ∧
    ∃ o, (((({ newQuery 4 10 with sort := some ⟨List.range' 1 100⟩ } : Query).Desc).Offset
        10).Limit 5).Execute [] = some o ∧
      (o.result.more = true ↔
        10 + 5 < ((List.range' 1 100).filter
          (fun id => ([] : List Set).all (fun s => s.Exists id))).length) :=
  ⟨by decide, Execute_more _ [] ⟨List.range' 1 100⟩ rfl (by decide) (by decide) rfl rfl
    (by decide) (fun h => absurd h (by decide))⟩

/-- C4 (the code at the failing input): the one free query of a pool (2 set
slots, 10 result slots) is checked out for the list 1, 2, 3, run with limit 1
(which returns the id 1 with `more` set) and released; the next checkout hands
the same query out in its canonical state with an empty buffer, but the `more`
flag of the buffer is still set. With limit 5 and offset 0 `Execute` returns
the ids 1, 2, 3 with `more = true`, although the 3 passing ids do not exceed
offset + limit = 5. -/
theorem Execute_more_stale :
    Option.map (fun (q : Query) => (decide q.canonical, q.result.length, q.result.more))
        (secondCheckout 2 10 ⟨[1, 2, 3]⟩ (fun q => q.Limit 1)) = some (true, 0, true) ∧
      Option.map (fun (o : Outcome) => (o.result.Ids, o.result.more))
        (secondUse 2 10 ⟨[1, 2, 3]⟩ (fun q => q.Limit 1) (fun q => q.Limit 5)) =
          some ([1, 2, 3], true) ∧
      ¬ (0 + 5 < ([1, 2, 3] : List Id).length) := by
  decide


/-- C5: when the sort name is not a known list (`GetList` yields nil, so the
sort list of the query is unset) or the limit is 0, `Execute` returns the empty
result, no ids and `more = false`, whatever the attached sets, offset and
direction; the result buffer is released (its length is zeroed, the query is
reset and sent to the pool), and the outcome does not depend on the ids of the
sort list. -/
theorem Execute_unset_or_zero (db : Database) (name : String)
    (hname : db.lists.lookup name = none) (q : Query) (pool : QueryPool)
    (h : q.sort = db.GetList name ∨ q.limit = 0) :
    db.GetList name = none ∧
    ∃ o, q.Execute pool = some o ∧ o.result = EmptyResult ∧ o.result.Ids = [] ∧
      o.result.more = false ∧ o.query.result.length = 0 ∧ o.query.canonical ∧
      o.pool = pool ++ [o.query] ∧
      ∀ l : IdList, q.limit = 0 →
        (Query.Execute { q with sort := some l } pool).map (fun o : Outcome => o.result) =
          some EmptyResult := by
  have hget : db.GetList name = none := hname
  refine ⟨hget, releaseEmpty q pool, ?_, rfl, rfl, rfl, rfl, ⟨rfl, rfl, rfl, rfl⟩, rfl, ?_⟩
  · rcases h with h | h
    · rw [hget] at h
      simp [Query.Execute, h]
    · cases hs : q.sort <;> simp [Query.Execute, hs, h]
  · intro l hlim
    simp [Query.Execute, hlim, releaseEmpty]

/-- The hypotheses of C5 hold for a query checked out for a name that is not a
list, with a set attached, an offset and descending direction. -/
theorem Execute_unset_or_zero_witness :
    Database.GetList ⟨[], [("all", ⟨[1, 2, 3]⟩)], []⟩ "recent" = none ∧
    ∃ o, Query.Execute ⟨50, 3, none, true, ⟨[⟨[2, 4]⟩, EmptySet], 1⟩, (newQuery 2 10).result⟩ [] =
        some o ∧ o.result = EmptyResult ∧ o.result.Ids = [] ∧
      o.result.more = false ∧ o.query.result.length = 0 ∧ o.query.canonical ∧
      o.pool = [] ++ [o.query] ∧
      ∀ l : IdList, (50 : Nat) = 0 →
        (Query.Execute ⟨50, 3, some l, true, ⟨[⟨[2, 4]⟩, EmptySet], 1⟩, (newQuery 2 10).result⟩
          []).map (fun o : Outcome => o.result) = some EmptyResult :=
  Execute_unset_or_zero ⟨[], [("all", ⟨[1, 2, 3]⟩)], []⟩ "recent" (by decide)
    ⟨50, 3, none, true, ⟨[⟨[2, 4]⟩, EmptySet], 1⟩, (newQuery 2 10).result⟩ []
    (Or.inl (by decide))

/-! ## Attaching a set that is not registered -/

theorem Add_spec (sets : Sets) (set : Set) (sets' : Sets) (h : sets.Add set = some sets') :
    sets'.l ≤ sets'.s.length ∧ sets'.l = sets.l + 1 ∧
      sets'.s.take sets'.l = sets.s.take sets.l ++ [set] := by
  unfold Sets.Add at h
  by_cases hlt : sets.l < sets.s.length
  · simp only [hlt, if_true, Option.some.injEq] at h
    subst h
    exact ⟨by simp only [List.length_set]; omega, rfl, take_set_succ _ _ _ hlt⟩
  · simp [hlt] at h

theorem AndAll_attached (db : Database) (names : List String) (q q' : Query)
    (h : q.AndAll db names = some q') :
    q'.attached = q.attached ++ names.map db.GetSet ∧
      (names ≠ [] → q'.sets.l ≤ q'.sets.s.length) := by
  induction names generalizing q with
  | nil =>
    simp only [Query.AndAll, List.foldlM, pure, Option.some.injEq] at h
    subst h
    simp
  | cons n rest ih =>
    simp only [Query.AndAll, List.foldlM_cons] at h
    cases hq1 : Query.And db q n with
    | none => rw [hq1] at h; simp at h
    | some q1 =>
      rw [hq1] at h
      have h : q1.AndAll db rest = some q' := h
      obtain ⟨e1, e2⟩ := ih q1 h
      unfold Query.And at hq1
      cases hadd : q.sets.Add (db.GetSet n) with
      | none => rw [hadd] at hq1; simp at hq1
      | some sets' =>
        rw [hadd] at hq1
        simp only [Option.some.injEq] at hq1
        obtain ⟨a1, a2, a3⟩ := Add_spec _ _ _ hadd
        have hq1s : q1.sets = sets' := by rw [← hq1]
        refine ⟨?_, fun _ => ?_⟩
        · rw [e1]
          simp only [Query.attached, hq1s, a3, List.map_cons, List.append_assoc,
            List.singleton_append]
        · cases rest with
          | nil =>
            have h' : some q1 = some q' := h
            rw [← Option.some.inj h', hq1s]
            exact a1
          | cons m rest' => exact e2 (by simp)

/-- The call `Execute` returns the empty result as soon as one attached set is empty. -/
theorem Execute_empty_attached (q : Query) (pool : QueryPool)
    (hl : q.sets.l ≤ q.sets.s.length) (hmem : EmptySet ∈ q.attached) :
    ∃ o, q.Execute pool = some o ∧ o.result = EmptyResult := by
  have hl0 : q.sets.l ≠ 0 := by
    intro h0
    simp [Query.attached, h0] at hmem
  obtain ⟨s0, hs0, _, _, hmin⟩ := Sort_head q.sets hl hl0
  have hsl : s0.Len = 0 := by
    have := hmin EmptySet hmem
    simpa [EmptySet, Set.Len] using this
  obtain ⟨limit, offset, srt, desc, sets, result⟩ := q
  simp only at hl0 hs0
  unfold Query.Execute
  cases srt with
  | none => exact ⟨_, rfl, rfl⟩
  | some sort =>
    by_cases hlim : limit = 0
    · exact ⟨releaseEmpty ⟨limit, offset, some sort, desc, sets, result⟩ pool,
        by simp only [hlim, if_true], rfl⟩
    · exact ⟨releaseEmpty ⟨limit, offset, some sort, desc, sets.Sort, result⟩ pool,
        by simp only [hlim, hl0, hs0, hsl, if_true, if_false], rfl⟩

/-- C6: when `And` was called with a name that is not a registered set, before
or after any other `And` calls, `GetSet` bound `EmptySet` and `Execute` returns
the empty result, whatever the sort list, offset, limit and direction of the
query. -/
theorem Execute_missing_set (db : Database) (name : String)
    (hname : db.sets.lookup name = none) (before after : List String) (q0 q q' : Query)
    (hand : q0.AndAll db (before ++ name :: after) = some q) (hq' : q'.sets = q.sets)
    (pool : QueryPool) :
    db.GetSet name = EmptySet ∧
    ∃ o, q'.Execute pool = some o ∧ o.result = EmptyResult ∧ o.result.Ids = [] ∧
      o.result.more = false := by
  have hget : db.GetSet name = EmptySet := by simp [Database.GetSet, hname]
  obtain ⟨e1, e2⟩ := AndAll_attached db _ q0 q hand
  have hmem : EmptySet ∈ q'.attached := by
    have : q'.attached = q.attached := by simp [Query.attached, hq']
    rw [this, e1]
    simp [hget]
  obtain ⟨o, h1, h2⟩ := Execute_empty_attached q' pool (by rw [hq']; exact e2 (by simp)) hmem
  exact ⟨hget, o, h1, h2, by rw [h2]; rfl, by rw [h2]; rfl⟩


/-- The hypotheses of C6 hold for a query on which `And("even")` and then
`And("odd")` were called, where only "even" is a registered set. -/
theorem Execute_missing_set_witness :
    Database.GetSet ⟨[("even", ⟨[20, 40, 50]⟩)], [], []⟩ "odd" = EmptySet ∧
    ∃ o, Query.Execute ⟨5, 1, some ⟨[10, 20, 30, 40, 50]⟩, true,
          ⟨[⟨[20, 40, 50]⟩, EmptySet, EmptySet, EmptySet], 2⟩, (newQuery 4 10).result⟩ [] =
        some o ∧ o.result = EmptyResult ∧ o.result.Ids = [] ∧ o.result.more = false :=
  Execute_missing_set ⟨[("even", ⟨[20, 40, 50]⟩)], [], []⟩ "odd" (by decide) ["even"] []
    { newQuery 4 10 with sort := some ⟨[10, 20, 30, 40, 50]⟩ }
    ⟨50, 0, some ⟨[10, 20, 30, 40, 50]⟩, false,
      ⟨[⟨[20, 40, 50]⟩, EmptySet, EmptySet, EmptySet], 2⟩, (newQuery 4 10).result⟩
    ⟨5, 1, some ⟨[10, 20, 30, 40, 50]⟩, true,
      ⟨[⟨[20, 40, 50]⟩, EmptySet, EmptySet, EmptySet], 2⟩, (newQuery 4 10).result⟩
    (by decide) rfl []

/-- An offset beyond the passing ids on a buffer whose `more` flag is unset, as
on the first use of a pooled query: for a query bound to a sort list with an
empty buffer, when the offset is at least the number of sort-list ids that
pass every attached set, `Execute` returns no ids and `more = false`, on
whichever strategy is chosen and in both directions. Where the set-driven
strategy can be chosen (a sort list longer than 1000 and an attached set) the
sort list and the attached sets hold no id twice and the ranked scratch has its
`SmallSetTreshold` slots. -/
theorem Execute_offset_beyond (q : Query) (pool : QueryPool) (sort : IdList)
    (hsort : q.sort = some sort) (hl : q.sets.l ≤ q.sets.s.length)
    (hfresh : q.result.length = 0) (hmore : q.result.more = false)
    (hoff : (sort.ids.filter (fun id => q.attached.all (fun s => s.Exists id))).length ≤ q.offset)
    (hwf : 1000 < sort.Len → q.sets.l ≠ 0 → sort.ids.Nodup ∧ (∀ s ∈ q.attached, s.ids.Nodup) ∧
      SmallSetTreshold ≤ q.result.ranked.length) :
    ∃ o, q.Execute pool = some o ∧ o.result.Ids = [] ∧ o.result.more = false := by
  have hlen : (q.filtered sort).length =
      (sort.ids.filter (fun id => q.attached.all (fun s => s.Exists id))).length :=
    order_filter_length sort q.desc _
  obtain ⟨o, h1, h2, h3⟩ := Execute_spec q pool sort hsort hl hfresh
    (by rw [hlen]; omega) hwf
  refine ⟨o, h1, ?_, ?_⟩
  · rw [h2, Query.page, List.drop_of_length_le (by rw [hlen]; exact hoff)]
    simp
  · rw [h3 hmore, hlen]
    have : ¬ (q.offset + q.limit <
        (sort.ids.filter (fun id => q.attached.all (fun s => s.Exists id))).length) := by omega
    simp [this]

set_option maxRecDepth 100000 in
/-- The hypotheses hold on the set-driven path, descending: a sort list
of 1001 ids, one attached set of two ids of which one is in the list, and
offset 3, so that the start index 1 - 3 - 1 is negative. -/
theorem Execute_offset_beyond_witness :
    ∃ o, Query.Execute ⟨5, 3, some ⟨List.range 1001⟩, true,
          ⟨[⟨[5, 2000]⟩, EmptySet], 1⟩, (newQuery 2 10).result⟩ [] = some o ∧
      o.result.Ids = [] ∧ o.result.more = false :=
  Execute_offset_beyond
    ⟨5, 3, some ⟨List.range 1001⟩, true, ⟨[⟨[5, 2000]⟩, EmptySet], 1⟩, (newQuery 2 10).result⟩
    [] ⟨List.range 1001⟩ rfl (by decide) rfl rfl (by decide)
    (fun _ _ => ⟨List.nodup_range 1001, by decide, by decide⟩)

/-- C7 (the code at the failing input): the one free query of a pool (2 set
slots, 10 result slots) is checked out for the list 1, 2, 3, run with limit 1
(which returns the id 1 with `more` set) and released; the next checkout hands
the same query out with an empty buffer whose `more` flag is still set. With
offset 7, beyond the 3 passing ids, and limit 5 `Execute` returns no ids but
`more = true`. -/
theorem Execute_offset_beyond_stale :
    Option.map (fun (o : Outcome) => (o.result.Ids, o.result.more))
        (secondUse 2 10 ⟨[1, 2, 3]⟩ (fun q => q.Limit 1) (fun q => (q.Offset 7).Limit 5)) =
          some ([], true) ∧
      ([1, 2, 3] : List Id).length ≤ 7 := by
  decide

/-- C8: `release` leaves any query with offset 0, limit 50, no attached set and
ascending direction, and sends it to the pool; a newly pooled query has the
same canonical state; so when the pooled queries are canonical, a checkout
after the release yields a canonical query, bound to the requested list, and
the pool stays canonical. -/
theorem release_canonical (q : Query) (pool : QueryPool) (sort : Option IdList)
    (maxSets maxResults : Nat) (hpool : ∀ p ∈ pool, p.canonical) :
    (q.release pool).1.offset = 0 ∧ (q.release pool).1.limit = 50 ∧
      (q.release pool).1.sets.l = 0 ∧ (q.release pool).1.desc = false ∧
      (q.release pool).2 = pool ++ [(q.release pool).1] ∧
      (∀ p ∈ NewQueryPool maxSets maxResults, p.canonical) ∧
      (∀ p ∈ (q.release pool).2, p.canonical) ∧
      ∃ q2 rest, QueryPool.Checkout (q.release pool).2 sort = some (q2, rest) ∧
        q2.canonical ∧ q2.sort = sort ∧ (∀ p ∈ rest, p.canonical) ∧
        (pool = [] → q2 = { (q.release pool).1 with sort := sort }) := by
  have hrel : (q.release pool).1.canonical := ⟨rfl, rfl, rfl, rfl⟩
  have hall : ∀ p ∈ (q.release pool).2, p.canonical := by
    intro p hp
    have hp' : p ∈ pool ++ [(q.release pool).1] := hp
    rcases List.mem_append.1 hp' with hp1 | hp1
    · exact hpool p hp1
    · rw [List.mem_singleton.1 hp1]; exact hrel
  refine ⟨rfl, rfl, rfl, rfl, rfl, ?_, hall, ?_⟩
  · intro p hp
    rw [NewQueryPool, List.mem_replicate] at hp
    rw [hp.2]
    exact ⟨rfl, rfl, rfl, rfl⟩
  · cases pool with
    | nil =>
      exact ⟨{ (q.release []).1 with sort := sort }, [], rfl, ⟨rfl, rfl, rfl, rfl⟩, rfl,
        by simp, fun _ => rfl⟩
    | cons a t =>
      have ha : a.canonical := hpool a (List.mem_cons_self _ _)
      refine ⟨{ a with sort := sort }, t ++ [(q.release (a :: t)).1], rfl, ha, rfl, ?_, ?_⟩
      · intro p hp
        exact hall p (List.mem_cons_of_mem _ hp)
      · intro h; simp at h

/-- The hypothesis of C8 holds for the pool left by a first checkout from a new
pool: a query used with offset, limit, direction and a set, then released. -/
theorem release_canonical_witness :
    (Query.release ⟨3, 7, some ⟨[1, 2]⟩, true, ⟨[⟨[1]⟩, EmptySet], 1⟩, (newQuery 2 10).result⟩
        (List.replicate 63 (newQuery 2 10))).1.offset = 0 ∧
      (Query.release ⟨3, 7, some ⟨[1, 2]⟩, true, ⟨[⟨[1]⟩, EmptySet], 1⟩, (newQuery 2 10).result⟩
        (List.replicate 63 (newQuery 2 10))).1.limit = 50 ∧
      (Query.release ⟨3, 7, some ⟨[1, 2]⟩, true, ⟨[⟨[1]⟩, EmptySet], 1⟩, (newQuery 2 10).result⟩
        (List.replicate 63 (newQuery 2 10))).1.sets.l = 0 ∧
      (Query.release ⟨3, 7, some ⟨[1, 2]⟩, true, ⟨[⟨[1]⟩, EmptySet], 1⟩, (newQuery 2 10).result⟩
        (List.replicate 63 (newQuery 2 10))).1.desc = false :=
  have h := release_canonical
    ⟨3, 7, some ⟨[1, 2]⟩, true, ⟨[⟨[1]⟩, EmptySet], 1⟩, (newQuery 2 10).result⟩
    (List.replicate 63 (newQuery 2 10)) none 2 10
    (fun p hp => by rw [(List.mem_replicate.1 hp).2]; exact ⟨rfl, rfl, rfl, rfl⟩)
  ⟨h.1, h.2.1, h.2.2.1, h.2.2.2.1⟩


/-! ## The claims on the cache -/

theorem withBucket_bucket (c : Cache) (id : Id) (b : Bucket) :
    (c.withBucket id b).bucket id = b := by
  simp [Cache.withBucket, Cache.bucket]

/-- What `set` leaves in the bucket of the id. -/
theorem set_bucket_get (c : Cache) (now : Int) (id : Id) (value : Option Bytes) :
    ((c.set now id value).bucket id).get id = some ⟨now + c.ttl, value⟩ := by
  have h : (c.set now id value).bucket id = ((c.bucket id).set id ⟨now + c.ttl, value⟩).2 := by
    unfold Cache.set
    simp only []
    split
    · split <;> exact withBucket_bucket _ _ _
    · exact withBucket_bucket _ _ _
  rw [h]
  simp [Bucket.set, Bucket.get, List.lookup_cons]

theorem set_ttl (c : Cache) (now : Int) (id : Id) (value : Option Bytes) :
    (c.set now id value).ttl = c.ttl := by
  unfold Cache.set
  simp only []
  split
  · split <;> rfl
  · rfl

/-- The `get` of an id bound to a live item returns the payload of the item and
leaves the cache as it is. -/
theorem get_live (c : Cache) (now : Int) (id : Id) (item : Item)
    (hitem : (c.bucket id).get id = some item) (hlive : now < item.expires) :
    c.get now id = (item.value, c) := by
  simp [Cache.get, hitem, hlive]

/-- C9: after `set(id, p)` at time `t0` with a non-nil payload, while the
bucket still binds the id to the stored item (no eviction), a `get` at a time
strictly before `t0 + ttl` returns exactly `p` and leaves the cache unchanged,
and so does `Fetch`, with any fetcher and with none at all (the fetcher is not
consulted); after two sets on the same id the later value is returned. -/
theorem get_after_set (c : Cache) (id : Id) (p p' : Bytes) (t0 t0' t1 later : Int)
    (hlive : t1 < t0 + c.ttl) :
    ((c.set t0 id (some p)).bucket id).get id = some ⟨t0 + c.ttl, some p⟩ ∧
    (∀ c' : Cache, (c'.bucket id).get id = some ⟨t0 + c.ttl, some p⟩ →
      c'.get t1 id = (some p, c') ∧ c'.Fetch t1 later id = some (some p, c') ∧
      Cache.Fetch { c' with fetcher := none } t1 later id =
        some (some p, { c' with fetcher := none })) ∧
    ((c.set t0' id (some p')).set t0 id (some p)).get t1 id =
      (some p, (c.set t0' id (some p')).set t0 id (some p)) := by
  have key : ∀ c' : Cache, (c'.bucket id).get id = some ⟨t0 + c.ttl, some p⟩ →
      c'.get t1 id = (some p, c') := fun c' h => get_live c' t1 id _ h hlive
  refine ⟨set_bucket_get c t0 id (some p), fun c' h => ⟨key c' h, ?_, ?_⟩, ?_⟩
  · simp [Cache.Fetch, key c' h]
  · have h' : (Cache.bucket { c' with fetcher := none } id).get id
        = some ⟨t0 + c.ttl, some p⟩ := h
    simp [Cache.Fetch, key _ h']
  · apply key
    have := set_bucket_get (c.set t0' id (some p')) t0 id (some p)
    rw [set_ttl] at this
    exact this

/-- The hypothesis of C9 holds for the cache of the test `GetsItemsFromCache`
(ttl 10 seconds in ticks of a second, no fetcher): after `set(2, "33")` at time
0, `get(2)` and `Fetch(2)` at time 9 return "33". -/
theorem get_after_set_witness :
    (((newCache none 10 1024).set 0 2 (some [51, 51])).get 9 2).1 = some [51, 51] ∧
    (((newCache none 10 1024).set 0 2 (some [51, 51])).Fetch 9 9 2).map (fun r => r.1) =
      some (some [51, 51]) :=
  have h := get_after_set (newCache none 10 1024) 2 [51, 51] [52, 52] 0 0 9 9 (by decide)
  have h2 := h.2.1 ((newCache none 10 1024).set 0 2 (some [51, 51])) h.1
  ⟨by rw [h2.1], by rw [h2.2.1]; rfl⟩

/-- What `get` does with an expired entry: it answers nil, removes the entry,
and adds the length of the payload to `size`. -/
theorem get_expired (c : Cache) (now : Int) (id : Id) (item : Item)
    (hitem : (c.bucket id).get id = some item) (hexp : item.expires ≤ now) :
    (c.get now id).1 = none ∧ ((c.get now id).2.bucket id).get id = none ∧
      (c.get now id).2.size = c.size + payloadLen item.value := by
  have hnot : ¬ item.expires > now := by omega
  have hsome : (List.lookup id (c.bucket id).lookup).isSome = true := by
    have : List.lookup id (c.bucket id).lookup = some item := hitem
    rw [this]; rfl
  have hget : c.get now id =
      (none, { c.withBucket id ((c.bucket id).remove id).2 with
        size := c.size + payloadLen item.value }) := by
    simp [Cache.get, hitem, hnot, Bucket.remove, hsome, Cache.withBucket]
  rw [hget]
  refine ⟨rfl, ?_, rfl⟩
  show ((c.withBucket id ((c.bucket id).remove id).2).bucket id).get id = none
  rw [withBucket_bucket]
  simp only [Bucket.remove, Bucket.get]
  rw [List.lookup_eq_none_iff]
  intro p hp
  have h2 : ¬ p.1 = id := by simpa using (List.mem_filter.1 hp).2
  simpa using fun e : id = p.1 => h2 e.symm

/-- C10 (the code at the failing input): with ttl -10 the entry of
`set(2, "234")` is expired at once; `get(2)` answers nil and removes the entry,
but `size` goes from 3 to 6 where the claim has it go to 0. -/
theorem get_expired_size_grows :
    ((newCache none (-10) 1024).set 0 2 (some [50, 51, 52])).size = 3 ∧
    (((newCache none (-10) 1024).set 0 2 (some [50, 51, 52])).get 0 2).1 = none ∧
    ((((newCache none (-10) 1024).set 0 2 (some [50, 51, 52])).get 0 2).2.bucket 2).get 2 = none ∧
    (((newCache none (-10) 1024).set 0 2 (some [50, 51, 52])).get 0 2).2.size = 6 := by
  decide

/-! ## The claims on filters and on the cache operations -/

/-- C17: for the attached-set count `l = sets.l` (within the `Sets` array) and
every `start <= l` (so for `start` 0 and 1), the filter of `getFilter(l, start)`
answers without a panic, and accepts an id exactly when `sets[i].Exists(id)`
holds for every `i` with `start <= i < l`; whichever specialised arity the
switch picks, the filter is the looping `multiSetsFilter`. -/
theorem getFilter_iff (sets : Sets) (start : Nat) (id : Id) (hl : sets.l ≤ sets.s.length)
    (hs : start ≤ sets.l) :
    ∃ b, getFilter sets sets.l start id = some b ∧
      (b = true ↔ ∀ i, start ≤ i → i < sets.l →
        ∃ s, sets.s[i]? = some s ∧ s.Exists id = true) ∧
      getFilter sets sets.l start id = multiSetsFilter sets start id := by
  refine ⟨_, getFilter_eq sets start hl hs id, ?_, ?_⟩
  · simp only [existsAll, List.all_eq_true]
    constructor
    · intro h i hi1 hi2
      have hlt : i < sets.s.length := by omega
      refine ⟨sets.s[i], List.getElem?_eq_getElem hlt, h _ ?_⟩
      rw [List.mem_iff_getElem]
      refine ⟨i - start, by simp only [List.length_drop, List.length_take]; omega, ?_⟩
      simp only [List.getElem_drop, List.getElem_take]
      congr 1
      omega
    · intro h s hmem
      obtain ⟨j, hj, rfl⟩ := List.mem_iff_getElem.1 hmem
      simp only [List.length_drop, List.length_take] at hj
      obtain ⟨s', hs1, hs2⟩ := h (start + j) (by omega) (by omega)
      have hlt : start + j < sets.s.length := by omega
      rw [List.getElem?_eq_getElem hlt] at hs1
      simp only [List.getElem_drop, List.getElem_take]
      rw [Option.some.inj hs1]
      exact hs2
  · obtain ⟨n, hn⟩ : ∃ n, sets.l = start + n := ⟨sets.l - start, by omega⟩
    have h := getFilter_eq_loop sets start n hn id
    rw [← hn] at h
    rw [h, multiSetsFilter, hn, Nat.add_sub_cancel_left]

/-- The hypotheses of C17 hold for three attached sets and `start = 1`: the
filter is the two-set one and accepts 40. -/
theorem getFilter_iff_witness :
    ∃ b, getFilter ⟨[⟨[20, 40]⟩, ⟨[30, 40, 50]⟩, ⟨[40]⟩, EmptySet], 3⟩ 3 1 40 = some b ∧
      (b = true ↔ ∀ i, 1 ≤ i → i < 3 →
        ∃ s, ([⟨[20, 40]⟩, ⟨[30, 40, 50]⟩, ⟨[40]⟩, EmptySet] : List Set)[i]? = some s ∧
          s.Exists 40 = true) ∧
      getFilter ⟨[⟨[20, 40]⟩, ⟨[30, 40, 50]⟩, ⟨[40]⟩, EmptySet], 3⟩ 3 1 40 =
        multiSetsFilter ⟨[⟨[20, 40]⟩, ⟨[30, 40, 50]⟩, ⟨[40]⟩, EmptySet], 3⟩ 1 40 :=
  getFilter_iff ⟨[⟨[20, 40]⟩, ⟨[30, 40, 50]⟩, ⟨[40]⟩, EmptySet], 3⟩ 1 40 (by decide) (by decide)

/-! ## `set` and `gc` -/

/-- The fields of the cache after `set`. -/
theorem set_fields (c : Cache) (now : Int) (id : Id) (value : Option Bytes) :
    (c.set now id value).size =
        (if ((c.bucket id).get id).isSome then c.size else c.size + payloadLen value) ∧
      (c.set now id value).gcing =
        (if ((c.bucket id).get id).isSome = false ∧ c.size + payloadLen value ≥ c.max ∧
            c.gcing = 0 then 1 else c.gcing) ∧
      (c.set now id value).max = c.max ∧ (c.set now id value).fetcher = c.fetcher ∧
      (c.set now id value).buckets =
        Function.update c.buckets (bucketIndex id)
          ((c.bucket id).set id ⟨now + c.ttl, value⟩).2 := by
  unfold Cache.set
  cases hpres : ((c.bucket id).get id).isSome with
  | true =>
    have h1 : ((c.bucket id).set id ⟨now + c.ttl, value⟩).1 = false := by
      simp only [Bucket.set, Bucket.get] at hpres ⊢
      simp [hpres]
    simp [h1, Cache.withBucket]
  | false =>
    have h1 : ((c.bucket id).set id ⟨now + c.ttl, value⟩).1 = true := by
      simp only [Bucket.set, Bucket.get] at hpres ⊢
      simp [hpres]
    by_cases hgc : c.size + payloadLen value ≥ c.max ∧ c.gcing = 0
    · simp [h1, Cache.withBucket, hgc]
    · have hgc' : ¬ (c.max ≤ c.size + payloadLen value ∧ c.gcing = 0) := hgc
      simp [h1, Cache.withBucket, hgc']

theorem gc_foldl (sentinel : Int) (orders : Fin BUCKET_COUNT → List (Id × Item))
    (is : List (Fin BUCKET_COUNT)) (hnd : is.Nodup) (freed : Int) (c : Cache) :
    (is.foldl (gcStep sentinel orders) (freed, c)).1 =
        freed + (is.map (fun i => ((c.buckets i).gc sentinel (orders i)).1)).sum ∧
      (is.foldl (gcStep sentinel orders) (freed, c)).2.size = c.size ∧
      (is.foldl (gcStep sentinel orders) (freed, c)).2.max = c.max ∧
      (is.foldl (gcStep sentinel orders) (freed, c)).2.ttl = c.ttl ∧
      (is.foldl (gcStep sentinel orders) (freed, c)).2.fetcher = c.fetcher ∧
      ∀ j, (is.foldl (gcStep sentinel orders) (freed, c)).2.buckets j =
        if j ∈ is then ((c.buckets j).gc sentinel (orders j)).2 else c.buckets j := by
  induction is generalizing freed c with
  | nil => simp
  | cons i rest ih =>
    rw [List.nodup_cons] at hnd
    simp only [List.foldl_cons]
    obtain ⟨h1, h2, h3, h4, h5, h6⟩ := ih hnd.2
      (freed + ((c.buckets i).gc sentinel (orders i)).1)
      { c with buckets := Function.update c.buckets i ((c.buckets i).gc sentinel (orders i)).2 }
    have hstep : gcStep sentinel orders (freed, c) i =
        (freed + ((c.buckets i).gc sentinel (orders i)).1,
          { c with buckets :=
              Function.update c.buckets i ((c.buckets i).gc sentinel (orders i)).2 }) := rfl
    rw [hstep]
    have hother : ∀ k ∈ rest, Function.update c.buckets i
        ((c.buckets i).gc sentinel (orders i)).2 k = c.buckets k := by
      intro k hk
      have hne : k ≠ i := fun e => hnd.1 (e ▸ hk)
      simp [Function.update, hne]
    refine ⟨?_, h2, h3, h4, h5, ?_⟩
    · rw [h1, List.map_cons, List.sum_cons]
      have : (rest.map (fun k => ((Function.update c.buckets i
          ((c.buckets i).gc sentinel (orders i)).2 k).gc sentinel (orders k)).1)) =
          rest.map (fun k => ((c.buckets k).gc sentinel (orders k)).1) :=
        List.map_congr_left (fun k hk => by rw [hother k hk])
      simp only [this]
      omega
    · intro j
      rw [h6 j]
      by_cases hj : j ∈ rest
      · simp [hj, hother j hj]
      · by_cases hji : j = i
        · subst hji
          simp [hj]
        · simp [hj, hji, Function.update]

/-- What a completed `gc` leaves: every bucket after its own `gc`, `size` less
the sum of the freed counts, `gcing` reset. -/
theorem gc_fields (c : Cache) (sentinel : Int) (orders : Fin BUCKET_COUNT → List (Id × Item)) :
    (c.gc sentinel orders).size =
        c.size - ((List.finRange BUCKET_COUNT).map
          (fun i => ((c.buckets i).gc sentinel (orders i)).1)).sum ∧
      (c.gc sentinel orders).gcing = 0 ∧ (c.gc sentinel orders).max = c.max ∧
      (c.gc sentinel orders).ttl = c.ttl ∧ (c.gc sentinel orders).fetcher = c.fetcher ∧
      ∀ j, (c.gc sentinel orders).buckets j = ((c.buckets j).gc sentinel (orders j)).2 := by
  obtain ⟨h1, h2, h3, h4, h5, h6⟩ :=
    gc_foldl sentinel orders (List.finRange BUCKET_COUNT) (List.nodup_finRange _) 0 c
  refine ⟨?_, rfl, h3, h4, h5, ?_⟩
  · show _ - _ = _
    rw [h1, h2]
    omega
  · intro j
    have := h6 j
    simp only [List.mem_finRange, if_true] at this
    exact this

/-- C19: `set(id, p)` adds `len(p)` to `size` exactly when the id was not
present in its bucket (a replacement leaves `size` as it is); it starts a GC,
`gcing` going from 0 to 1, exactly when the set was a net insertion, the new
size is at least `max` and `gcing` was 0, and otherwise leaves `gcing` as it is;
a completed `gc` subtracts the sum of the 16 per-bucket freed counts from
`size` and resets `gcing` to 0. -/
theorem set_and_gc (c : Cache) (now : Int) (id : Id) (p : Option Bytes) (sentinel : Int)
    (orders : Fin BUCKET_COUNT → List (Id × Item)) :
    (c.set now id p).size =
        (if ((c.bucket id).get id).isSome then c.size else c.size + payloadLen p) ∧
      (((c.set now id p).gcing = 1 ∧ c.gcing = 0) ↔
        (((c.bucket id).get id).isSome = false ∧ c.size + payloadLen p ≥ c.max ∧
          c.gcing = 0)) ∧
      (¬ (((c.bucket id).get id).isSome = false ∧ c.size + payloadLen p ≥ c.max ∧
          c.gcing = 0) → (c.set now id p).gcing = c.gcing) ∧
      (c.gc sentinel orders).size =
        c.size - ((List.finRange BUCKET_COUNT).map
          (fun i => ((c.buckets i).gc sentinel (orders i)).1)).sum ∧
      (List.finRange BUCKET_COUNT).length = 16 ∧
      (c.gc sentinel orders).gcing = 0 := by
  obtain ⟨h1, h2, _⟩ := set_fields c now id p
  obtain ⟨g1, g2, _⟩ := gc_fields c sentinel orders
  refine ⟨h1, ?_, ?_, g1, by simp [BUCKET_COUNT], g2⟩
  · rw [h2]
    constructor
    · rintro ⟨ha, hb⟩
      by_contra hcon
      rw [if_neg hcon] at ha
      omega
    · intro h
      rw [if_pos h]
      exact ⟨rfl, h.2.2⟩
  · intro h
    rw [h2, if_neg h]

/-! ## The search of `Bucket.gc` -/

/-- The entry the search of `Bucket.gc` ends on: the start or one of the
entries visited, never later than the start or than any entry visited, and one
of the entries visited as soon as one of them expires before the start. -/
theorem gcScan_spec (es : List (Id × Item)) (acc : Id × Item) :
    (gcScan es acc = acc ∨ gcScan es acc ∈ es) ∧
      (gcScan es acc).2.expires ≤ acc.2.expires ∧
      (∀ e ∈ es, (gcScan es acc).2.expires ≤ e.2.expires) ∧
      ((∃ e ∈ es, e.2.expires < acc.2.expires) → gcScan es acc ∈ es) := by
  induction es generalizing acc with
  | nil => simp [gcScan]
  | cons e rest ih =>
    rw [gcScan]
    by_cases hlt : e.2.expires < acc.2.expires
    · simp only [hlt, if_true]
      obtain ⟨h1, h2, h3, h4⟩ := ih e
      refine ⟨Or.inr ?_, by omega, ?_, fun _ => ?_⟩
      · rcases h1 with h | h
        · rw [h]; exact List.mem_cons_self _ _
        · exact List.mem_cons_of_mem _ h
      · intro x hx
        rcases List.mem_cons.1 hx with rfl | hx
        · exact h2
        · exact h3 x hx
      · rcases h1 with h | h
        · rw [h]; exact List.mem_cons_self _ _
        · exact List.mem_cons_of_mem _ h
    · simp only [hlt, if_false]
      obtain ⟨h1, h2, h3, h4⟩ := ih acc
      refine ⟨?_, h2, ?_, ?_⟩
      · rcases h1 with h | h
        · exact Or.inl h
        · exact Or.inr (List.mem_cons_of_mem _ h)
      · intro x hx
        rcases List.mem_cons.1 hx with rfl | hx
        · omega
        · exact h3 x hx
      · rintro ⟨x, hx, hxlt⟩
        rcases List.mem_cons.1 hx with rfl | hx
        · exact absurd hxlt hlt
        · exact List.mem_cons_of_mem _ (h4 ⟨x, hx, hxlt⟩)

/-- C16 (the code at the failing input): bucket 0 holds id 0 with a three-byte
payload that expires after the sentinel (sentinel 1000, entry 2000), and id 16
that expires at 1500. No entry expires before the sentinel, so the search ends
on the zero id and `nullItem`: `gc` deletes the entry of id 0, which is not the
earliest of the sampled entries, and returns 0 freed bytes where the entry
deleted holds 3. -/
theorem Bucket_gc_deletes_id_zero :
    Bucket.gc ⟨[(16, ⟨1500, some [7]⟩), (0, ⟨2000, some [1, 2, 3]⟩)]⟩ 1000
        [(16, ⟨1500, some [7]⟩), (0, ⟨2000, some [1, 2, 3]⟩)] =
      (0, ⟨[(16, ⟨1500, some [7]⟩)]⟩) ∧
    bucketIndex 0 = bucketIndex 16 := by
  decide

/-- C15 (the code at the failing input): id 2 has an expired entry of 3 bytes
(ttl -10) and the fetcher's `Get` answers nil; `Fetch(2)` returns nil and stores
no entry, but `size` goes from 3 to 6. -/
theorem Fetch_expired_size_grows :
    ((newCache (some ⟨fun _ p => (none, p), fun _ => none⟩) (-10) 1024).set 0 2
        (some [50, 51, 52])).size = 3 ∧
    (Cache.Fetch ((newCache (some ⟨fun _ p => (none, p), fun _ => none⟩) (-10) 1024).set 0 2
        (some [50, 51, 52])) 0 0 2).map (fun r => (r.1, (r.2.bucket 2).get 2, r.2.size)) =
      some (none, none, 6) := by
  decide

/-! ## The stored bytes of a bucket -/

theorem lookup_of_mem (l : List (Id × Item)) (hn : (l.map Prod.fst).Nodup) (e : Id × Item)
    (he : e ∈ l) : l.lookup e.1 = some e.2 := by
  obtain ⟨ek, ev⟩ := e
  induction l with
  | nil => simp at he
  | cons a t ih =>
    simp only [List.map_cons, List.nodup_cons] at hn
    rcases List.mem_cons.1 he with h | h
    · rw [← h]
      simp [List.lookup_cons]
    · have hne : ek ≠ a.1 := fun heq => hn.1 (heq ▸ List.mem_map_of_mem Prod.fst h)
      have hne' : (ek == a.1) = false := by simpa using hne
      cases a with
      | mk k v =>
        simp only [List.lookup_cons, hne']
        exact ih hn.2 h

theorem mem_of_lookup (l : List (Id × Item)) (k : Id) (item : Item)
    (h : l.lookup k = some item) : (k, item) ∈ l := by
  induction l with
  | nil => simp at h
  | cons a t ih =>
    cases a with
    | mk k' v =>
      simp only [List.lookup_cons] at h
      cases hk : (k == k') with
      | true =>
        simp only [hk] at h
        have : k = k' := by simpa using hk
        subst this
        rw [Option.some.inj h]
        exact List.mem_cons_self _ _
      | false =>
        simp only [hk] at h
        exact List.mem_cons_of_mem _ (ih h)

/-- The bytes left after deleting a key: the bytes of its binding are gone. -/
theorem filter_stored (l : List (Id × Item)) (k : Id) (hn : (l.map Prod.fst).Nodup) :
    ((l.filter (fun p => p.1 ≠ k)).map (fun p => payloadLen p.2.value)).sum =
      (l.map (fun p => payloadLen p.2.value)).sum -
        (match l.lookup k with
          | some item => payloadLen item.value
          | none => 0) := by
  induction l with
  | nil => simp
  | cons a t ih =>
    cases a with
    | mk k' v =>
      simp only [List.map_cons, List.nodup_cons] at hn
      by_cases hk : k = k'
      · subst hk
        have hnot : t.lookup k = none := by
          rw [List.lookup_eq_none_iff]
          intro p hp
          have hne : k ≠ p.1 := fun e => hn.1 (e ▸ List.mem_map_of_mem Prod.fst hp)
          simpa using hne
        have ih' := ih hn.2
        rw [hnot] at ih'
        simp only [List.filter_cons, List.lookup_cons, beq_self_eq_true, List.map_cons,
          List.sum_cons, ne_eq, not_true_eq_false, decide_False, Bool.false_eq_true, if_false]
        simp only [ne_eq] at ih'
        rw [ih']
        omega
      · have hk' : (k == k') = false := by simpa using hk
        have hk'' : ¬ k' = k := fun e => hk e.symm
        have ih' := ih hn.2
        simp only [ne_eq] at ih'
        simp only [List.filter_cons, List.lookup_cons, hk', List.map_cons, List.sum_cons, ne_eq,
          hk'', not_false_eq_true, decide_True, if_true]
        rw [ih']
        omega

theorem filter_keysNodup (l : List (Id × Item)) (k : Id) (hn : (l.map Prod.fst).Nodup) :
    ((l.filter (fun p => p.1 ≠ k)).map Prod.fst).Nodup :=
  (List.Sublist.map Prod.fst (List.filter_sublist l)).nodup hn

theorem filter_lookup_none (l : List (Id × Item)) (k : Id) :
    (l.filter (fun p => p.1 ≠ k)).lookup k = none := by
  rw [List.lookup_eq_none_iff]
  intro p hp
  have h2 : ¬ p.1 = k := by simpa using (List.mem_filter.1 hp).2
  simpa using fun e : k = p.1 => h2 e.symm

theorem filter_lookup_other (l : List (Id × Item)) (k k' : Id) (hne : k' ≠ k) :
    (l.filter (fun p => p.1 ≠ k)).lookup k' = l.lookup k' := by
  induction l with
  | nil => rfl
  | cons a t ih =>
    cases a with
    | mk x v =>
      by_cases hx : x = k
      · subst hx
        have hb : (k' == x) = false := by simpa using hne
        have hd : decide ((x, v).1 ≠ x) = false := by simp
        rw [List.filter_cons, hd]
        simp only [Bool.false_eq_true, if_false, List.lookup_cons, hb]
        exact ih
      · have hd : decide ((x, v).1 ≠ k) = true := by simpa using hx
        rw [List.filter_cons, hd]
        simp only [if_true, List.lookup_cons]
        rw [ih]

/-- What `Bucket.set` does to the stored bytes and the bindings. -/
theorem Bucket_set_spec (b : Bucket) (id : Id) (item : Item) (hn : b.keysNodup) :
    (b.set id item).2.keysNodup ∧
      (b.set id item).2.stored =
        b.stored - (match b.get id with
          | some old => payloadLen old.value
          | none => 0) + payloadLen item.value ∧
      (b.set id item).2.get id = some item ∧
      ∀ id', id' ≠ id → (b.set id item).2.get id' = b.get id' := by
  refine ⟨?_, ?_, ?_, ?_⟩
  · simp only [Bucket.keysNodup, Bucket.set, List.map_cons, List.nodup_cons]
    refine ⟨?_, filter_keysNodup _ _ hn⟩
    intro hmem
    obtain ⟨p, hp, hpk⟩ := List.mem_map.1 hmem
    have h2 : ¬ p.1 = id := by simpa using (List.mem_filter.1 hp).2
    exact h2 hpk
  · simp only [Bucket.stored, Bucket.set, Bucket.get, List.map_cons, List.sum_cons]
    rw [filter_stored _ _ hn]
    omega
  · simp [Bucket.set, Bucket.get, List.lookup_cons]
  · intro id' hne
    have hb : (id' == id) = false := by simpa using hne
    simp only [Bucket.set, Bucket.get, List.lookup_cons, hb]
    exact filter_lookup_other _ _ _ hne

/-- What deleting a key does to the stored bytes and the bindings. -/
theorem Bucket_delete_spec (b : Bucket) (id : Id) (hn : b.keysNodup) :
    Bucket.keysNodup ⟨b.lookup.filter (fun p => p.1 ≠ id)⟩ ∧
      Bucket.stored ⟨b.lookup.filter (fun p => p.1 ≠ id)⟩ =
        b.stored - (match b.get id with
          | some old => payloadLen old.value
          | none => 0) ∧
      Bucket.get ⟨b.lookup.filter (fun p => p.1 ≠ id)⟩ id = none ∧
      ∀ id', id' ≠ id → Bucket.get ⟨b.lookup.filter (fun p => p.1 ≠ id)⟩ id' = b.get id' :=
  ⟨filter_keysNodup _ _ hn, filter_stored _ _ hn, filter_lookup_none _ _,
    fun _ hne => filter_lookup_other _ _ _ hne⟩

/-! ## The stored bytes of the cache -/

theorem sum_finRange_update (f g : Fin BUCKET_COUNT → Int) (i : Fin BUCKET_COUNT)
    (h : ∀ j, j ≠ i → g j = f j) :
    ((List.finRange BUCKET_COUNT).map g).sum =
      ((List.finRange BUCKET_COUNT).map f).sum - f i + g i := by
  rw [← Fin.sum_univ_def, ← Fin.sum_univ_def,
    ← Finset.add_sum_erase Finset.univ g (Finset.mem_univ i),
    ← Finset.add_sum_erase Finset.univ f (Finset.mem_univ i)]
  have : ∑ x ∈ Finset.univ.erase i, g x = ∑ x ∈ Finset.univ.erase i, f x :=
    Finset.sum_congr rfl (fun x hx => h x (Finset.ne_of_mem_erase hx))
  rw [this]
  omega

theorem stored_update (c : Cache) (i : Fin BUCKET_COUNT) (b : Bucket) (buckets' : Fin BUCKET_COUNT → Bucket)
    (h : buckets' = Function.update c.buckets i b) (c' : Cache) (hc : c'.buckets = buckets') :
    c'.stored = c.stored - (c.buckets i).stored + b.stored := by
  simp only [Cache.stored]
  rw [sum_finRange_update (fun j => (c.buckets j).stored) (fun j => (c'.buckets j).stored) i]
  · rw [hc, h]
    simp
  · intro j hj
    rw [hc, h]
    simp [Function.update, hj]

theorem newCache_consistent (fetcher : Option Fetcher) (ttl max : Int) :
    (newCache fetcher ttl max).consistent := by
  refine ⟨?_, fun i => ?_⟩
  · simp [newCache, Cache.stored, Bucket.stored]
  · simp [newCache, Bucket.keysNodup]

/-- A `set` keeps `size` on the stored bytes when the id is new or the payload
it replaces has the same length. -/
theorem set_consistent (c : Cache) (now : Int) (id : Id) (value : Option Bytes)
    (hc : c.consistent)
    (hsame : ∀ old, (c.bucket id).get id = some old → payloadLen old.value = payloadLen value) :
    (c.set now id value).consistent := by
  obtain ⟨h1, _, _, _, h5⟩ := set_fields c now id value
  obtain ⟨b1, b2, _, _⟩ := Bucket_set_spec (c.bucket id) id ⟨now + c.ttl, value⟩
    (hc.2 (bucketIndex id))
  have hst := stored_update c (bucketIndex id) _ _ rfl (c.set now id value) h5
  refine ⟨?_, fun i => ?_⟩
  · rw [h1, hst, b2, hc.1]
    have hb : c.buckets (bucketIndex id) = c.bucket id := rfl
    rw [hb]
    cases hg : (c.bucket id).get id with
    | none =>
      simp only [Option.isSome_none, Bool.false_eq_true, if_false]
      omega
    | some old =>
      have := hsame old hg
      simp only [Option.isSome_some, if_true]
      omega
  · rw [h5]
    by_cases hi : i = bucketIndex id
    · subst hi
      simpa using b1
    · simpa [Function.update, hi] using hc.2 i

/-! ## The lookups of `get` -/

theorem withBucket_other (c : Cache) (id id' : Id) (b : Bucket)
    (h : bucketIndex id' ≠ bucketIndex id) : (c.withBucket id b).bucket id' = c.bucket id' := by
  simp [Cache.withBucket, Cache.bucket, Function.update, h]

theorem removed_get (c : Cache) (id id' : Id) :
    ((c.withBucket id ((c.bucket id).remove id).2).bucket id').get id' =
      if id' = id then none else (c.bucket id').get id' := by
  by_cases hid : id' = id
  · subst hid
    rw [withBucket_bucket]
    simp only [if_true]
    exact filter_lookup_none _ _
  · simp only [hid, if_false]
    by_cases hb : bucketIndex id' = bucketIndex id
    · have e : (c.withBucket id ((c.bucket id).remove id).2).bucket id' =
          ((c.bucket id).remove id).2 := by
        simp [Cache.withBucket, Cache.bucket, hb]
      rw [e]
      have e2 : c.bucket id' = c.bucket id := by simp [Cache.bucket, hb]
      rw [e2]
      exact filter_lookup_other _ _ _ hid
    · rw [withBucket_other c id id' _ hb]

/-- What `get` answers and what it leaves: the live payload; the cache as it
was unless the entry of the id had expired, which is then removed; the
bindings of the other ids, the fetcher and the ttl as they were. -/
theorem get_spec (c : Cache) (now : Int) (id : Id) :
    (c.get now id).1 = c.live now id ∧
      (c.expired now id = false → (c.get now id).2 = c) ∧
      (∀ id', ((c.get now id).2.bucket id').get id' =
        if id' = id ∧ c.expired now id = true then none else (c.bucket id').get id') ∧
      (c.get now id).2.fetcher = c.fetcher ∧ (c.get now id).2.ttl = c.ttl ∧
      (c.get now id).2.max = c.max ∧ (c.get now id).2.gcing = c.gcing := by
  cases hg : (c.bucket id).get id with
  | none =>
    have hget : c.get now id = (none, c) := by simp [Cache.get, hg]
    rw [hget]
    simp [Cache.live, Cache.expired, hg]
  | some item =>
    by_cases hlive : item.expires > now
    · have hle : ¬ item.expires ≤ now := by omega
      have hget : c.get now id = (item.value, c) := by simp [Cache.get, hg, hlive]
      rw [hget]
      simp [Cache.live, Cache.expired, hg, hlive, hle]
    · have hle : item.expires ≤ now := by omega
      have hsome : (List.lookup id (c.bucket id).lookup).isSome = true := by
        have : List.lookup id (c.bucket id).lookup = some item := hg
        rw [this]; rfl
      have hget : c.get now id =
          (none, { c.withBucket id ((c.bucket id).remove id).2 with
            size := c.size + payloadLen item.value }) := by
        simp [Cache.get, hg, hlive, Bucket.remove, hsome, Cache.withBucket]
      rw [hget]
      have hexp : c.expired now id = true := by simp [Cache.expired, hg, hle]
      refine ⟨by simp [Cache.live, hg, hlive], fun h => by rw [hexp] at h; simp at h, ?_,
        rfl, rfl, rfl, rfl⟩
      intro id'
      have := removed_get c id id'
      simp only [hexp, and_true]
      exact this

theorem get_live_eq (c : Cache) (now : Int) (id id' : Id) :
    (c.get now id).2.live now id' = c.live now id' := by
  obtain ⟨_, _, h3, _⟩ := get_spec c now id
  simp only [Cache.live, h3 id']
  by_cases hcond : id' = id ∧ c.expired now id = true
  · obtain ⟨rfl, hexp⟩ := hcond
    simp only [Cache.expired] at hexp
    cases hg : (c.bucket id').get id' with
    | none => simp
    | some item =>
      rw [hg] at hexp
      have hle : item.expires ≤ now := by simpa using hexp
      have hnot : ¬ item.expires > now := by omega
      simp [hnot, Cache.expired, hg, hle]
  · simp only [hcond, if_false]

theorem missStream_congr (c c' : Cache) (now : Int) (h : ∀ id, c'.live now id = c.live now id)
    (ids : List Id) (i : Nat) : missStream c' now ids i = missStream c now ids i := by
  induction ids generalizing i with
  | nil => rfl
  | cons id rest ih => simp only [missStream, h id, ih]

theorem hitPayloads_congr (c c' : Cache) (now : Int)
    (h : ∀ id, c'.live now id = c.live now id) (ids : List Id) (i : Nat)
    (payloads : List (Option Bytes)) :
    hitPayloads c' now ids i payloads = hitPayloads c now ids i payloads := by
  induction ids generalizing i payloads with
  | nil => rfl
  | cons id rest ih => simp only [hitPayloads, h id, ih]

theorem hitPayloads_length (c : Cache) (now : Int) (ids : List Id) (i : Nat)
    (payloads : List (Option Bytes)) :
    (hitPayloads c now ids i payloads).length = payloads.length := by
  induction ids generalizing i payloads with
  | nil => rfl
  | cons id rest ih =>
    simp only [hitPayloads]
    cases c.live now id with
    | none => exact ih _ _
    | some p => rw [ih]; simp

theorem take_set_two (m : List Nat) (k a b : Nat) (h : k + 1 < m.length) :
    ((m.set k a).set (k + 1) b).take (k + 2) = m.take k ++ [a, b] := by
  rw [take_set_succ _ _ _ (by simp only [List.length_set]; exact h),
    take_set_succ _ _ _ (by omega)]
  simp

/-- What the first loop of `Fill` leaves when the scratch has room: the stream
of misses appended, the hits written to their slots, the cache after the
lookups. -/
theorem fillScan_spec (now : Int) (ids : List Id) (i : Nat) (st : FillState)
    (hm : st.missCount + 2 * ids.length ≤ st.misses.length)
    (hp : i + ids.length ≤ st.payloads.length) :
    ∃ st', fillScan now ids i st = some st' ∧
      st'.misses.take st'.missCount =
        st.misses.take st.missCount ++ missStream st.cache now ids i ∧
      st'.missCount = st.missCount + (missStream st.cache now ids i).length ∧
      st'.misses.length = st.misses.length ∧
      st'.payloads = hitPayloads st.cache now ids i st.payloads ∧
      st'.cache = getAll now ids st.cache := by
  induction ids generalizing i st with
  | nil => exact ⟨st, rfl, by simp [missStream], by simp [missStream], rfl, rfl, rfl⟩
  | cons id rest ih =>
    simp only [List.length_cons] at hm hp
    obtain ⟨g1, _, _, _⟩ := get_spec st.cache now id
    have hlive := get_live_eq st.cache now id
    cases hl : st.cache.live now id with
    | none =>
      have hlt : st.missCount + 1 < st.misses.length := by omega
      have hv : fillVisit now st i id = some
          { cache := (st.cache.get now id).2
            missCount := st.missCount + 2
            misses := (st.misses.set st.missCount i).set (st.missCount + 1) id
            payloads := st.payloads } := by
        simp [fillVisit, g1, hl, hlt]
      have hm1 : st.missCount + 2 + 2 * rest.length ≤
          ((st.misses.set st.missCount i).set (st.missCount + 1) id).length := by
        simp only [List.length_set]; omega
      have hp1 : i + 1 + rest.length ≤ st.payloads.length := by omega
      obtain ⟨st', h1, h2, h3, h4, h5, h6⟩ := ih (i + 1)
        { cache := (st.cache.get now id).2
          missCount := st.missCount + 2
          misses := (st.misses.set st.missCount i).set (st.missCount + 1) id
          payloads := st.payloads } hm1 hp1
      refine ⟨st', by rw [fillScan, hv]; exact h1, ?_, ?_, ?_, ?_, ?_⟩
      · rw [h2, take_set_two _ _ _ _ hlt, missStream_congr _ _ now hlive]
        simp [missStream, hl]
      · rw [h3, missStream_congr _ _ now hlive]
        simp only [missStream, hl, List.length_cons]
        omega
      · rw [h4]; simp
      · rw [h5, hitPayloads_congr _ _ now hlive]
        simp [hitPayloads, hl]
      · rw [h6]; rfl
    | some p =>
      have hlt : i < st.payloads.length := by omega
      have hv : fillVisit now st i id = some
          { cache := (st.cache.get now id).2
            missCount := st.missCount
            misses := st.misses
            payloads := st.payloads.set i (some p) } := by
        simp [fillVisit, g1, hl, hlt]
      have hm1 : st.missCount + 2 * rest.length ≤ st.misses.length := by omega
      have hp1 : i + 1 + rest.length ≤ (st.payloads.set i (some p)).length := by
        simp only [List.length_set]; omega
      obtain ⟨st', h1, h2, h3, h4, h5, h6⟩ := ih (i + 1)
        { cache := (st.cache.get now id).2
          missCount := st.missCount
          misses := st.misses
          payloads := st.payloads.set i (some p) } hm1 hp1
      refine ⟨st', by rw [fillScan, hv]; exact h1, ?_, ?_, ?_, ?_, ?_⟩
      · rw [h2, missStream_congr _ _ now hlive]
        simp [missStream, hl]
      · rw [h3, missStream_congr _ _ now hlive]
        simp only [missStream, hl]
      · rw [h4]
      · rw [h5, hitPayloads_congr _ _ now hlive]
        simp [hitPayloads, hl]
      · rw [h6]; rfl

/-! ## The second loop of `Fill` -/

theorem fillStore_spec (later : Int) (misses : List Nat) (payloads : List (Option Bytes))
    (n i : Nat) (c : Cache) (h : i + 2 * n ≤ misses.length)
    (hpos : ∀ p ∈ streamPairs ((misses.drop i).take (2 * n)), p.1 < payloads.length) :
    fillStore later misses payloads n i c =
      some (storePairs later payloads ((misses.drop i).take (2 * n)) c) := by
  induction n generalizing i c with
  | zero => simp [fillStore, storePairs, streamPairs]
  | succ m ih =>
    have h0 : i < misses.length := by omega
    have h1 : i + 1 < misses.length := by omega
    have hd : (misses.drop i).take (2 * (m + 1)) =
        misses[i] :: misses[i + 1] :: (misses.drop (i + 2)).take (2 * m) := by
      rw [List.drop_eq_getElem_cons h0, List.drop_eq_getElem_cons h1]
      have e : 2 * (m + 1) = 2 * m + 1 + 1 := by omega
      rw [e, List.take_succ_cons, List.take_succ_cons]
    rw [hd] at hpos ⊢
    have hp0 : misses[i] < payloads.length :=
      hpos (misses[i], misses[i + 1]) (by simp [streamPairs])
    rw [fillStore, List.getElem?_eq_getElem h1, List.getElem?_eq_getElem h0]
    simp only [List.getElem?_eq_getElem hp0]
    rw [ih (i + 2) _ (by omega) (fun p hp => hpos p (by simp [streamPairs, hp]))]
    simp [storePairs, streamPairs, List.getElem?_eq_getElem hp0]

theorem streamPairs_missStream (c : Cache) (now : Int) (ids : List Id) (i : Nat) :
    streamPairs (missStream c now ids i) =
      ((List.range ids.length).filter (fun j => (c.live now (ids.getD j 0)).isNone)).map
        (fun j => (i + j, ids.getD j 0)) := by
  induction ids generalizing i with
  | nil => simp [missStream, streamPairs]
  | cons id rest ih =>
    have hr : List.range (rest.length + 1) = 0 :: (List.range rest.length).map Nat.succ := by
      rw [List.range_succ_eq_map]
    simp only [List.length_cons, hr, missStream]
    cases hl : c.live now id with
    | none =>
      simp only [streamPairs, ih (i + 1), List.filter_cons, List.getD_cons_zero, hl,
        Option.isNone_none, if_true, List.map_cons, Nat.add_zero, List.filter_map,
        List.map_map]
      congr 1
      apply List.map_congr_left
      intro j _
      simp only [Function.comp_apply, List.getD_cons_succ, Prod.mk.injEq, and_true]
      omega
    | some p =>
      simp only [ih (i + 1), List.filter_cons, List.getD_cons_zero, hl, Option.isNone_some,
        Bool.false_eq_true, if_false, List.filter_map, List.map_map]
      apply List.map_congr_left
      intro j _
      simp only [Function.comp_apply, List.getD_cons_succ, Prod.mk.injEq, and_true]
      omega

/-- The stream of misses is the alternating stream of position and id over the
positions whose id has no live payload, in increasing order. -/
theorem missStream_eq (c : Cache) (now : Int) (ids : List Id) (i : Nat) :
    missStream c now ids i =
      ((List.range ids.length).filter (fun j => (c.live now (ids.getD j 0)).isNone)).flatMap
        (fun j => [i + j, ids.getD j 0]) := by
  induction ids generalizing i with
  | nil => simp [missStream]
  | cons id rest ih =>
    have hr : List.range (rest.length + 1) = 0 :: (List.range rest.length).map Nat.succ := by
      rw [List.range_succ_eq_map]
    simp only [List.length_cons, hr, missStream]
    have hshift : ∀ l : List Nat,
        (l.map Nat.succ |>.filter (fun j => (c.live now ((id :: rest).getD j 0)).isNone)).flatMap
          (fun j => [i + j, (id :: rest).getD j 0]) =
        (l.filter (fun j => (c.live now (rest.getD j 0)).isNone)).flatMap
          (fun j => [i + 1 + j, rest.getD j 0]) := by
      intro l
      induction l with
      | nil => rfl
      | cons a t iht =>
        simp only [List.map_cons, List.filter_cons, List.getD_cons_succ]
        by_cases ha : (c.live now (rest.getD a 0)).isNone = true
        · simp only [ha, if_true, List.flatMap_cons, iht, List.getD_cons_succ]
          congr 2
          omega
        · simp only [ha, Bool.false_eq_true, if_false]
          exact iht
    cases hl : c.live now id with
    | none =>
      simp only [ih (i + 1), List.filter_cons, List.getD_cons_zero, hl, Option.isNone_none,
        if_true, List.flatMap_cons, Nat.add_zero, hshift]
      rfl
    | some p =>
      simp only [ih (i + 1), List.filter_cons, List.getD_cons_zero, hl, Option.isNone_some,
        Bool.false_eq_true, if_false, hshift]

/-! ## `Fill` as a whole -/

theorem getAll_fields (now : Int) (ids : List Id) (c : Cache) :
    (getAll now ids c).fetcher = c.fetcher ∧ (getAll now ids c).ttl = c.ttl ∧
      (getAll now ids c).max = c.max ∧ (getAll now ids c).gcing = c.gcing ∧
      ∀ id, (getAll now ids c).live now id = c.live now id := by
  induction ids generalizing c with
  | nil => exact ⟨rfl, rfl, rfl, rfl, fun _ => rfl⟩
  | cons id rest ih =>
    obtain ⟨h1, h2, h3, h4, h5⟩ := ih (c.get now id).2
    obtain ⟨_, _, _, g4, g5, g6, g7⟩ := get_spec c now id
    exact ⟨h1.trans g4, h2.trans g5, h3.trans g6, h4.trans g7,
      fun id' => (h5 id').trans (get_live_eq c now id id')⟩

theorem expired_after_get (c : Cache) (now : Int) (id id' : Id) :
    (c.get now id).2.expired now id' = (c.expired now id' && !decide (id' = id)) := by
  obtain ⟨_, _, h3, _⟩ := get_spec c now id
  by_cases hid : id' = id
  · subst hid
    simp only [Cache.expired, h3 id', true_and, decide_True, Bool.not_true, Bool.and_false]
    cases hg : (c.bucket id').get id' with
    | none => simp
    | some item =>
      by_cases hle : item.expires ≤ now
      · simp [hle]
      · simp [hle]
  · simp [Cache.expired, h3 id', hid]

/-- The bindings after the lookups of a list of ids: the expired entries of the
ids looked up are removed, every other binding is as it was. -/
theorem getAll_get (now : Int) (ids : List Id) (c : Cache) (id' : Id) :
    ((getAll now ids c).bucket id').get id' =
      if id' ∈ ids ∧ c.expired now id' = true then none else (c.bucket id').get id' := by
  induction ids generalizing c with
  | nil => simp [getAll]
  | cons id rest ih =>
    have h := ih (c.get now id).2
    obtain ⟨_, _, h3, _⟩ := get_spec c now id
    have hstep : getAll now (id :: rest) c = getAll now rest (c.get now id).2 := rfl
    rw [hstep, h, expired_after_get, h3 id']
    by_cases hid : id' = id
    · subst hid
      by_cases hexp : c.expired now id' = true
      · simp [hexp]
      · simp [hexp]
    · simp [hid]

/-- The lookups leave the cache as it is when no id looked up has an expired
entry. -/
theorem getAll_unchanged (now : Int) (ids : List Id) (c : Cache)
    (h : ∀ id ∈ ids, c.expired now id = false) : getAll now ids c = c := by
  induction ids generalizing c with
  | nil => rfl
  | cons id rest ih =>
    obtain ⟨_, h2, _⟩ := get_spec c now id
    have hc : (c.get now id).2 = c := h2 (h id (List.mem_cons_self _ _))
    have hstep : getAll now (id :: rest) c = getAll now rest (c.get now id).2 := rfl
    rw [hstep, hc]
    exact ih c (fun x hx => h x (List.mem_cons_of_mem _ hx))

theorem missStream_length (c : Cache) (now : Int) (ids : List Id) (i : Nat) :
    (missStream c now ids i).length =
      2 * (ids.filter (fun id => (c.live now id).isNone)).length := by
  induction ids generalizing i with
  | nil => rfl
  | cons id rest ih =>
    simp only [missStream, List.filter_cons]
    cases hl : c.live now id with
    | none => simp [ih (i + 1)]; omega
    | some p => simp [ih (i + 1)]

theorem streamPairs_pos_lt (c : Cache) (now : Int) (ids : List Id) :
    ∀ p ∈ streamPairs (missStream c now ids 0), p.1 < ids.length ∧ p.2 = ids.getD p.1 0 ∧
      c.live now p.2 = none := by
  intro p hp
  rw [streamPairs_missStream] at hp
  obtain ⟨j, hj, rfl⟩ := List.mem_map.1 hp
  obtain ⟨hj1, hj2⟩ := List.mem_filter.1 hj
  simp only [Nat.zero_add]
  exact ⟨List.mem_range.1 hj1, trivial, by simpa using hj2⟩

/-- The three ways `Fill` ends when the scratch arrays have room: with no call
of the fetcher when nothing was missed; with the fetcher's error, after the
lookups only; with the stores of the second loop after the fetcher's success.
`S` is the stream of misses and `P` the slots with the hits written. -/
theorem Fill_spec (c : Cache) (now later : Int) (result : NormalResult) (buf : Scratch)
    (hm : 2 * result.Ids.length ≤ buf.misses.length)
    (hp : result.Ids.length ≤ buf.payloads.length) :
    ∃ m', m'.length = buf.misses.length ∧
      (missStream c now result.Ids 0 = [] →
        c.Fill now later result buf =
          some (none, ⟨m', hitPayloads c now result.Ids 0 buf.payloads⟩,
            getAll now result.Ids c)) ∧
      (missStream c now result.Ids 0 ≠ [] → c.fetcher = none →
        c.Fill now later result buf = none) ∧
      (∀ f, missStream c now result.Ids 0 ≠ [] → c.fetcher = some f →
        ∀ e, (f.Fill (missStream c now result.Ids 0)
            (hitPayloads c now result.Ids 0 buf.payloads)).1 = some e →
          c.Fill now later result buf =
            some (some e, ⟨m', (f.Fill (missStream c now result.Ids 0)
              (hitPayloads c now result.Ids 0 buf.payloads)).2⟩, getAll now result.Ids c)) ∧
      (∀ f, missStream c now result.Ids 0 ≠ [] → c.fetcher = some f →
        (f.Fill (missStream c now result.Ids 0)
            (hitPayloads c now result.Ids 0 buf.payloads)).1 = none →
        (f.Fill (missStream c now result.Ids 0)
            (hitPayloads c now result.Ids 0 buf.payloads)).2.length = buf.payloads.length →
          c.Fill now later result buf =
            some (none, ⟨m', (f.Fill (missStream c now result.Ids 0)
              (hitPayloads c now result.Ids 0 buf.payloads)).2⟩,
              storePairs later (f.Fill (missStream c now result.Ids 0)
                (hitPayloads c now result.Ids 0 buf.payloads)).2
                (missStream c now result.Ids 0) (getAll now result.Ids c))) := by
  obtain ⟨st, h1, h2, h3, h4, h5, h6⟩ :=
    fillScan_spec now result.Ids 0 ⟨c, 0, buf.misses, buf.payloads⟩
      (by simp only []; omega) (by simp only []; omega)
  simp only [List.take_zero, List.nil_append, Nat.zero_add] at h2 h3
  have hfetch : (getAll now result.Ids c).fetcher = c.fetcher :=
    (getAll_fields now result.Ids c).1
  have h5' : st.payloads = hitPayloads c now result.Ids 0 buf.payloads := h5
  have h6' : st.cache = getAll now result.Ids c := h6
  refine ⟨st.misses, h4, ?_, ?_, ?_, ?_⟩
  · intro hS
    have h0 : st.missCount = 0 := by rw [h3, hS]; rfl
    simp [Cache.Fill, h1, h0, h5', h6']
  · intro hS hnone
    have hpos : st.missCount > 0 := by
      rw [h3]; exact List.length_pos.2 hS
    simp [Cache.Fill, h1, hpos, h6', hfetch, hnone]
  · intro f hS hf e he
    have hpos : st.missCount > 0 := by
      rw [h3]; exact List.length_pos.2 hS
    simp only [Cache.Fill, h1, hpos, if_true, h6', hfetch, hf, h2, h5', he]
  · intro f hS hf hok hlen
    have hpos : st.missCount > 0 := by
      rw [h3]; exact List.length_pos.2 hS
    have heven := missStream_length c now result.Ids 0
    have hn : (st.missCount + 1) / 2 =
        (result.Ids.filter (fun id => (c.live now id).isNone)).length := by
      rw [h3, heven]; omega
    have htake : (st.misses.drop 0).take
        (2 * (result.Ids.filter (fun id => (c.live now id).isNone)).length) =
        missStream c now result.Ids 0 := by
      rw [List.drop_zero, ← heven, ← h3, h2]
    have hst := fillStore_spec later st.misses
      (f.Fill (missStream c now result.Ids 0) (hitPayloads c now result.Ids 0 buf.payloads)).2
      (result.Ids.filter (fun id => (c.live now id).isNone)).length 0 st.cache
      (by rw [Nat.zero_add, ← heven, ← h3]
          have : st.missCount ≤ st.misses.length := by
            have := congrArg List.length h2
            rw [List.length_take] at this
            omega
          exact this)
      (by
        intro p hp
        rw [htake] at hp
        have := (streamPairs_pos_lt c now result.Ids p hp).1
        omega)
    rw [htake] at hst
    rw [h6'] at hst
    simp only [Cache.Fill, h1, hpos, if_true, h6', hfetch, hf, h2, h5', hok, hn, hst]

theorem hitPayloads_get (c : Cache) (now : Int) (ids : List Id) (i0 : Nat)
    (payloads : List (Option Bytes)) (h : i0 + ids.length ≤ payloads.length) :
    (∀ k, k < i0 → (hitPayloads c now ids i0 payloads)[k]? = payloads[k]?) ∧
      ∀ j p, j < ids.length → c.live now (ids.getD j 0) = some p →
        (hitPayloads c now ids i0 payloads)[i0 + j]? = some (some p) := by
  induction ids generalizing i0 payloads with
  | nil => exact ⟨fun _ _ => rfl, fun j p hj => by simp at hj⟩
  | cons id rest ih =>
    simp only [List.length_cons] at h
    cases hl : c.live now id with
    | none =>
      obtain ⟨a, b⟩ := ih (i0 + 1) payloads (by omega)
      simp only [hitPayloads, hl]
      refine ⟨fun k hk => a k (by omega), ?_⟩
      intro j p hj hlive
      cases j with
      | zero => simp [hl] at hlive
      | succ j' =>
        have := b j' p (by simpa using hj) (by simpa using hlive)
        have e : i0 + (j' + 1) = i0 + 1 + j' := by omega
        rw [e]; exact this
    | some q =>
      obtain ⟨a, b⟩ := ih (i0 + 1) (payloads.set i0 (some q))
        (by simp only [List.length_set]; omega)
      simp only [hitPayloads, hl]
      refine ⟨fun k hk => ?_, ?_⟩
      · rw [a k (by omega), List.getElem?_set_ne (by omega)]
      · intro j p hj hlive
        cases j with
        | zero =>
          have hq : q = p := by simpa [hl] using hlive
          have e0 : i0 + 0 = i0 := rfl
          rw [e0, a i0 (by omega), List.getElem?_set_self (by omega), hq]
        | succ j' =>
          have := b j' p (by simpa using hj) (by simpa using hlive)
          have e : i0 + (j' + 1) = i0 + 1 + j' := by omega
          rw [e]; exact this

/-- A `set` leaves the bindings of the other ids as they are. -/
theorem set_get_other (c : Cache) (now : Int) (id id' : Id) (value : Option Bytes)
    (hne : id' ≠ id) : ((c.set now id value).bucket id').get id' = (c.bucket id').get id' := by
  obtain ⟨_, _, _, _, h5⟩ := set_fields c now id value
  simp only [Cache.bucket, h5]
  by_cases hb : bucketIndex id' = bucketIndex id
  · rw [hb, Function.update_same]
    have hbk : Cache.bucket c id = c.buckets (bucketIndex id) := rfl
    have hb' : (id' == id) = false := by simpa using hne
    simp only [Bucket.set, Bucket.get, List.lookup_cons, hb', hbk]
    exact filter_lookup_other _ _ _ hne
  · rw [Function.update_noteq hb]

/-- After the stores of the second loop, the id of every pair of the stream is
bound to the payload of its position, when no id occurs in two pairs; the
other ids are bound as before. -/
theorem storePairs_get (later : Int) (payloads : List (Option Bytes)) (stream : List Nat)
    (c : Cache) (hn : ((streamPairs stream).map Prod.snd).Nodup) :
    (∀ p ∈ streamPairs stream, ((storePairs later payloads stream c).bucket p.2).get p.2 =
        some ⟨later + c.ttl, payloads.getD p.1 none⟩) ∧
      ∀ id, id ∉ (streamPairs stream).map Prod.snd →
        ((storePairs later payloads stream c).bucket id).get id = (c.bucket id).get id := by
  unfold storePairs
  generalize streamPairs stream = ps at hn
  induction ps generalizing c with
  | nil => exact ⟨fun p hp => by simp at hp, fun _ _ => rfl⟩
  | cons q rest ih =>
    simp only [List.map_cons, List.nodup_cons] at hn
    obtain ⟨a, b⟩ := ih (c.set later q.2 (payloads.getD q.1 none)) hn.2
    simp only [List.foldl_cons]
    refine ⟨?_, ?_⟩
    · intro p hp
      rcases List.mem_cons.1 hp with rfl | hp
      · rw [b p.2 hn.1]
        exact set_bucket_get c later p.2 _
      · rw [a p hp, set_ttl]
    · intro id hid
      simp only [List.map_cons, List.mem_cons, not_or] at hid
      rw [b id hid.2]
      exact set_get_other c later q.2 id _ hid.1

theorem streamPairs_ids_nodup (c : Cache) (now : Int) (ids : List Id) (hn : ids.Nodup) :
    ((streamPairs (missStream c now ids 0)).map Prod.snd).Nodup := by
  rw [streamPairs_missStream, List.map_map]
  have hsub : List.Sublist
      (((List.range ids.length).filter (fun j => (c.live now (ids.getD j 0)).isNone)).map
        (fun j => ids.getD j 0))
      ((List.range ids.length).map (fun j => ids.getD j 0)) :=
    List.Sublist.map _ (List.filter_sublist _)
  have hall : (List.range ids.length).map (fun j => ids.getD j 0) = ids := by
    apply List.ext_getElem
    · simp
    · intro n h1 h2
      simp only [List.length_map, List.length_range] at h1
      simp [List.getElem?_eq_getElem h1]
  rw [hall] at hsub
  exact hsub.nodup hn

/-! ## The claims on `Fill` -/

/-- C11: for a result buffer with unique ids and room in its scratch arrays,
and a fetcher whose batch `Fill` succeeds on the stream of misses, keeps the
number of slots and leaves the slots of the hits as they are, `Cache.Fill`
returns nil; the slots it leaves are those of the fetcher when an id was missed
and the hit slots otherwise; the slot of every id with a live payload holds
that payload, the slot of every other id holds what the fetcher left there, and
that id is bound in the cache to exactly the payload of its slot. -/
theorem Fill_success (c : Cache) (now later : Int) (result : NormalResult) (buf : Scratch)
    (f : Fetcher) (hm : 2 * result.Ids.length ≤ buf.misses.length)
    (hp : result.Ids.length ≤ buf.payloads.length) (hf : c.fetcher = some f)
    (hnd : result.Ids.Nodup)
    (hok : (f.Fill (c.missed now result) (c.hitSlots now result buf)).1 = none)
    (hlen : (f.Fill (c.missed now result) (c.hitSlots now result buf)).2.length =
      buf.payloads.length)
    (hkeep : ∀ i, i < result.Ids.length → c.live now (result.Ids.getD i 0) ≠ none →
      (f.Fill (c.missed now result) (c.hitSlots now result buf)).2[i]? =
        (c.hitSlots now result buf)[i]?) :
    ∃ m' P' c', c.Fill now later result buf = some (none, ⟨m', P'⟩, c') ∧
      P' = (if c.missed now result = [] then c.hitSlots now result buf
        else (f.Fill (c.missed now result) (c.hitSlots now result buf)).2) ∧
      ∀ i, i < result.Ids.length →
        (∀ p, c.live now (result.Ids.getD i 0) = some p → P'[i]? = some (some p)) ∧
        (c.live now (result.Ids.getD i 0) = none →
          P'[i]? = (f.Fill (c.missed now result) (c.hitSlots now result buf)).2[i]? ∧
          (c'.bucket (result.Ids.getD i 0)).get (result.Ids.getD i 0) =
            some ⟨later + c.ttl, P'.getD i none⟩) := by
  obtain ⟨m', _, hnone, _, _, hsucc⟩ := Fill_spec c now later result buf hm hp
  have hhit := (hitPayloads_get c now result.Ids 0 buf.payloads (by omega)).2
  simp only [Cache.missed, Cache.hitSlots] at hok hlen hkeep ⊢
  by_cases hS : missStream c now result.Ids 0 = []
  · refine ⟨m', hitPayloads c now result.Ids 0 buf.payloads, getAll now result.Ids c,
      hnone hS, (if_pos hS).symm, ?_⟩
    intro i hi
    refine ⟨fun p hl => ?_, fun hl => ?_⟩
    · have := hhit i p hi hl
      rw [Nat.zero_add] at this
      exact this
    · exfalso
      have hlen0 := missStream_length c now result.Ids 0
      rw [hS] at hlen0
      have hfil : result.Ids.filter (fun id => (c.live now id).isNone) = [] := by
        apply List.eq_nil_of_length_eq_zero
        simp only [List.length_nil] at hlen0
        omega
      have hmem : result.Ids.getD i 0 ∈ result.Ids := by
        rw [List.getD_eq_getElem _ _ hi]
        exact List.getElem_mem _
      have := List.filter_eq_nil_iff.1 hfil _ hmem
      rw [hl] at this
      exact this rfl
  · refine ⟨m', _, _, hsucc f hS hf hok hlen, (if_neg hS).symm, ?_⟩
    intro i hi
    refine ⟨fun p hl => ?_, fun hl => ⟨rfl, ?_⟩⟩
    · rw [hkeep i hi (by rw [hl]; simp)]
      have := hhit i p hi hl
      rw [Nat.zero_add] at this
      exact this
    · have hpair : (i, result.Ids.getD i 0) ∈ streamPairs (missStream c now result.Ids 0) := by
        rw [streamPairs_missStream]
        refine List.mem_map.2 ⟨i, List.mem_filter.2 ⟨List.mem_range.2 hi, ?_⟩, ?_⟩
        · show (c.live now (result.Ids.getD i 0)).isNone = true
          rw [hl]; rfl
        · rw [Nat.zero_add]
      have := (storePairs_get later
        (f.Fill (missStream c now result.Ids 0) (hitPayloads c now result.Ids 0 buf.payloads)).2
        (missStream c now result.Ids 0) (getAll now result.Ids c)
        (streamPairs_ids_nodup c now result.Ids hnd)).1 _ hpair
      rw [(getAll_fields now result.Ids c).2.1] at this
      exact this

/-- The hypotheses of C11 hold for the test `MixesCachedAndUncachedResults`:
the cache holds 2 -> "234", the ids are 2 and 495, the fetcher writes the
decimal digits of the id; the slots end as "234" and "495", and 495 -> "495" is
in the cache. -/
theorem Fill_success_witness :
    (Cache.Fill ((newCache (some testFetcher) 10 1024).set 0 2 (some [50, 51, 52])) 1 1
        (resultOf [2, 495]) ⟨List.replicate 20 0, List.replicate 10 none⟩).map
      (fun r => (r.1, r.2.1.payloads.take 2, (r.2.2.bucket 495).get 495)) =
      some (none, [some [50, 51, 52], some [52, 57, 53]], some ⟨11, some [52, 57, 53]⟩) ∧
    ∃ m' P' c',
      Cache.Fill ((newCache (some testFetcher) 10 1024).set 0 2 (some [50, 51, 52])) 1 1
        (resultOf [2, 495]) ⟨List.replicate 20 0, List.replicate 10 none⟩ =
        some (none, ⟨m', P'⟩, c') :=
  ⟨by decide,
    (Fill_success ((newCache (some testFetcher) 10 1024).set 0 2 (some [50, 51, 52])) 1 1
      (resultOf [2, 495]) ⟨List.replicate 20 0, List.replicate 10 none⟩ testFetcher
      (by decide) (by decide) rfl (by decide) (by decide) (by decide) (by decide)).imp
      (fun _ h => h.imp (fun _ h => h.imp (fun _ h => h.1)))⟩

/-- C12 (counterexample): the cache holds an expired entry for id 2 (ttl -10)
and the fetcher fails. `Fill` of the ids [2] returns the fetcher's error, but
the lookup of id 2 has removed its entry: the bucket map is not what it was
before the call. -/
theorem Fill_error_changes_cache :
    (Cache.bucket ((newCache (some failingFetcher) (-10) 1024).set 0 2 (some [50, 51, 52]))
        2).get 2 = some ⟨-10, some [50, 51, 52]⟩ ∧
    (Cache.Fill ((newCache (some failingFetcher) (-10) 1024).set 0 2 (some [50, 51, 52])) 0 0
        (resultOf [2]) ⟨List.replicate 20 0, List.replicate 10 none⟩).map
      (fun r => (r.1, (r.2.2.bucket 2).get 2)) = some (some "unavailable", none) := by
  decide

/-- C12 (amended): for a result buffer with room in its scratch arrays and at
least one missed id, and a fetcher whose batch `Fill` returns an error `e`,
`Cache.Fill` returns exactly `e` and stores nothing: the cache is the one the
lookups leave, whose bindings differ from those before the call only by the
removal of the expired entries of the requested ids, and it is the cache of
before the call (maps and size) when no requested id has an expired entry; the
slots of the hits hold their cached payloads when the fetcher is called, and
the slots returned are the ones the fetcher leaves. -/
theorem Fill_error (c : Cache) (now later : Int) (result : NormalResult) (buf : Scratch)
    (f : Fetcher) (e : String) (hm : 2 * result.Ids.length ≤ buf.misses.length)
    (hp : result.Ids.length ≤ buf.payloads.length) (hf : c.fetcher = some f)
    (hmiss : c.missed now result ≠ [])
    (herr : (f.Fill (c.missed now result) (c.hitSlots now result buf)).1 = some e) :
    ∃ m' c', c.Fill now later result buf =
        some (some e, ⟨m', (f.Fill (c.missed now result) (c.hitSlots now result buf)).2⟩, c') ∧
      (∀ id, (c'.bucket id).get id =
        if id ∈ result.Ids ∧ c.expired now id = true then none else (c.bucket id).get id) ∧
      ((∀ id ∈ result.Ids, c.expired now id = false) → c' = c) ∧
      ∀ i p, i < result.Ids.length → c.live now (result.Ids.getD i 0) = some p →
        (c.hitSlots now result buf)[i]? = some (some p) := by
  obtain ⟨m', _, _, _, herror, _⟩ := Fill_spec c now later result buf hm hp
  refine ⟨m', getAll now result.Ids c, herror f hmiss hf e herr,
    fun id => getAll_get now result.Ids c id, getAll_unchanged now result.Ids c, ?_⟩
  intro i p hi hl
  have := (hitPayloads_get c now result.Ids 0 buf.payloads (by omega)).2 i p hi hl
  rw [Nat.zero_add] at this
  exact this

/-- The hypotheses of C12 (amended) hold for a cache that holds 2 -> "234", a
failing fetcher and the ids 2 and 495: 495 is missed, no entry has expired. -/
theorem Fill_error_witness :
    ∃ m' c',
      Cache.Fill ((newCache (some failingFetcher) 10 1024).set 0 2 (some [50, 51, 52])) 1 1
          (resultOf [2, 495]) ⟨List.replicate 20 0, List.replicate 10 none⟩ =
        some (some "unavailable", ⟨m', (failingFetcher.Fill
          (Cache.missed ((newCache (some failingFetcher) 10 1024).set 0 2 (some [50, 51, 52])) 1
            (resultOf [2, 495]))
          (Cache.hitSlots ((newCache (some failingFetcher) 10 1024).set 0 2 (some [50, 51, 52]))
            1 (resultOf [2, 495]) ⟨List.replicate 20 0, List.replicate 10 none⟩)).2⟩, c') ∧
      ((∀ id ∈ (resultOf [2, 495]).Ids,
          Cache.expired ((newCache (some failingFetcher) 10 1024).set 0 2 (some [50, 51, 52]))
            1 id = false) →
        c' = (newCache (some failingFetcher) 10 1024).set 0 2 (some [50, 51, 52])) :=
  (Fill_error ((newCache (some failingFetcher) 10 1024).set 0 2 (some [50, 51, 52])) 1 1
    (resultOf [2, 495]) ⟨List.replicate 20 0, List.replicate 10 none⟩ failingFetcher
    "unavailable" (by decide) (by decide) rfl (by decide) (by decide)).imp
    (fun _ h => h.imp (fun _ h => ⟨h.1, h.2.2.1⟩))

/-- C18: for a result buffer of `n` ids with a misses scratch of at least `2n`
slots and at least `n` payload slots, the stream `Cache.Fill` builds is the
alternating stream of position and id over the positions whose id has no live
payload, in increasing position order, of length `2k` for `k` misses, with
every position below `n`; no write is out of bounds (`Fill` does not panic);
when `k = 0` `Fill` returns nil without a fetcher call (whatever the fetcher is,
nil included); when `k > 0` a nil fetcher panics, and otherwise the error and
the slots `Fill` returns are those of the one call of the fetcher on that
stream and the hit slots. -/
theorem Fill_stream (c : Cache) (now later : Int) (result : NormalResult) (buf : Scratch)
    (hm : 2 * result.Ids.length ≤ buf.misses.length)
    (hp : result.Ids.length ≤ buf.payloads.length) :
    c.missed now result =
        ((List.range result.Ids.length).filter
          (fun i => (c.live now (result.Ids.getD i 0)).isNone)).flatMap
          (fun i => [i, result.Ids.getD i 0]) ∧
      (c.missed now result).length =
        2 * (result.Ids.filter (fun id => (c.live now id).isNone)).length ∧
      (∀ p ∈ streamPairs (c.missed now result), p.1 < result.Ids.length) ∧
      (c.missed now result = [] →
        ∃ m' c', c.Fill now later result buf = some (none, ⟨m', c.hitSlots now result buf⟩, c')) ∧
      (c.missed now result ≠ [] → c.fetcher = none → c.Fill now later result buf = none) ∧
      ∀ f, c.missed now result ≠ [] → c.fetcher = some f →
        (f.Fill (c.missed now result) (c.hitSlots now result buf)).2.length =
          buf.payloads.length →
        ∃ m' c', c.Fill now later result buf =
          some ((f.Fill (c.missed now result) (c.hitSlots now result buf)).1,
            ⟨m', (f.Fill (c.missed now result) (c.hitSlots now result buf)).2⟩, c') := by
  obtain ⟨m', _, hnone, hnil, herror, hsucc⟩ := Fill_spec c now later result buf hm hp
  refine ⟨?_, missStream_length c now result.Ids 0,
    fun p hp' => (streamPairs_pos_lt c now result.Ids p hp').1,
    fun h => ⟨m', _, hnone h⟩, hnil, ?_⟩
  · have := missStream_eq c now result.Ids 0
    simp only [Nat.zero_add] at this
    exact this
  · intro f hS hf hlen
    cases he : (f.Fill (c.missed now result) (c.hitSlots now result buf)).1 with
    | some e => exact ⟨m', _, herror f hS hf e he⟩
    | none => exact ⟨m', _, hsucc f hS hf he hlen⟩

/-- The hypotheses of C18 hold for the buffer of the tests (10 result slots, 20
miss slots) with the ids 2 and 495 over a cache that holds 2 -> "234": the
stream is position 1, id 495. -/
theorem Fill_stream_witness :
    Cache.missed ((newCache (some testFetcher) 10 1024).set 0 2 (some [50, 51, 52])) 1
        (resultOf [2, 495]) = [1, 495] ∧
    (Cache.missed ((newCache (some testFetcher) 10 1024).set 0 2 (some [50, 51, 52])) 1
        (resultOf [2, 495])).length =
      2 * ((resultOf [2, 495]).Ids.filter (fun id =>
        (Cache.live ((newCache (some testFetcher) 10 1024).set 0 2 (some [50, 51, 52])) 1
          id).isNone)).length :=
  have h := Fill_stream ((newCache (some testFetcher) 10 1024).set 0 2 (some [50, 51, 52])) 1 1
    (resultOf [2, 495]) ⟨List.replicate 20 0, List.replicate 10 none⟩ (by decide) (by decide)
  ⟨h.1.trans (by decide), h.2.1⟩

/-! ## Operations that keep `size` on the stored bytes -/

theorem Bucket_gc_spec (b : Bucket) (sentinel : Int) (order : List (Id × Item))
    (hn : b.keysNodup) (hsub : ∀ e ∈ order, e ∈ b.lookup)
    (hfound : (∃ e ∈ order.take 10, e.2.expires < sentinel) ∨ b.get 0 = none) :
    (b.gc sentinel order).2.keysNodup ∧
      (b.gc sentinel order).2.stored = b.stored - (b.gc sentinel order).1 := by
  obtain ⟨g1, _, _, g4⟩ := gcScan_spec (order.take 10) (0, nullItem sentinel)
  have hdel := Bucket_delete_spec b (gcScan (order.take 10) (0, nullItem sentinel)).1 hn
  refine ⟨hdel.1, ?_⟩
  have hmem_case : gcScan (order.take 10) (0, nullItem sentinel) ∈ order.take 10 →
      (b.gc sentinel order).2.stored = b.stored - (b.gc sentinel order).1 := by
    intro hmem
    have hl := lookup_of_mem b.lookup hn _ (hsub _ (List.mem_of_mem_take hmem))
    have h2 := hdel.2.1
    simp only [Bucket.get, hl] at h2
    exact h2
  rcases hfound with hex | hzero
  · exact hmem_case (g4 hex)
  · rcases g1 with heq | hmem
    · have h2 := hdel.2.1
      rw [heq] at h2
      simp only [hzero] at h2
      have h3 : (b.gc sentinel order).2.stored = b.stored - 0 := by
        simp only [Bucket.gc, heq]
        exact h2
      have h4 : (b.gc sentinel order).1 = 0 := by
        show payloadLen (gcScan (order.take 10) (0, nullItem sentinel)).2.value = 0
        rw [heq]
        rfl
      rw [h3, h4]
    · exact hmem_case hmem

theorem sum_map_sub (l : List (Fin BUCKET_COUNT)) (a b : Fin BUCKET_COUNT → Int) :
    (l.map (fun j => a j - b j)).sum = (l.map a).sum - (l.map b).sum := by
  induction l with
  | nil => simp
  | cons x t ih =>
    simp only [List.map_cons, List.sum_cons, ih]
    omega

/-- A completed `gc` keeps `size` on the stored bytes when every bucket evicts
one of the entries it sampled or holds no entry for id 0. -/
theorem gc_consistent (c : Cache) (sentinel : Int)
    (orders : Fin BUCKET_COUNT → List (Id × Item)) (hc : c.consistent)
    (hsub : ∀ i, ∀ e ∈ orders i, e ∈ (c.buckets i).lookup)
    (hfound : ∀ i, (∃ e ∈ (orders i).take 10, e.2.expires < sentinel) ∨
      (c.buckets i).get 0 = none) :
    (c.gc sentinel orders).consistent := by
  obtain ⟨g1, _, _, _, _, g6⟩ := gc_fields c sentinel orders
  have hb := fun i => Bucket_gc_spec (c.buckets i) sentinel (orders i) (hc.2 i) (hsub i) (hfound i)
  refine ⟨?_, fun i => by rw [g6 i]; exact (hb i).1⟩
  rw [g1, hc.1]
  simp only [Cache.stored]
  have : (List.finRange BUCKET_COUNT).map (fun i => ((c.gc sentinel orders).buckets i).stored) =
      (List.finRange BUCKET_COUNT).map (fun i => (c.buckets i).stored -
        ((c.buckets i).gc sentinel (orders i)).1) :=
    List.map_congr_left (fun i _ => by rw [g6 i]; exact (hb i).2)
  rw [this, sum_map_sub]

/-- A `Fetch` of an id that is not stored or has a live payload keeps `size` on
the stored bytes. -/
theorem Fetch_consistent (c : Cache) (now later : Int) (id : Id) (hc : c.consistent)
    (h : c.live now id ≠ none ∨ (c.bucket id).get id = none) (r : Option Bytes × Cache)
    (hr : c.Fetch now later id = some r) : r.2.consistent := by
  obtain ⟨g1, g2, _⟩ := get_spec c now id
  have hexp : c.expired now id = false := by
    rcases h with h | h
    · simp only [Cache.live, Cache.expired] at h ⊢
      cases hg : (c.bucket id).get id with
      | none => rfl
      | some item =>
        rw [hg] at h
        by_cases hl : item.expires > now
        · have : ¬ item.expires ≤ now := by omega
          simp [this]
        · simp [hl] at h
    · simp [Cache.expired, h]
  have hget : c.get now id = (c.live now id, c) :=
    Prod.ext g1 (g2 hexp)
  unfold Cache.Fetch at hr
  rw [hget] at hr
  cases hl : c.live now id with
  | some p =>
    simp only [hl, Option.some.injEq] at hr
    rw [← hr]; exact hc
  | none =>
    have habs : (c.bucket id).get id = none := by
      rcases h with h | h
      · exact absurd hl h
      · exact h
    simp only [hl] at hr
    cases hf : c.fetcher with
    | none => simp [hf] at hr
    | some f =>
      simp only [hf] at hr
      cases hget' : f.Get id with
      | none =>
        simp only [hget', Option.some.injEq] at hr
        rw [← hr]; exact hc
      | some p =>
        simp only [hget', Option.some.injEq] at hr
        rw [← hr]
        exact set_consistent c later id (some p) hc
          (fun old hold => by rw [habs] at hold; simp at hold)

theorem storePairs_consistent (later : Int) (payloads : List (Option Bytes))
    (stream : List Nat) (c : Cache) (hc : c.consistent)
    (hn : ((streamPairs stream).map Prod.snd).Nodup)
    (habs : ∀ p ∈ streamPairs stream, (c.bucket p.2).get p.2 = none) :
    (storePairs later payloads stream c).consistent := by
  unfold storePairs
  generalize streamPairs stream = ps at hn habs
  induction ps generalizing c with
  | nil => exact hc
  | cons q rest ih =>
    simp only [List.map_cons, List.nodup_cons] at hn
    simp only [List.foldl_cons]
    refine ih _ (set_consistent c later q.2 _ hc (fun old hold => ?_)) hn.2 (fun p hp => ?_)
    · rw [habs q (List.mem_cons_self _ _)] at hold
      simp at hold
    · have hne : p.2 ≠ q.2 := fun e => hn.1 (e ▸ List.mem_map_of_mem Prod.snd hp)
      rw [set_get_other c later q.2 p.2 _ hne]
      exact habs p (List.mem_cons_of_mem _ hp)

/-- A `Fill` of distinct ids, each not stored or with a live payload, keeps
`size` on the stored bytes. -/
theorem Fill_consistent (c : Cache) (now later : Int) (result : NormalResult) (buf : Scratch)
    (hc : c.consistent) (hm : 2 * result.Ids.length ≤ buf.misses.length)
    (hp : result.Ids.length ≤ buf.payloads.length) (hnd : result.Ids.Nodup)
    (hids : ∀ id ∈ result.Ids, c.live now id ≠ none ∨ (c.bucket id).get id = none)
    (hlen : ∀ f, c.fetcher = some f →
      (f.Fill (c.missed now result) (c.hitSlots now result buf)).2.length = buf.payloads.length)
    (r : Option String × Scratch × Cache) (hr : c.Fill now later result buf = some r) :
    r.2.2.consistent := by
  obtain ⟨m', _, hnone, hnil, herror, hsucc⟩ := Fill_spec c now later result buf hm hp
  have hexp : ∀ id ∈ result.Ids, c.expired now id = false := by
    intro id hid
    rcases hids id hid with h | h
    · simp only [Cache.live, Cache.expired] at h ⊢
      cases hg : (c.bucket id).get id with
      | none => rfl
      | some item =>
        rw [hg] at h
        by_cases hl : item.expires > now
        · have : ¬ item.expires ≤ now := by omega
          simp [this]
        · simp [hl] at h
    · simp [Cache.expired, h]
  have hall := getAll_unchanged now result.Ids c hexp
  rw [hall] at hnone herror hsucc
  by_cases hS : missStream c now result.Ids 0 = []
  · rw [hnone hS] at hr
    rw [← Option.some.inj hr]; exact hc
  · cases hf : c.fetcher with
    | none => rw [hnil hS hf] at hr; simp at hr
    | some f =>
      cases he : (f.Fill (missStream c now result.Ids 0)
          (hitPayloads c now result.Ids 0 buf.payloads)).1 with
      | some e =>
        rw [herror f hS hf e he] at hr
        rw [← Option.some.inj hr]; exact hc
      | none =>
        rw [hsucc f hS hf he (hlen f hf)] at hr
        rw [← Option.some.inj hr]
        refine storePairs_consistent later _ _ c hc (streamPairs_ids_nodup c now result.Ids hnd)
          (fun p hp' => ?_)
        obtain ⟨h1, h2, h3⟩ := streamPairs_pos_lt c now result.Ids p hp'
        have hmem : p.2 ∈ result.Ids := by
          rw [h2, List.getD_eq_getElem _ _ h1]
          exact List.getElem_mem _
        rcases hids p.2 hmem with h | h
        · exact absurd h3 h
        · exact h

/-! ## The claim on `size` -/

theorem tracked_consistent (c : Cache) (op : CacheOp) (hc : c.consistent)
    (ht : op.tracked c) (c' : Cache) (hr : op.run c = some c') : c'.consistent := by
  cases op with
  | set now id value =>
    simp only [CacheOp.run, Option.some.injEq] at hr
    rw [← hr]; exact set_consistent c now id value hc ht
  | get now id =>
    simp only [CacheOp.run, Option.some.injEq] at hr
    rw [← hr, (get_spec c now id).2.1 ht]; exact hc
  | fetch now later id =>
    simp only [CacheOp.run, Option.map_eq_some'] at hr
    obtain ⟨r, hr1, hr2⟩ := hr
    rw [← hr2]; exact Fetch_consistent c now later id hc ht r hr1
  | fill now later result buf =>
    simp only [CacheOp.run, Option.map_eq_some'] at hr
    obtain ⟨r, hr1, hr2⟩ := hr
    obtain ⟨t1, t2, t3, t4, t5⟩ := ht
    rw [← hr2]; exact Fill_consistent c now later result buf hc t1 t2 t3 t4 t5 r hr1
  | gc sentinel orders =>
    simp only [CacheOp.run, Option.some.injEq] at hr
    rw [← hr]; exact gc_consistent c sentinel orders hc ht.1 ht.2

theorem trackedRun_consistent (ops : List CacheOp) (c c' : Cache) (hc : c.consistent)
    (ht : trackedRun c ops) (hr : runOps c ops = some c') : c'.consistent := by
  induction ops generalizing c with
  | nil =>
    simp only [runOps, Option.some.injEq] at hr
    rw [← hr]; exact hc
  | cons op rest ih =>
    simp only [runOps] at hr
    cases hop : op.run c with
    | none => rw [hop] at hr; simp at hr
    | some c1 =>
      rw [hop] at hr
      exact ih c1 (tracked_consistent c op hc ht.1 c1 hop) (ht.2 c1 hop) hr

/-- C13 (counterexample): from an empty cache, `set(2, "234")` and then
`set(2, "2")`: the replacement leaves `size` at 3 while the one entry stored
holds 1 byte. -/
theorem set_replace_size_off :
    (((newCache none 10 1024).set 0 2 (some [50, 51, 52])).set 1 2 (some [50])).size = 3 ∧
    (((newCache none 10 1024).set 0 2 (some [50, 51, 52])).set 1 2 (some [50])).stored = 1 := by
  decide

/-- C13 (amended): in a sequential run from an empty cache in which every
`set` stores a new id or a payload as long as the one it replaces, every `get`,
`Fetch` and `Fill` meets no expired entry (for `Fetch` and `Fill` every id asked
for is not stored or has a live payload, and the ids of a `Fill` are distinct),
and every completed `gc` finds in each bucket a sampled entry to evict or no
entry for id 0, `size` equals the sum of the payload lengths stored after the
run, so after every operation of it; and a `set` that replaces an entry leaves
`size` as it is whatever the two lengths, the stored bytes changing by their
difference. -/
theorem size_tracks_stored (fetcher : Option Fetcher) (ttl max : Int) (ops : List CacheOp)
    (c : Cache) (ht : trackedRun (newCache fetcher ttl max) ops)
    (hr : runOps (newCache fetcher ttl max) ops = some c) :
    c.size = c.stored ∧
      ∀ now id value old, (c.bucket id).get id = some old →
        (c.set now id value).size = c.size ∧
        (c.set now id value).stored = c.stored - payloadLen old.value + payloadLen value := by
  have hc := trackedRun_consistent ops _ c (newCache_consistent fetcher ttl max) ht hr
  refine ⟨hc.1, fun now id value old hold => ?_⟩
  obtain ⟨h1, _, _, _, h5⟩ := set_fields c now id value
  obtain ⟨_, b2, _, _⟩ := Bucket_set_spec (c.bucket id) id ⟨now + c.ttl, value⟩
    (hc.2 (bucketIndex id))
  have hst := stored_update c (bucketIndex id) _ _ rfl (c.set now id value) h5
  refine ⟨by rw [h1, hold]; rfl, ?_⟩
  rw [hst, b2, hold]
  have hb : c.buckets (bucketIndex id) = c.bucket id := rfl
  rw [hb]
  simp only []
  omega

/-- The hypotheses of C13 (amended) hold for the run `set(2, "234")`,
`get(2)`, `Fetch(495)` with the fetcher of the tests, and a completed `gc` that
visits every bucket in the order of its bindings. -/
theorem size_tracks_stored_witness :
    runOps (newCache (some testFetcher) 10 1024)
        [CacheOp.set 0 2 (some [50, 51, 52]), CacheOp.get 1 2, CacheOp.fetch 1 1 495,
          CacheOp.gc 1000
            (fun i => ((((newCache (some testFetcher) 10 1024).set 0 2
              (some [50, 51, 52])).set 1 495 (some [52, 57, 53])).buckets i).lookup)] =
      some ((((newCache (some testFetcher) 10 1024).set 0 2 (some [50, 51, 52])).set 1 495
        (some [52, 57, 53])).gc 1000
          (fun i => ((((newCache (some testFetcher) 10 1024).set 0 2
            (some [50, 51, 52])).set 1 495 (some [52, 57, 53])).buckets i).lookup)) ∧
    ((((newCache (some testFetcher) 10 1024).set 0 2 (some [50, 51, 52])).set 1 495
        (some [52, 57, 53])).gc 1000
          (fun i => ((((newCache (some testFetcher) 10 1024).set 0 2
            (some [50, 51, 52])).set 1 495 (some [52, 57, 53])).buckets i).lookup)).size =
      ((((newCache (some testFetcher) 10 1024).set 0 2 (some [50, 51, 52])).set 1 495
        (some [52, 57, 53])).gc 1000
          (fun i => ((((newCache (some testFetcher) 10 1024).set 0 2
            (some [50, 51, 52])).set 1 495 (some [52, 57, 53])).buckets i).lookup)).stored :=
  ⟨rfl,
    (size_tracks_stored (some testFetcher) 10 1024
      [CacheOp.set 0 2 (some [50, 51, 52]), CacheOp.get 1 2, CacheOp.fetch 1 1 495,
        CacheOp.gc 1000
          (fun i => ((((newCache (some testFetcher) 10 1024).set 0 2
            (some [50, 51, 52])).set 1 495 (some [52, 57, 53])).buckets i).lookup)]
      _
      (by
        refine ⟨(fun _ h => nomatch h), fun c1 h1 => ?_⟩
        cases h1
        refine ⟨(show Cache.expired _ 1 2 = false from by decide), fun c2 h2 => ?_⟩
        cases h2
        refine ⟨(show _ ∨ Bucket.get _ 495 = none from Or.inr (by decide)), fun c3 h3 => ?_⟩
        cases h3
        exact ⟨(show _ ∧ (∀ i : Fin BUCKET_COUNT, _ ∨ _) from ⟨fun _ _ he => he, by decide⟩),
          fun _ _ => trivial⟩)
      rfl).1⟩

/-! ## The claim on the size after a GC -/

/-- C14 (counterexample): `max = 3`; two one-byte entries are stored without a
GC, then two rounds insert four bytes each, all in bucket 0 on distinct ids.
Each round starts a GC that runs to completion and evicts a single one-byte
entry, so after the two rounds `size` is 8, above `max` plus the largest
payload, 7. -/
theorem size_above_after_two_rounds :
    (insertOwn 1000 (insertOwn 1000 (newCache none 10 3) (0, 16, [1])) (1, 32, [1])).size = 2 ∧
    (insertOwn 1000 (insertOwn 1000 (insertOwn 1000 (newCache none 10 3) (0, 16, [1]))
      (1, 32, [1])) (2, 48, [1, 1, 1, 1])).size = 5 ∧
    (insertOwn 1000 (insertOwn 1000 (insertOwn 1000 (insertOwn 1000 (newCache none 10 3)
      (0, 16, [1])) (1, 32, [1])) (2, 48, [1, 1, 1, 1])) (3, 64, [1, 1, 1, 1])).size = 8 ∧
    ((insertOwn 1000 (insertOwn 1000 (newCache none 10 3) (0, 16, [1])) (1, 32, [1])).set 2 48
      (some [1, 1, 1, 1])).gcing = 1 ∧
    ((insertOwn 1000 (insertOwn 1000 (insertOwn 1000 (newCache none 10 3) (0, 16, [1]))
      (1, 32, [1])) (2, 48, [1, 1, 1, 1])).set 3 64 (some [1, 1, 1, 1])).gcing = 1 := by
  decide

theorem payloadLen_nonneg (v : Option Bytes) : 0 ≤ payloadLen v := by
  cases v with
  | none => exact le_refl _
  | some p => exact Int.natCast_nonneg _

theorem set_uniform (c : Cache) (L : Nat) (sentinel now : Int) (id : Id) (p : Bytes)
    (hc : c.uniform L sentinel) (hL : p.length = L) (hexp : now + c.ttl < sentinel) :
    (c.set now id (some p)).uniform L sentinel := by
  obtain ⟨_, _, _, _, h5⟩ := set_fields c now id (some p)
  intro i e he
  rw [h5] at he
  by_cases hi : i = bucketIndex id
  · subst hi
    simp only [Function.update_same, Bucket.set, List.mem_cons] at he
    rcases he with rfl | he
    · exact ⟨by simp [payloadLen, hL], hexp⟩
    · exact hc _ e (List.mem_of_mem_filter he)
  · rw [Function.update_noteq hi] at he
    exact hc i e he

theorem gc_uniform (c : Cache) (L : Nat) (sentinel : Int)
    (orders : Fin BUCKET_COUNT → List (Id × Item)) (hc : c.uniform L sentinel) :
    (c.gc sentinel orders).uniform L sentinel := by
  obtain ⟨_, _, _, _, _, g6⟩ := gc_fields c sentinel orders
  intro i e he
  rw [g6 i] at he
  exact hc i e (List.mem_of_mem_filter he)

/-- A GC frees at least `L` bytes when every entry holds `L` bytes and expires
before the sentinel, and some bucket is not empty. -/
theorem gc_frees (c : Cache) (L : Nat) (sentinel : Int)
    (orders : Fin BUCKET_COUNT → List (Id × Item)) (hc : c.uniform L sentinel)
    (hperm : ∀ i, List.Perm (orders i) (c.bindings i)) (i : Fin BUCKET_COUNT)
    (hne : (c.buckets i).lookup ≠ []) :
    (c.gc sentinel orders).size ≤ c.size - L := by
  obtain ⟨g1, _⟩ := gc_fields c sentinel orders
  rw [g1]
  have hnonneg : ∀ j ∈ (Finset.univ : Finset (Fin BUCKET_COUNT)),
      0 ≤ ((c.buckets j).gc sentinel (orders j)).1 := fun j _ => payloadLen_nonneg _
  have hi : ((c.buckets i).gc sentinel (orders i)).1 = L := by
    have hsub : ∀ e ∈ (orders i).take 10, e ∈ (c.buckets i).lookup := fun e he =>
      (hperm i).subset (List.mem_of_mem_take he)
    have hone : (orders i).take 10 ≠ [] := by
      intro h
      have hlen := (hperm i).length_eq
      have : (orders i) = [] := by
        cases ho : orders i with
        | nil => rfl
        | cons a t => rw [ho] at h; simp at h
      rw [this] at hlen
      exact hne (List.eq_nil_of_length_eq_zero hlen.symm)
    obtain ⟨e0, he0⟩ := List.exists_mem_of_ne_nil _ hone
    obtain ⟨_, _, _, g4⟩ := gcScan_spec ((orders i).take 10) (0, nullItem sentinel)
    have hfound := g4 ⟨e0, he0, (hc i e0 (hsub e0 he0)).2⟩
    exact (hc i _ (hsub _ hfound)).1
  have hsum := Finset.single_le_sum hnonneg (Finset.mem_univ i)
  rw [Fin.sum_univ_def, hi] at hsum
  omega

/-- C14 (amended): in a run of insert-then-GC rounds from an empty cache with
`max >= 0`, in which every payload has the same length `L`, every entry expires
before the `nullItem` sentinel and every GC started by a `set` runs to
completion before the next `set` (visiting the bindings of each bucket in any
order), `size` is at most `max + L` after the run, so after every round of it;
indeed it stays below `max` unless it is 0. -/
theorem rounds_bounded (fetcher : Option Fetcher) (ttl max sentinel : Int) (L : Nat)
    (rounds : List Insert) (hmax : 0 ≤ max)
    (hvalid : validRounds sentinel (newCache fetcher ttl max) rounds)
    (hL : ∀ r ∈ rounds, r.payload.length = L)
    (hexp : ∀ r ∈ rounds, r.now + ttl < sentinel) :
    (insertRounds sentinel (newCache fetcher ttl max) rounds).size ≤ max + L ∧
      ((insertRounds sentinel (newCache fetcher ttl max) rounds).size < max ∨
        (insertRounds sentinel (newCache fetcher ttl max) rounds).size ≤ 0) := by
  have key : ∀ (rs : List Insert) (c : Cache), c.gcing = 0 → c.max = max → c.ttl = ttl →
      c.uniform L sentinel → (c.size < max ∨ c.size ≤ 0) → validRounds sentinel c rs →
      (∀ r ∈ rs, r.payload.length = L) → (∀ r ∈ rs, r.now + ttl < sentinel) →
      ((insertRounds sentinel c rs).size < max ∨ (insertRounds sentinel c rs).size ≤ 0) := by
    intro rs
    induction rs with
    | nil => intro c _ _ _ _ hs _ _ _; exact hs
    | cons r rest ih =>
      intro c hg hm ht hu hs hv hl he
      have hLr := hl r (List.mem_cons_self _ _)
      have her := he r (List.mem_cons_self _ _)
      obtain ⟨s1, s2, s3, _, s5⟩ := set_fields c r.now r.id (some r.payload)
      have hu1 := set_uniform c L sentinel r.now r.id r.payload hu hLr (by rw [ht]; exact her)
      have hplen : payloadLen (some r.payload) = (L : Int) := by simp [payloadLen, hLr]
      have hstep : (insertRound sentinel c r.now r.id r.payload r.orders).gcing = 0 ∧
          (insertRound sentinel c r.now r.id r.payload r.orders).max = max ∧
          (insertRound sentinel c r.now r.id r.payload r.orders).ttl = ttl ∧
          (insertRound sentinel c r.now r.id r.payload r.orders).uniform L sentinel ∧
          ((insertRound sentinel c r.now r.id r.payload r.orders).size < max ∨
            (insertRound sentinel c r.now r.id r.payload r.orders).size ≤ 0) := by
        unfold insertRound
        simp only []
        by_cases hstart : (c.set r.now r.id (some r.payload)).gcing = 1
        · simp only [hstart, if_true]
          obtain ⟨g1, g2, g3, g4, _⟩ := gc_fields (c.set r.now r.id (some r.payload)) sentinel
            r.orders
          have hcond : ((c.bucket r.id).get r.id).isSome = false ∧
              c.size + payloadLen (some r.payload) ≥ c.max ∧ c.gcing = 0 := by
            by_contra hcon
            rw [s2, if_neg hcon] at hstart
            omega
          have hne : ((c.set r.now r.id (some r.payload)).buckets (bucketIndex r.id)).lookup ≠
              [] := by
            rw [s5]
            simp [Bucket.set]
          have hfree := gc_frees (c.set r.now r.id (some r.payload)) L sentinel r.orders hu1
            hv.1 (bucketIndex r.id) hne
          have hsize : (c.set r.now r.id (some r.payload)).size = c.size + L := by
            rw [s1, hcond.1, hplen]; rfl
          refine ⟨g2, by rw [g3, s3, hm], by rw [g4, set_ttl, ht],
            gc_uniform _ L sentinel r.orders hu1, ?_⟩
          rw [hsize] at hfree
          rcases hs with hs | hs
          · left; omega
          · right; omega
        · simp only [hstart, if_false]
          refine ⟨?_, by rw [s3, hm], by rw [set_ttl, ht], hu1, ?_⟩
          · rw [s2] at hstart ⊢
            by_cases hcond : ((c.bucket r.id).get r.id).isSome = false ∧
                c.size + payloadLen (some r.payload) ≥ c.max ∧ c.gcing = 0
            · rw [if_pos hcond] at hstart; exact absurd rfl hstart
            · rw [if_neg hcond]; exact hg
          · rw [s1]
            cases hpres : ((c.bucket r.id).get r.id).isSome with
            | true => simpa using hs
            | false =>
              simp only [Bool.false_eq_true, if_false]
              have hnot : ¬ (c.size + payloadLen (some r.payload) ≥ c.max) := by
                intro hge
                rw [s2, if_pos ⟨hpres, hge, hg⟩] at hstart
                exact hstart rfl
              left
              rw [hm] at hnot
              omega
      obtain ⟨a1, a2, a3, a4, a5⟩ := hstep
      exact ih _ a1 a2 a3 a4 a5 hv.2 (fun x hx => hl x (List.mem_cons_of_mem _ hx))
        (fun x hx => he x (List.mem_cons_of_mem _ hx))
  have hfin := key rounds (newCache fetcher ttl max) rfl rfl rfl
    (fun i e he => by simp [newCache] at he) (by right; exact le_refl _) hvalid hL hexp
  refine ⟨?_, hfin⟩
  have : (0 : Int) ≤ (L : Int) := Int.natCast_nonneg _
  rcases hfin with h | h <;> omega

theorem ownRounds_valid (sentinel : Int) (rs : List (Int × Id × Bytes)) (c : Cache) :
    validRounds sentinel c (ownRounds sentinel c rs) := by
  induction rs generalizing c with
  | nil => trivial
  | cons r rest ih => exact ⟨fun _ => List.Perm.refl _, ih _⟩

/-- The hypotheses of C14 (amended) hold for the spec's scenario, `max = 1000`
and twenty inserts of 100 bytes: the run ends with `size <= 1100`. -/
theorem rounds_bounded_witness :
    (insertRounds 1000000 (newCache none 10 1000)
        (ownRounds 1000000 (newCache none 10 1000) twentyInserts)).size ≤
      1000 + ((100 : Nat) : Int) :=
  (rounds_bounded none 10 1000 1000000 100
    (ownRounds 1000000 (newCache none 10 1000) twentyInserts) (by decide)
    (ownRounds_valid 1000000 twentyInserts (newCache none 10 1000)) (by decide) (by decide)).1

/-! ## The batches of the SQLite fetcher -/

theorem pairRows_lt (n : Nat) (batch : List Nat) : ∀ row ∈ pairRows n batch, row.1 < n := by
  induction batch using pairRows.induct n with
  | case1 position id rest h ih =>
    intro row hrow
    rw [pairRows, if_pos h] at hrow
    rcases List.mem_cons.mp hrow with rfl | hin
    · exact h
    · exact ih row hin
  | case2 position id rest h ih =>
    intro row hrow
    rw [pairRows, if_neg h] at hrow
    exact ih row hrow
  | case3 batch hne =>
    intro row hrow
    rw [pairRows] at hrow
    · simp at hrow
    · exact hne

/-- The inner loop of `SqliteStorage.Fill` on a descending ladder with a size
that fits: it stops at the largest size that is at most `l`. -/
theorem pickBatcher_desc (bs : List Nat) (cur : Nat) (l : Int)
    (hs : bs.Pairwise (fun a b => b < a)) (hex : ∃ c ∈ bs, (c : Int) ≤ l) :
    pickBatcher bs cur l ∈ bs ∧ (pickBatcher bs cur l : Int) ≤ l ∧
      ∀ t ∈ bs, (t : Int) ≤ l → t ≤ pickBatcher bs cur l := by
  induction bs generalizing cur with
  | nil => obtain ⟨c, hc, _⟩ := hex; simp at hc
  | cons count rest ih =>
    rw [List.pairwise_cons] at hs
    by_cases h : (count : Int) ≤ l
    · rw [pickBatcher, if_pos h]
      refine ⟨List.mem_cons_self _ _, h, fun t ht _ => ?_⟩
      rcases List.mem_cons.mp ht with rfl | hin
      · exact le_refl _
      · exact Nat.le_of_lt (hs.1 t hin)
    · rw [pickBatcher, if_neg h]
      obtain ⟨c, hc, hcl⟩ := hex
      have hc' : c ∈ rest := by
        rcases List.mem_cons.mp hc with rfl | hin
        · exact absurd hcl h
        · exact hin
      obtain ⟨h1, h2, h3⟩ := ih count hs.2 ⟨c, hc', hcl⟩
      refine ⟨List.mem_cons_of_mem _ h1, h2, fun t ht htl => ?_⟩
      rcases List.mem_cons.mp ht with rfl | hin
      · exact absurd htl h
      · exact h3 t hin htl

theorem pickBatcher_sizes (l : Nat) (h : 1 ≤ l) :
    pickBatcher sizes 0 (l : Int) ∈ sizes ∧ pickBatcher sizes 0 (l : Int) ≤ l ∧
      1 ≤ pickBatcher sizes 0 (l : Int) ∧
      ∀ t ∈ sizes, t ≤ l → t ≤ pickBatcher sizes 0 (l : Int) := by
  have hone : (1 : Nat) ∈ sizes := by decide
  obtain ⟨h1, h2, h3⟩ := pickBatcher_desc sizes 0 (l : Int) (by decide)
    ⟨1, hone, by omega⟩
  exact ⟨h1, by omega, h3 1 hone (by omega), fun t ht htl => h3 t ht (by omega)⟩

theorem scanRows_spec (rows : List (Nat × Option Bytes)) (payloads : List (Option Bytes))
    (h : ∀ row ∈ rows, row.1 < payloads.length) :
    ∃ p', scanRows rows payloads = some p' ∧ p'.length = payloads.length := by
  induction rows generalizing payloads with
  | nil => exact ⟨payloads, rfl, rfl⟩
  | cons row rest ih =>
    obtain ⟨index, summary⟩ := row
    have hlt : index < payloads.length := h (index, summary) (List.mem_cons_self _ _)
    obtain ⟨p', h1, h2⟩ := ih (payloads.set index summary)
      (fun r hr => by
        simp only [List.length_set]
        exact h r (List.mem_cons_of_mem _ hr))
    refine ⟨p', ?_, ?_⟩
    · simp only [scanRows, hlt, if_true]
      exact h1
    · rw [h2]; simp

/-- The loop of `SqliteStorage.Fill` ends within `l` rounds, whatever the
queries answer. -/
theorem fillLoop_ends (query : BatchQuery) (fuel l : Nat) (ids : List Nat)
    (payloads : List (Option Bytes)) (batches : List (List Nat)) (hl : 1 ≤ l)
    (hfuel : l ≤ fuel) : fillLoop sizes query fuel (l : Int) ids payloads batches ≠ none := by
  induction fuel generalizing l ids payloads batches with
  | zero => omega
  | succ n ih =>
    obtain ⟨_, p2, p3, _⟩ := pickBatcher_sizes l hl
    have hsub : (l : Int) - ((pickBatcher sizes 0 (l : Int) : Nat) : Int) =
        ((l - pickBatcher sizes 0 (l : Int) : Nat) : Int) := by omega
    rw [fillLoop]
    simp only []
    by_cases h1 : pickBatcher sizes 0 (l : Int) * 2 ≤ ids.length
    · simp only [h1, if_true]
      cases (query (ids.take (pickBatcher sizes 0 (l : Int) * 2))).1 with
      | some err => simp
      | none =>
        simp only []
        cases scanRows (query (ids.take (pickBatcher sizes 0 (l : Int) * 2))).2 payloads with
        | none => simp
        | some p' =>
          simp only []
          by_cases h2 : (l : Int) - ((pickBatcher sizes 0 (l : Int) : Nat) : Int) = 0
          · simp [h2]
          · simp only [h2, if_false]
            rw [hsub]
            exact ih _ _ _ _ (by omega) (by omega)
    · simp [h1]

/-- The loop of `SqliteStorage.Fill` on `l >= 1` pairs, when the queries succeed
and answer indexes of payload slots: it returns nil, and the slices it passed
make up the stream, in order, following the ladder. -/
theorem fillLoop_spec (query : BatchQuery) (fuel l : Nat) (ids : List Nat)
    (payloads : List (Option Bytes)) (batches : List (List Nat)) (hl : 1 ≤ l)
    (hfuel : l ≤ fuel) (hlen : ids.length = 2 * l)
    (hq : ∀ batch, (query batch).1 = none ∧
      ∀ row ∈ (query batch).2, row.1 < payloads.length) :
    ∃ r bs, fillLoop sizes query fuel (l : Int) ids payloads batches = some (some r) ∧
      r.err = none ∧ r.batches = batches ++ bs ∧ bs.flatten = ids ∧ followLadder l bs ∧
      r.payloads.length = payloads.length := by
  induction fuel generalizing l ids payloads batches with
  | zero => omega
  | succ n ih =>
    obtain ⟨p1, p2, p3, p4⟩ := pickBatcher_sizes l hl
    have hcount : pickBatcher sizes 0 (l : Int) * 2 ≤ ids.length := by omega
    obtain ⟨p', hs1, hs2⟩ := scanRows_spec (query (ids.take (pickBatcher sizes 0 (l : Int) * 2))).2
      payloads (hq _).2
    have htake : (ids.take (pickBatcher sizes 0 (l : Int) * 2)).length = 2 * pickBatcher sizes 0 (l : Int) := by
      rw [List.length_take]; omega
    have hsub : (l : Int) - ((pickBatcher sizes 0 (l : Int) : Nat) : Int) =
        ((l - pickBatcher sizes 0 (l : Int) : Nat) : Int) := by omega
    rw [fillLoop]
    simp only [hcount, if_true, (hq _).1, hs1]
    by_cases hend : l - pickBatcher sizes 0 (l : Int) = 0
    · have hend' : (l : Int) - ((pickBatcher sizes 0 (l : Int) : Nat) : Int) = 0 := by omega
      simp only [hend', if_true]
      refine ⟨_, [ids.take (pickBatcher sizes 0 (l : Int) * 2)], rfl, rfl, rfl, ?_, ?_, hs2⟩
      · simp only [List.flatten_cons, List.flatten_nil, List.append_nil]
        exact List.take_of_length_le (by omega)
      · exact ⟨_, p1, p2, p4, htake, hend⟩
    · have hend' : ¬ (l : Int) - ((pickBatcher sizes 0 (l : Int) : Nat) : Int) = 0 := by omega
      simp only [hend', if_false]
      rw [hsub]
      obtain ⟨r, bs, h1, h2, h3, h4, h5, h6⟩ :=
        ih (l - pickBatcher sizes 0 (l : Int)) (ids.drop (pickBatcher sizes 0 (l : Int) * 2)) p'
          (batches ++ [ids.take (pickBatcher sizes 0 (l : Int) * 2)]) (by omega) (by omega)
          (by rw [List.length_drop]; omega)
          (fun batch => ⟨(hq batch).1, fun row hrow => by rw [hs2]; exact (hq batch).2 row hrow⟩)
      refine ⟨r, ids.take (pickBatcher sizes 0 (l : Int) * 2) :: bs, h1, h2, ?_, ?_, ?_, by rw [h6, hs2]⟩
      · rw [h3]; simp
      · rw [List.flatten_cons, h4, List.take_append_drop]
      · exact ⟨_, p1, p2, p4, htake, h5⟩

theorem followLadder_sum (l : Nat) (bs : List (List Nat)) (h : followLadder l bs) :
    (bs.map (fun b => b.length / 2)).sum = l := by
  induction bs generalizing l with
  | nil => exact h.symm
  | cons b rest ih =>
    obtain ⟨s, _, hs, _, hb, hrest⟩ := h
    simp only [List.map_cons, List.sum_cons, ih _ hrest, hb]
    omega

theorem followLadder_even (l : Nat) (bs : List (List Nat)) (h : followLadder l bs) :
    ∀ b ∈ bs, b.length % 2 = 0 := by
  induction bs generalizing l with
  | nil => intro b hb; simp at hb
  | cons a t ih =>
    obtain ⟨s, _, _, _, hb, hrest⟩ := h
    intro b hb'
    rcases List.mem_cons.mp hb' with rfl | hin
    · omega
    · exact ih (l - s) hrest b hin

/-- C20: for a stream of `k >= 1` pairs the loop of `SqliteStorage.Fill` ends
within `k` rounds whatever the queries answer; when the queries succeed (and
scan indexes of payload slots) `Fill` returns nil without a slice out of range,
each round takes the largest ladder size of 25, 20, 15, 10, 5, 4, 3, 2, 1 that
is at most the number of pairs remaining, the batch sizes sum to `k`, and the
slices passed to the batch queries, in order, make up the stream: every pair is
in exactly one batch, in the original order. -/
theorem sqlite_Fill_batches (query : BatchQuery) (k : Nat) (ids : List Nat)
    (payloads : List (Option Bytes)) (hk : 1 ≤ k) (hlen : ids.length = 2 * k) :
    SqliteStorage.Fill query k ids payloads ≠ none ∧
      ((∀ batch, (query batch).1 = none ∧
          ∀ row ∈ (query batch).2, row.1 < payloads.length) →
        ∃ r, SqliteStorage.Fill query k ids payloads = some (some r) ∧ r.err = none ∧
          r.batches.flatten = ids ∧ followLadder k r.batches ∧
          (r.batches.map (fun b => b.length / 2)).sum = k ∧
          ∀ b ∈ r.batches, b.length % 2 = 0) := by
  have hl : ids.length / 2 = k := by omega
  refine ⟨?_, fun hq => ?_⟩
  · rw [SqliteStorage.Fill, hl]
    exact fillLoop_ends query k k ids payloads [] hk (le_refl _)
  · obtain ⟨r, bs, h1, h2, h3, h4, h5, _⟩ :=
      fillLoop_spec query k k ids payloads [] hk (le_refl _) hlen hq
    rw [List.nil_append] at h3
    refine ⟨r, by rw [SqliteStorage.Fill, hl]; exact h1, h2, by rw [h3]; exact h4,
      by rw [h3]; exact h5, by rw [h3]; exact followLadder_sum k bs h5,
      by rw [h3]; exact followLadder_even k bs h5⟩

/-- The hypotheses of C20 hold for a stream of 27 pairs and queries that answer
one row per pair: two rounds, of 25 and of 2 pairs (slices of 50 and 4), and
the payload slots 0 and 1 hold the summaries of the ids 100 and 101. -/
theorem sqlite_Fill_batches_witness :
    (Option.map (Option.map (fun (r : Filled) => (r.batches.map List.length, r.payloads.take 2)))
        (SqliteStorage.Fill (fun batch => (none, pairRows 27 batch)) 27 (pairStream 27)
          (List.replicate 27 none)) = some (some ([50, 4], [some [100], some [101]]))) ∧
      SqliteStorage.Fill (fun batch => (none, pairRows 27 batch)) 27 (pairStream 27)
        (List.replicate 27 none) ≠ none ∧
      ∃ r, SqliteStorage.Fill (fun batch => (none, pairRows 27 batch)) 27 (pairStream 27)
          (List.replicate 27 none) = some (some r) ∧ r.err = none ∧
        r.batches.flatten = pairStream 27 ∧ followLadder 27 r.batches ∧
        (r.batches.map (fun b => b.length / 2)).sum = 27 ∧
        ∀ b ∈ r.batches, b.length % 2 = 0 :=
  ⟨by decide,
    (sqlite_Fill_batches (fun batch => (none, pairRows 27 batch)) 27 (pairStream 27)
      (List.replicate 27 none) (by decide) (by decide)).1,
    (sqlite_Fill_batches (fun batch => (none, pairRows 27 batch)) 27 (pairStream 27)
      (List.replicate 27 none) (by decide) (by decide)).2
      (fun batch => ⟨rfl, fun row hrow => by
        rw [List.length_replicate]
        exact pairRows_lt 27 batch row hrow⟩)⟩

/-! ## Ids in blobs -/

theorem or_bytes (b0 b1 b2 b3 : Nat) (h0 : b0 < 256) (h1 : b1 < 256) (h2 : b2 < 256)
    (h3 : b3 < 256) :
    (b0 ||| (b1 <<< 8) ||| (b2 <<< 16) ||| (b3 <<< 24)) % 2 ^ 32 =
      b0 + 256 * b1 + 65536 * b2 + 16777216 * b3 := by
  have e1 : b0 ||| (b1 <<< 8) = 2 ^ 8 * b1 + b0 := by
    rw [Nat.mul_add_lt_is_or (by omega) b1, Nat.shiftLeft_eq, Nat.or_comm, Nat.mul_comm]
  have e2 : (2 ^ 8 * b1 + b0) ||| (b2 <<< 16) = 2 ^ 16 * b2 + (2 ^ 8 * b1 + b0) := by
    rw [Nat.mul_add_lt_is_or (by omega) b2, Nat.shiftLeft_eq, Nat.or_comm, Nat.mul_comm]
  have e3 : (2 ^ 16 * b2 + (2 ^ 8 * b1 + b0)) ||| (b3 <<< 24) =
      2 ^ 24 * b3 + (2 ^ 16 * b2 + (2 ^ 8 * b1 + b0)) := by
    rw [Nat.mul_add_lt_is_or (by omega) b3, Nat.shiftLeft_eq, Nat.or_comm, Nat.mul_comm]
  rw [e1, e2, e3]
  omega

theorem Uint32_drop (blob : Bytes) (hb : ∀ b ∈ blob, b < 256) (k : Nat)
    (hk : 4 * k + 4 ≤ blob.length) :
    encoder.Uint32 (blob.drop (4 * k)) = some (leValue blob k) := by
  have l0 : 4 * k < blob.length := by omega
  have l1 : 4 * k + 1 < blob.length := by omega
  have l2 : 4 * k + 2 < blob.length := by omega
  have l3 : 4 * k + 3 < blob.length := by omega
  rw [List.drop_eq_getElem_cons l0, List.drop_eq_getElem_cons l1, List.drop_eq_getElem_cons l2,
    List.drop_eq_getElem_cons l3]
  simp only [encoder.Uint32, leValue, List.getD_eq_getElem?_getD, List.getElem?_eq_getElem l0,
    List.getElem?_eq_getElem l1, List.getElem?_eq_getElem l2, List.getElem?_eq_getElem l3,
    Option.getD_some]
  rw [or_bytes _ _ _ _ (hb _ (List.getElem_mem _)) (hb _ (List.getElem_mem _))
    (hb _ (List.getElem_mem _)) (hb _ (List.getElem_mem _))]

/-- The loop of `extractIdsFromIndex` from the id index `k` on a blob of `k + n`
ids: it ends without a panic, keeps the slots below `k` and writes the
little-endian values into the others. -/
theorem extractLoop_spec (blob : Bytes) (hb : ∀ b ∈ blob, b < 256) (n k : Nat) (ids : List Id)
    (hlen : blob.length = 4 * (k + n)) (hids : ids.length = k + n) :
    ∃ out, extractLoop blob n (4 * k) ids = some out ∧ out.length = k + n ∧
      (∀ j, j < k → out[j]? = ids[j]?) ∧
      ∀ j, k ≤ j → j < k + n → out[j]? = some (leValue blob j) := by
  induction n generalizing k ids with
  | zero => exact ⟨ids, rfl, hids, fun _ _ => rfl, fun j h1 h2 => by omega⟩
  | succ m ih =>
    have hdiv : 4 * k / IdSize = k := by simp [IdSize]
    have hlt : k < ids.length := by omega
    obtain ⟨out, h1, h2, h3, h4⟩ := ih (k + 1) (ids.set k (leValue blob k)) (by omega)
      (by rw [List.length_set]; omega)
    refine ⟨out, ?_, by omega, fun j hj => ?_, fun j hj1 hj2 => ?_⟩
    · rw [extractLoop, Uint32_drop blob hb k (by omega)]
      simp only [hdiv, hlt, if_true]
      exact h1
    · rw [h3 j (by omega), List.getElem?_set_ne (by omega)]
    · by_cases hjk : j = k
      · subst hjk
        rw [h3 j (by omega), List.getElem?_set_self hlt]
      · exact h4 j (by omega) (by omega)

theorem extractIds_blob (blob : Bytes) (hb : ∀ b ∈ blob, b < 256)
    (hlen : blob.length % IdSize = 0) :
    ∃ out, extractIdsFromIndex blob = some out ∧ out.length = blob.length / IdSize ∧
      ∀ i, i < blob.length / IdSize → out[i]? = some (leValue blob i) := by
  simp only [IdSize] at hlen ⊢
  obtain ⟨out, h1, h2, _, h4⟩ := extractLoop_spec blob hb (blob.length / 4) 0
    (List.replicate (blob.length / 4) 0) (by omega) (by simp)
  have hr : (blob.length + (4 - 1)) / 4 = blob.length / 4 := by omega
  refine ⟨out, ?_, by omega, fun i hi => h4 i (Nat.zero_le _) (by omega)⟩
  rw [extractIdsFromIndex]
  simp only [IdSize, hr]
  exact h1

theorem encodeIds_length (ids : List Id) : (encodeIds ids).length = 4 * ids.length := by
  induction ids with
  | nil => rfl
  | cons id rest ih =>
    simp only [encodeIds, List.flatMap_cons, List.length_append, List.length_cons] at ih ⊢
    simp only [encodeId, List.length_cons, List.length_nil]
    omega

theorem encodeIds_bytes (ids : List Id) : ∀ b ∈ encodeIds ids, b < 256 := by
  intro b hb
  simp only [encodeIds, List.mem_flatMap, encodeId, List.mem_cons, List.mem_singleton,
    List.not_mem_nil, or_false] at hb
  obtain ⟨id, _, h | h | h | h⟩ := hb <;> omega

theorem leValue_encodeIds (ids : List Id) (hids : ∀ id ∈ ids, id < 2 ^ 32) (i : Nat)
    (hi : i < ids.length) : leValue (encodeIds ids) i = ids[i] := by
  induction ids generalizing i with
  | nil => simp at hi
  | cons id rest ih =>
    have hid : @LT.lt Nat _ id 4294967296 := hids id (List.mem_cons_self _ _)
    cases i with
    | zero =>
      simp only [leValue, encodeIds, List.flatMap_cons, encodeId, List.cons_append,
        List.nil_append, List.getD_cons_zero, List.getD_cons_succ, Nat.mul_zero, Nat.zero_add,
        List.getElem_cons_zero]
      have d2 : id / 65536 = id / 256 / 256 := by rw [Nat.div_div_eq_div_mul]
      have d3 : id / 16777216 = id / 256 / 256 / 256 := by
        rw [Nat.div_div_eq_div_mul, Nat.div_div_eq_div_mul]
      rw [d2, d3]
      omega
    | succ j =>
      have hj : j < rest.length := by simpa using hi
      have := ih (fun x hx => hids x (List.mem_cons_of_mem _ hx)) j hj
      simp only [List.getElem_cons_succ]
      rw [← this]
      have e0 : 4 * (j + 1) = 4 * j + 1 + 1 + 1 + 1 := by omega
      have e1 : 4 * (j + 1) + 1 = (4 * j + 1) + 1 + 1 + 1 + 1 := by omega
      have e2 : 4 * (j + 1) + 2 = (4 * j + 2) + 1 + 1 + 1 + 1 := by omega
      have e3 : 4 * (j + 1) + 3 = (4 * j + 3) + 1 + 1 + 1 + 1 := by omega
      simp only [leValue, encodeIds, List.flatMap_cons, encodeId, List.cons_append,
        List.nil_append]
      rw [e1, e2, e3, e0]
      simp only [List.getD_cons_succ]

/-- C21: for every list of 32-bit ids `extractIdsFromIndex` applied to the
concatenation of their 4-byte little-endian encodings returns exactly that list
(same length, same order); and for every blob of bytes whose length is a
multiple of `IdSize = 4` it returns, without an access out of range,
`len(blob)/4` ids, the id at index `i` being the little-endian value of the
bytes `4i .. 4i+3`. -/
theorem extractIds_roundtrip (ids : List Id) (blob : Bytes) (hids : ∀ id ∈ ids, id < 2 ^ 32)
    (hb : ∀ b ∈ blob, b < 256) (hlen : blob.length % 4 = 0) :
    extractIdsFromIndex (encodeIds ids) = some ids ∧
      ∃ out, extractIdsFromIndex blob = some out ∧ out.length = blob.length / 4 ∧
        ∀ i, i < blob.length / 4 → out[i]? = some (blob.getD (4 * i) 0 +
          256 * blob.getD (4 * i + 1) 0 + 65536 * blob.getD (4 * i + 2) 0 +
          16777216 * blob.getD (4 * i + 3) 0) := by
  refine ⟨?_, extractIds_blob blob hb hlen⟩
  have hl := encodeIds_length ids
  obtain ⟨out, h1, h2, h3⟩ := extractIds_blob (encodeIds ids) (encodeIds_bytes ids)
    (by simp only [IdSize, hl]; omega)
  have hdiv : (encodeIds ids).length / IdSize = ids.length := by simp only [IdSize, hl]; omega
  rw [hdiv] at h2 h3
  rw [h1]
  congr 1
  apply List.ext_getElem? 
  intro i
  by_cases hi : i < ids.length
  · rw [h3 i hi, leValue_encodeIds ids hids i hi, List.getElem?_eq_getElem hi]
  · rw [List.getElem?_eq_none (by omega), List.getElem?_eq_none (by omega)]

/-- The hypotheses of C21 hold for the ids 1, 256, 2^32 - 1 and 0x12345678 and
for the eight-byte blob 78 56 34 12 ff 00 00 00, which holds the ids 0x12345678
and 255. -/
theorem extractIds_roundtrip_witness :
    extractIdsFromIndex [0x78, 0x56, 0x34, 0x12, 0xff, 0, 0, 0] = some [0x12345678, 255] ∧
      extractIdsFromIndex (encodeIds [1, 256, 4294967295, 0x12345678]) =
        some [1, 256, 4294967295, 0x12345678] ∧
      ∃ out, extractIdsFromIndex [0x78, 0x56, 0x34, 0x12, 0xff, 0, 0, 0] = some out ∧
        out.length = [0x78, 0x56, 0x34, 0x12, 0xff, 0, 0, (0 : Nat)].length / 4 ∧
        ∀ i, i < [0x78, 0x56, 0x34, 0x12, 0xff, 0, 0, (0 : Nat)].length / 4 →
          out[i]? = some (List.getD [0x78, 0x56, 0x34, 0x12, 0xff, 0, 0, 0] (4 * i) 0 +
            256 * List.getD [0x78, 0x56, 0x34, 0x12, 0xff, 0, 0, 0] (4 * i + 1) 0 +
            65536 * List.getD [0x78, 0x56, 0x34, 0x12, 0xff, 0, 0, 0] (4 * i + 2) 0 +
            16777216 * List.getD [0x78, 0x56, 0x34, 0x12, 0xff, 0, 0, 0] (4 * i + 3) 0) :=
  ⟨by decide,
    extractIds_roundtrip [1, 256, 4294967295, 0x12345678] [0x78, 0x56, 0x34, 0x12, 0xff, 0, 0, 0]
      (by decide) (by decide) (by decide)⟩

/-! ## Appending to the result buffer -/

theorem addAll_nil (r : NormalResult) : r.addAll [] = some r := rfl

theorem addAll_cons (r r1 : NormalResult) (id : Id) (ids : List Id) (h : r.add id = some r1) :
    r.addAll (id :: ids) = r1.addAll ids := by
  simp [NormalResult.addAll, List.foldlM, h]

/-- A run of `add` calls within the capacity does not panic; `Ids()` then
returns the ids it held followed by the appended ids in append order. -/
theorem addAll_spec (r : NormalResult) (ids : List Id)
    (h : r.length + ids.length ≤ r.ids.length) :
    ∃ r', r.addAll ids = some r' ∧ r'.Ids = r.Ids ++ ids ∧
      r'.length = r.length + ids.length ∧ r'.ids.length = r.ids.length := by
  induction ids generalizing r with
  | nil => exact ⟨r, rfl, by simp, rfl, rfl⟩
  | cons id rest ih =>
    simp only [List.length_cons] at h
    obtain ⟨r1, h1, h2, h3, h4, _⟩ := add_spec r id (by omega)
    obtain ⟨r', g1, g2, g3, g4⟩ := ih r1 (by omega)
    refine ⟨r', by rw [addAll_cons r r1 id rest h1]; exact g1, ?_, ?_, by omega⟩
    · rw [g2, h2]; simp
    · rw [g3, h3, List.length_cons]; omega

/-- The ids array and the length after a run of `add` calls depend only on the
ids array and the length before it. -/
theorem addAll_congr (r1 r2 : NormalResult) (ids : List Id) (hi : r1.ids = r2.ids)
    (hn : r1.length = r2.length) (r1' : NormalResult) (h : r1.addAll ids = some r1') :
    ∃ r2', r2.addAll ids = some r2' ∧ r2'.ids = r1'.ids ∧ r2'.length = r1'.length := by
  induction ids generalizing r1 r2 with
  | nil =>
    rw [addAll_nil] at h
    cases h
    exact ⟨r2, rfl, hi.symm, hn.symm⟩
  | cons id rest ih =>
    by_cases hlt : r1.length < r1.ids.length
    · obtain ⟨a1, ha1, _⟩ := add_spec r1 id hlt
      obtain ⟨a2, ha2, _⟩ := add_spec r2 id (by rw [← hi, ← hn]; exact hlt)
      rw [addAll_cons r1 a1 id rest ha1] at h
      rw [addAll_cons r2 a2 id rest ha2]
      have e1 : a1 = { r1 with ids := r1.ids.set r1.length id, length := r1.length + 1 } := by
        simpa [NormalResult.add, hlt] using ha1.symm
      have e2 : a2 = { r2 with ids := r2.ids.set r2.length id, length := r2.length + 1 } := by
        have hlt2 : r2.length < r2.ids.length := by rw [← hi, ← hn]; exact hlt
        simpa [NormalResult.add, hlt2] using ha2.symm
      exact ih a1 a2 (by rw [e1, e2]; simp [hi, hn]) (by rw [e1, e2]; simp [hn]) h
    · simp [NormalResult.addAll, List.foldlM, NormalResult.add, hlt] at h

/-- The sort-scan loop as a run of `add` calls: with room for `limit` more ids
the loop does not panic, and what it leaves in the ids array is what a run of
`add` on at most `limit` ids leaves. -/
theorem eachLoop_adds (filter : Filter) (pass : Id → Bool)
    (hf : ∀ id, filter id = some (pass id)) (xs : List Id) (q : Query)
    (hcap : q.limit + q.result.length ≤ q.result.ids.length) :
    ∃ q' appended r', eachLoop (executeVisit filter) xs q = some q' ∧
      appended.length ≤ q.limit ∧ q.result.addAll appended = some r' ∧
      q'.result.ids = r'.ids ∧ q'.result.length = r'.length := by
  induction xs generalizing q with
  | nil => exact ⟨q, [], q.result, rfl, Nat.zero_le _, rfl, rfl, rfl⟩
  | cons x xs ih =>
    cases hp : pass x with
    | false =>
      obtain ⟨q', as, r', h1, h2⟩ := ih q hcap
      exact ⟨q', as, r', by simp [eachLoop, executeVisit, hf, hp, h1], h2⟩
    | true =>
      by_cases hoff : q.offset > 0
      · obtain ⟨q', as, r', h1, h2⟩ := ih { q with offset := q.offset - 1 } hcap
        exact ⟨q', as, r', by simp [eachLoop, executeVisit, hf, hp, hoff, h1], h2⟩
      · by_cases hlim : q.limit = 0
        · exact ⟨{ q with result := { q.result with more := true } }, [], q.result,
            by simp [eachLoop, executeVisit, hf, hp, hoff, hlim], Nat.zero_le _, rfl, rfl, rfl⟩
        · obtain ⟨r1, hr1, _, hr3, hr4, _⟩ := add_spec q.result x (by omega)
          obtain ⟨q', as, r', h1, h2, h3, h4⟩ :=
            ih { q with result := r1, limit := q.limit - 1 } (by simp only [hr3, hr4]; omega)
          refine ⟨q', x :: as, r', ?_, ?_, ?_, h4⟩
          · simp [eachLoop, executeVisit, hf, hp, hoff, hlim, hr1, h1]
          · simp only [List.length_cons]
            have : as.length ≤ q.limit - 1 := h2
            omega
          · rw [addAll_cons q.result r1 x as hr1]
            exact h3

/-- The ascending walk of `setExecute` as a run of `add` calls. -/
theorem ascLoop_adds (ranks : List Rank) (n i : Nat) (q : Query) (hi : n ≤ ranks.length - i)
    (hcap : q.limit + q.result.length ≤ q.result.ids.length) :
    ∃ q' appended r', ascLoop ranks n i q = some q' ∧
      appended.length ≤ q.limit ∧ q.result.addAll appended = some r' ∧
      q'.result.ids = r'.ids ∧ q'.result.length = r'.length := by
  induction n generalizing i q with
  | zero => exact ⟨q, [], q.result, rfl, Nat.zero_le _, rfl, rfl, rfl⟩
  | succ m ih =>
    have hlt : i < ranks.length := by omega
    rw [ascLoop, List.getElem?_eq_getElem hlt]
    by_cases hlim : q.limit = 0
    · exact ⟨{ q with result := { q.result with more := true } }, [], q.result,
        by simp only [setExecuteAdd_stop q _ hlim], Nat.zero_le _, rfl, rfl, rfl⟩
    · obtain ⟨r1, hr1, _, hr3, hr4, _⟩ := add_spec q.result (ranks[i]).id (by omega)
      have hgo : setExecuteAdd q (ranks[i]).id =
          some ({ q with result := r1, limit := q.limit - 1 }, true) := by
        simp [setExecuteAdd, hlim, hr1]
      obtain ⟨q', as, r', h1, h2, h3, h4⟩ :=
        ih (i + 1) { q with result := r1, limit := q.limit - 1 } (by omega)
          (by simp only [hr3, hr4]; omega)
      refine ⟨q', (ranks[i]).id :: as, r', by simp only [hgo, h1], ?_, ?_, h4⟩
      · simp only [List.length_cons]
        have : as.length ≤ q.limit - 1 := h2
        omega
      · rw [addAll_cons q.result r1 _ as hr1]
        exact h3

/-- The descending walk of `setExecute` as a run of `add` calls. -/
theorem descLoop_adds (ranks : List Rank) (i : Nat) (q : Query) (hi : i < ranks.length)
    (hcap : q.limit + q.result.length ≤ q.result.ids.length) :
    ∃ q' appended r', descLoop ranks i q = some q' ∧
      appended.length ≤ q.limit ∧ q.result.addAll appended = some r' ∧
      q'.result.ids = r'.ids ∧ q'.result.length = r'.length := by
  induction i generalizing q with
  | zero =>
    rw [descLoop, List.getElem?_eq_getElem hi]
    by_cases hlim : q.limit = 0
    · exact ⟨{ q with result := { q.result with more := true } }, [], q.result,
        by simp only [setExecuteAdd_stop q _ hlim], Nat.zero_le _, rfl, rfl, rfl⟩
    · obtain ⟨r1, hr1, _, hr3, hr4, _⟩ := add_spec q.result (ranks[0]).id (by omega)
      have hgo : setExecuteAdd q (ranks[0]).id =
          some ({ q with result := r1, limit := q.limit - 1 }, true) := by
        simp [setExecuteAdd, hlim, hr1]
      refine ⟨{ q with result := r1, limit := q.limit - 1 }, [(ranks[0]).id], r1,
        by simp only [hgo], ?_, ?_, rfl, rfl⟩
      · simp only [List.length_cons, List.length_nil]; omega
      · rw [addAll_cons q.result r1 _ [] hr1]; rfl
  | succ j ih =>
    rw [descLoop, List.getElem?_eq_getElem hi]
    by_cases hlim : q.limit = 0
    · exact ⟨{ q with result := { q.result with more := true } }, [], q.result,
        by simp only [setExecuteAdd_stop q _ hlim], Nat.zero_le _, rfl, rfl, rfl⟩
    · obtain ⟨r1, hr1, _, hr3, hr4, _⟩ := add_spec q.result (ranks[j + 1]).id (by omega)
      have hgo : setExecuteAdd q (ranks[j + 1]).id =
          some ({ q with result := r1, limit := q.limit - 1 }, true) := by
        simp [setExecuteAdd, hlim, hr1]
      obtain ⟨q', as, r', h1, h2, h3, h4⟩ :=
        ih { q with result := r1, limit := q.limit - 1 } (by omega)
          (by simp only [hr3, hr4]; omega)
      refine ⟨q', (ranks[j + 1]).id :: as, r', by simp only [hgo, h1], ?_, ?_, h4⟩
      · simp only [List.length_cons]
        have : as.length ≤ q.limit - 1 := h2
        omega
      · rw [addAll_cons q.result r1 _ as hr1]
        exact h3

/-- The set-driven path as a run of `add` calls: with an empty buffer that has
room for `limit` ids and a ranked scratch that holds the driving set,
`setExecute` does not panic, and what it leaves in the ids array is what a run
of `add` on at most `limit` ids leaves. -/
theorem setExecute_adds (q : Query) (sort : IdList) (filter : Filter) (pass : Id → Bool)
    (hf : ∀ id, filter id = some (pass id)) (s0 : Set) (h0 : q.sets.s[0]? = some s0)
    (hfresh : q.result.length = 0) (hranked : s0.Len ≤ q.result.ranked.length)
    (hcap : q.limit ≤ q.result.ids.length) :
    ∃ q' appended r', q.setExecute sort filter = some q' ∧
      appended.length ≤ q.limit ∧ q.result.addAll appended = some r' ∧
      q'.result.ids = r'.ids ∧ q'.result.length = r'.length := by
  obtain ⟨r, hr1, _, hr3, _, _⟩ :=
    foldlM_setExecuteVisit filter pass hf sort s0.ids q.result
      (by rw [hfresh]; simpa [Set.Len] using hranked)
  set A := sortRanks (r.ranked.take r.length) with hAdef
  set q1 : Query :=
    { q with result := { r with ranked := A ++ r.ranked.drop r.length, length := 0 } } with hq1
  have hq1cap : q1.limit + q1.result.length ≤ q1.result.ids.length := by
    simp only [hq1, hr3]; omega
  have hrun : q.setExecute sort filter =
      if q.desc then
        (if ((A.length : Int) - (q.offset : Int) - 1) > -1 then
          descLoop A ((A.length : Int) - (q.offset : Int) - 1).toNat q1 else some q1)
      else ascLoop A (A.length - q.offset) q.offset q1 := by
    simp only [Query.setExecute, h0, Set.Each, hr1, hq1, hAdef]
  have hback : ∀ (q' : Query) (appended : List Id) (r' : NormalResult),
      q1.result.addAll appended = some r' → q'.result.ids = r'.ids →
      q'.result.length = r'.length →
      ∃ r'', q.result.addAll appended = some r'' ∧ q'.result.ids = r''.ids ∧
        q'.result.length = r''.length := by
    intro q' appended r' h1 h2 h3
    obtain ⟨r'', g1, g2, g3⟩ := addAll_congr q1.result q.result appended
      (by simp only [hq1, hr3]) (by simp only [hq1, hfresh]) r' h1
    exact ⟨r'', g1, by rw [h2, g2], by rw [h3, g3]⟩
  rw [hrun]
  cases hd : q.desc with
  | true =>
    simp only [if_true]
    by_cases hlt : q.offset < A.length
    · have hi : ((A.length : Int) - (q.offset : Int) - 1) > -1 := by omega
      have hnat : ((A.length : Int) - (q.offset : Int) - 1).toNat = A.length - q.offset - 1 := by
        omega
      obtain ⟨q', as, r', h1, h2, h3, h4, h5⟩ :=
        descLoop_adds A (A.length - q.offset - 1) q1 (by omega) hq1cap
      obtain ⟨r'', g1, g2, g3⟩ := hback q' as r' h3 h4 h5
      exact ⟨q', as, r'', by simp only [hi, if_true, hnat, h1], h2, g1, g2, g3⟩
    · have hi : ¬ ((A.length : Int) - (q.offset : Int) - 1) > -1 := by omega
      obtain ⟨r'', g1, g2, g3⟩ := hback q1 [] q1.result rfl rfl rfl
      exact ⟨q1, [], r'', by simp only [hi, if_false], Nat.zero_le _, g1, g2, g3⟩
  | false =>
    simp only [Bool.false_eq_true, if_false]
    obtain ⟨q', as, r', h1, h2, h3, h4, h5⟩ :=
      ascLoop_adds A (A.length - q.offset) q.offset q1 (le_refl _) hq1cap
    obtain ⟨r'', g1, g2, g3⟩ := hback q' as r' h3 h4 h5
    exact ⟨q', as, r'', h1, h2, g1, g2, g3⟩

/-- What `Execute` does to the buffer on a query with an empty buffer, a limit
within the capacity of the ids array, its attached sets within the `Sets` array
and the `SmallSetTreshold` slots of the ranked scratch: it does not panic, and
it hands back either the empty result or the buffer after a run of `add` calls
on at most `limit` ids. -/
theorem Execute_adds (q : Query) (pool : QueryPool) (hl : q.sets.l ≤ q.sets.s.length)
    (hfresh : q.result.length = 0) (hcap : q.limit ≤ q.result.ids.length)
    (hranked : SmallSetTreshold ≤ q.result.ranked.length) :
    ∃ o appended r', q.Execute pool = some o ∧ appended.length ≤ q.limit ∧
      q.result.addAll appended = some r' ∧
      ((o.result = EmptyResult ∧ appended = []) ∨
        ∃ r, o.result = Result.normal r ∧ r.ids = r'.ids ∧ r.length = r'.length) := by
  obtain ⟨limit, offset, srt, desc, sets, result⟩ := q
  simp only at hl hfresh hcap hranked
  unfold Query.Execute
  cases srt with
  | none => exact ⟨_, [], result, rfl, Nat.zero_le _, rfl, Or.inl ⟨rfl, rfl⟩⟩
  | some sort =>
    simp only []
    by_cases hlim : limit = 0
    · exact ⟨releaseEmpty ⟨limit, offset, some sort, desc, sets, result⟩ pool, [], result,
        by simp only [hlim, if_true], Nat.zero_le _, rfl, Or.inl ⟨rfl, rfl⟩⟩
    simp only [hlim, if_false]
    by_cases hl0 : sets.l = 0
    · simp only [hl0, if_true]
      obtain ⟨q', as, r', h1, h2, h3, h4, h5⟩ :=
        eachLoop_adds noFilter (fun _ => true) (fun _ => rfl) (sort.order desc)
          ⟨limit, offset, some sort, desc, sets, result⟩ (by simp only [hfresh]; omega)
      refine ⟨⟨Result.normal q'.result, q', pool⟩, as, r', ?_, h2, h3, Or.inr ⟨_, rfl, h4, h5⟩⟩
      simp only [Query.execute, IdList.Each]
      rw [h1]
      rfl
    simp only [hl0, if_false]
    obtain ⟨s0, hs0, _, _, _⟩ := Sort_head sets hl hl0
    simp only [hs0]
    by_cases hsl : s0.Len = 0
    · exact ⟨releaseEmpty ⟨limit, offset, some sort, desc, sets.Sort, result⟩ pool, [], result,
        by simp only [hsl, if_true], Nat.zero_le _, rfl, Or.inl ⟨rfl, rfl⟩⟩
    simp only [hsl, if_false]
    by_cases hplan : s0.Len < SmallSetTreshold ∧ sort.Len > 1000
    · simp only [hplan, and_self, if_true]
      have hf : ∀ id, getFilter sets.Sort sets.l 1 id =
          some (existsAll ((sets.Sort.s.take sets.l).drop 1) id) := fun id =>
        getFilter_eq sets.Sort 1 (by rw [Sort_length]; exact hl)
          (Nat.one_le_iff_ne_zero.2 hl0) id
      obtain ⟨q', as, r', h1, h2, h3, h4, h5⟩ :=
        setExecute_adds ⟨limit, offset, some sort, desc, sets.Sort, result⟩ sort _ _ hf s0 hs0
          hfresh (by have := hplan.1; simp only [] at hranked ⊢; omega) hcap
      refine ⟨⟨Result.normal q'.result, q', pool⟩, as, r', ?_, h2, h3, Or.inr ⟨_, rfl, h4, h5⟩⟩
      rw [h1]
      rfl
    · simp only [hplan, if_false]
      have hf : ∀ id, getFilter sets.Sort sets.l 0 id =
          some (existsAll ((sets.Sort.s.take sets.l).drop 0) id) := fun id =>
        getFilter_eq sets.Sort 0 (by rw [Sort_length]; exact hl) (Nat.zero_le _) id
      obtain ⟨q', as, r', h1, h2, h3, h4, h5⟩ :=
        eachLoop_adds _ _ hf (sort.order desc)
          ⟨limit, offset, some sort, desc, sets.Sort, result⟩ (by simp only [hfresh]; omega)
      refine ⟨⟨Result.normal q'.result, q', pool⟩, as, r', ?_, h2, h3, Or.inr ⟨_, rfl, h4, h5⟩⟩
      simp only [Query.execute, IdList.Each]
      rw [h1]
      rfl

/-! ## The claim on the capacity of the result buffer -/

/-- C22: for every query whose limit is at most the capacity of the ids array
of its result buffer (the buffer empty, the attached sets within the `Sets`
array, the ranked scratch with its `SmallSetTreshold` slots, as the pool hands
them out), `Execute` returns on whichever path it takes without a write out of
bounds: it hands back the empty result or the buffer after a run of `add` calls
on at most `limit` ids, so the length of the result is the number of appended
ids, at most `min(limit, capacity)`, and `Ids()` returns exactly the appended
ids in append order. -/
theorem Execute_within_capacity (q : Query) (pool : QueryPool)
    (hl : q.sets.l ≤ q.sets.s.length) (hfresh : q.result.length = 0)
    (hcap : q.limit ≤ q.result.ids.length)
    (hranked : SmallSetTreshold ≤ q.result.ranked.length) :
    ∃ o appended r', q.Execute pool = some o ∧ appended.length ≤ q.limit ∧
      q.result.addAll appended = some r' ∧
      ((o.result = EmptyResult ∧ appended = []) ∨
        ∃ r, o.result = Result.normal r ∧ r.ids = r'.ids ∧ r.length = r'.length) ∧
      o.result.Len = appended.length ∧
      o.result.Len ≤ min q.limit q.result.ids.length ∧
      o.result.Ids = appended := by
  obtain ⟨o, appended, r', h1, h2, h3, h4⟩ := Execute_adds q pool hl hfresh hcap hranked
  obtain ⟨r'', g1, g2, g3, _⟩ := addAll_spec q.result appended (by rw [hfresh]; omega)
  rw [h3] at g1
  cases g1
  have hIds : r'.Ids = appended := by rw [g2]; simp [NormalResult.Ids, hfresh]
  have hLen : r'.length = appended.length := by rw [g3, hfresh]; omega
  have hboth : o.result.Len = appended.length ∧ o.result.Ids = appended := by
    rcases h4 with ⟨he, ha⟩ | ⟨r, hr, hi, hn⟩
    · rw [he, ha]
      exact ⟨rfl, rfl⟩
    · rw [hr]
      refine ⟨by simp only [Result.Len, NormalResult.Len]; rw [hn, hLen], ?_⟩
      simp only [Result.Ids, NormalResult.Ids, hi, hn]
      exact hIds
  refine ⟨o, appended, r', h1, h2, h3, h4, hboth.1, ?_, hboth.2⟩
  rw [hboth.1]
  exact le_min h2 (le_trans h2 hcap)

set_option maxRecDepth 100000 in
/-- The hypotheses of C22 hold on the set-driven path with the limit equal to
the capacity: a sort list of 1001 ids, one attached set of four ids of which
three are in the list, limit 2 and a buffer of 2 ids; the result is the ids 3
and 5, of length 2. -/
theorem Execute_within_capacity_witness :
    Option.map (fun (o : Outcome) => (o.result.Ids, o.result.Len, o.result.more))
        (Query.Execute ⟨2, 0, some ⟨List.range 1001⟩, false,
          ⟨[⟨[7, 5, 2000, 3]⟩, EmptySet], 1⟩, (newQuery 2 2).result⟩ []) =
        some ([3, 5], 2, true) ∧
      ∃ o appended r', Query.Execute ⟨2, 0, some ⟨List.range 1001⟩, false,
          ⟨[⟨[7, 5, 2000, 3]⟩, EmptySet], 1⟩, (newQuery 2 2).result⟩ [] = some o ∧
        appended.length ≤ 2 ∧
        (newQuery 2 2).result.addAll appended = some r' ∧
        ((o.result = EmptyResult ∧ appended = []) ∨
          ∃ r, o.result = Result.normal r ∧ r.ids = r'.ids ∧ r.length = r'.length) ∧
        o.result.Len = appended.length ∧
        o.result.Len ≤ min 2 (newQuery 2 2).result.ids.length ∧
        o.result.Ids = appended :=
  ⟨by decide,
    Execute_within_capacity
      ⟨2, 0, some ⟨List.range 1001⟩, false, ⟨[⟨[7, 5, 2000, 3]⟩, EmptySet], 1⟩,
        (newQuery 2 2).result⟩
      [] (by decide) rfl (by decide) (by decide)⟩

end Indexes
